import Mathlib

/-!
# Link analysis: the web graph and its rank propagation

A shallow embedding of `Link-Analysis/Node.h` and `Link-Analysis/Webgraph.cpp`.

Modelling conventions.

* `std::vector<Node> all_nodes` is a `List Node`; `push_back` appends at the end and
  `all_nodes[i]` is `g[i]?`.  Reading or writing past the end is undefined behaviour in
  the source; the embedding makes it an explicit failure (`none`, `Outcome.outOfBounds`).
* Indices (`uint`) are natural numbers: a node list is assumed to hold fewer than `2^32`
  nodes, so no index computation wraps.
* A `float` is an exact rational or one of the IEEE-754 specials `+inf`, `-inf`, `NaN`
  (`FVal`).  Arithmetic on finite values is exact (no rounding, no overflow); a division
  by zero yields the special value IEEE-754 prescribes, and every comparison with `NaN`
  is false.  The rank query, whose normalized ranks hinge on the rounding, is given a second
  time with its quotient and its products rounded to the 24 significant bits of a `float`
  (`getAllRanks32`).
* The recursion of `updateHelper` need not terminate; the embedding takes a fuel argument
  that bounds the number of queue entries processed.
* `Webgraph.h` and `Node.cpp` are not part of the sources at hand.  The constants
  `damping_factor` and `rank_threshold` are parameters (`Params`); the member functions of
  `Node` are modelled from section 4.1 of the specification.
-/

namespace LinkAnalysis

/-! ## Floating point values -/

/-- A `float`: an exact rational, or an IEEE-754 special value. -/
inductive FVal where
  | fin (q : ℚ)
  | pinf
  | ninf
  | nan
deriving DecidableEq

namespace FVal

/-- The infinity of the given sign. -/
def infOf (positive : Bool) : FVal := if positive then pinf else ninf

/-- IEEE-754 addition. -/
def add : FVal → FVal → FVal
  | fin a, fin b => fin (a + b)
  | nan, _ => nan
  | _, nan => nan
  | pinf, ninf => nan
  | ninf, pinf => nan
  | pinf, _ => pinf
  | _, pinf => pinf
  | ninf, _ => ninf
  | _, ninf => ninf

/-- IEEE-754 negation. -/
def neg : FVal → FVal
  | fin a => fin (-a)
  | pinf => ninf
  | ninf => pinf
  | nan => nan

/-- IEEE-754 subtraction. -/
def sub (a b : FVal) : FVal := add a (neg b)

/-- IEEE-754 multiplication. -/
def mul : FVal → FVal → FVal
  | fin a, fin b => fin (a * b)
  | nan, _ => nan
  | _, nan => nan
  | pinf, fin b => if b = 0 then nan else infOf (decide (0 < b))
  | fin a, pinf => if a = 0 then nan else infOf (decide (0 < a))
  | ninf, fin b => if b = 0 then nan else infOf (decide (b < 0))
  | fin a, ninf => if a = 0 then nan else infOf (decide (a < 0))
  | pinf, pinf => pinf
  | ninf, ninf => pinf
  | pinf, ninf => ninf
  | ninf, pinf => ninf

/-- IEEE-754 division; a zero divisor is the positive zero. -/
def div : FVal → FVal → FVal
  | fin a, fin b =>
    if b = 0 then (if a = 0 then nan else infOf (decide (0 < a))) else fin (a / b)
  | nan, _ => nan
  | _, nan => nan
  | fin _, pinf => fin 0
  | fin _, ninf => fin 0
  | pinf, fin b => infOf (decide (0 ≤ b))
  | ninf, fin b => infOf (decide (b < 0))
  | pinf, pinf => nan
  | pinf, ninf => nan
  | ninf, pinf => nan
  | ninf, ninf => nan

/-- The `float` overload of `std::abs`. -/
def abs : FVal → FVal
  | fin a => fin |a|
  | pinf => pinf
  | ninf => pinf
  | nan => nan

/-- The comparison `a < b` of two floats. -/
def lt : FVal → FVal → Bool
  | fin a, fin b => decide (a < b)
  | nan, _ => false
  | _, nan => false
  | ninf, ninf => false
  | ninf, _ => true
  | pinf, _ => false
  | fin _, pinf => true
  | fin _, ninf => false

/-- The comparison `a > b` of two floats. -/
def gt (a b : FVal) : Bool := lt b a

end FVal

/-! ## Node -/

/-- The data members of class `Node` (`Node.h`). -/
structure Node where
  url : String
  rank : FVal
  timestamp : Nat
  children : List String
  parents : List String
deriving DecidableEq

namespace Node

/-- Modelled from the spec: the constructor of `Node` (`Node.cpp` is missing), section 4.1:
a new node with rank 0 and empty adjacency sets. -/
def create (url_ : String) (timestamp_ : Nat) : Node :=
  { url := url_, rank := FVal.fin 0, timestamp := timestamp_, children := [], parents := [] }

/-- Modelled from the spec: `Node::hasChild` (`Node.cpp` is missing), section 4.1:
the presence test on the children. -/
def hasChild (n : Node) (child_ : String) : Bool := decide (child_ ∈ n.children)

/-- Modelled from the spec: `Node::hasParent` (`Node.cpp` is missing), section 4.1:
the presence test on the parents. -/
def hasParent (n : Node) (parent_ : String) : Bool := decide (parent_ ∈ n.parents)

/-- Modelled from the spec: `Node::addChild` (`Node.cpp` is missing), section 4.1:
inserts the identifier if absent and returns whether an insertion occurred.  The children
are a `std::vector`, so the insertion is taken to be a `push_back`. -/
def addChild (n : Node) (child_ : String) : Node × Bool :=
  if n.hasChild child_ then (n, false)
  else ({ n with children := n.children ++ [child_] }, true)

/-- Modelled from the spec: `Node::addParent` (`Node.cpp` is missing), section 4.1:
inserts the identifier if absent and returns whether an insertion occurred. -/
def addParent (n : Node) (parent_ : String) : Node × Bool :=
  if n.hasParent parent_ then (n, false)
  else ({ n with parents := n.parents ++ [parent_] }, true)

/-- Modelled from the spec: `Node::updateRank` (`Node.cpp` is missing), section 4.1:
an unconditional overwrite of the rank. -/
def updateRank (n : Node) (rank_ : FVal) : Node := { n with rank := rank_ }

end Node

/-! ## Webgraph -/

/-- The state of a `Webgraph`: its member `all_nodes`. -/
abbrev Webgraph := List Node

/-- The constants `damping_factor` and `rank_threshold` of `Webgraph.h`. -/
structure Params where
  damping_factor : ℚ
  rank_threshold : ℚ

/-- Modelled from the spec: the time stamp a node is created with.  The constructor call of
`addLink` passes none, and no function of `Webgraph.cpp` reads it. -/
def creationTimestamp : Nat := 0

/-- The member function `Webgraph::hasLink`: the scan for a node with the given url. -/
def hasLink : Webgraph → String → Bool
  | [], _ => false
  | n :: rest, url_ => if n.url = url_ then true else hasLink rest url_

/-- The member function `Webgraph::getNodeIndexFromLink`: the index of the first node with the
given url, the number of nodes when there is none. -/
def getNodeIndexFromLink : Webgraph → String → Nat
  | [], _ => 0
  | n :: rest, url_ => if n.url = url_ then 0 else getNodeIndexFromLink rest url_ + 1

/-- The member function `Webgraph::getNodeFromLink`: `all_nodes[i]` for the index found by the
same scan. -/
def getNodeFromLink (g : Webgraph) (url_ : String) : Option Node :=
  g[getNodeIndexFromLink g url_]?

/-- The member function `Webgraph::getIncomingLinks`. -/
def getIncomingLinks (n : Node) : List String := n.parents

/-- The member function `Webgraph::getOutgoingLinks`. -/
def getOutgoingLinks (n : Node) : List String := n.children

/-- The member function `Webgraph::addLink`: the new state and the returned flag. -/
def addLink (g : Webgraph) (url_ : String) : Webgraph × Bool :=
  if hasLink g url_ then (g, false)
  else (g ++ [Node.create url_ creationTimestamp], true)

/-- The member function `Webgraph::addConnection`: the new state and the returned flag; `none`
when an index past the end of `all_nodes` is dereferenced. -/
def addConnection (g : Webgraph) (from_url to_url : String) : Option (Webgraph × Bool) :=
  let g1 := if hasLink g from_url = false then (addLink g from_url).1 else g
  let g2 := if hasLink g1 to_url = false then (addLink g1 to_url).1 else g1
  let index_from := getNodeIndexFromLink g2 from_url
  let index_to := getNodeIndexFromLink g2 to_url
  match g2[index_from]?, g2[index_to]? with
  | some nodeFrom, some nodeTo =>
    let resC := nodeFrom.addChild nodeTo.url
    let g3 := g2.set index_from resC.1
    match g3[index_to]?, g3[index_from]? with
    | some nodeTo3, some nodeFrom3 =>
      let resP := nodeTo3.addParent nodeFrom3.url
      some (g3.set index_to resP.1, resC.2 || resP.2)
    | _, _ => none
  | _, _ => none

/-! ## Rank propagation -/

/-- How a call of a recursive member function ends under a bound on its recursion depth. -/
inductive Outcome (α : Type) where
  | done (a : α)
  | outOfBounds
  | outOfFuel
deriving DecidableEq

/-- The loop of `updateHelper` over the parents of the current node: `new_rank` accumulates
`from_rank / outgoing_number`; `none` when a parent is looked up past the end. -/
def incomingSum (g : Webgraph) : List String → FVal → Option FVal
  | [], new_rank => some new_rank
  | p :: rest, new_rank =>
    match g[getNodeIndexFromLink g p]? with
    | none => none
    | some nodeP =>
      let from_rank := nodeP.rank
      let outgoing_number := (getOutgoingLinks nodeP).length
      incomingSum g rest (FVal.add new_rank (FVal.div from_rank (FVal.fin outgoing_number)))

/-- The convergence test of `updateHelper`:
`float(abs(new_rank - old_rank) / old_rank) < rank_threshold`. -/
def converged (P : Params) (new_rank old_rank : FVal) : Bool :=
  FVal.lt (FVal.div (FVal.abs (FVal.sub new_rank old_rank)) old_rank)
    (FVal.fin P.rank_threshold)

/-- The body of `updateHelper` for a non-empty queue, up to the recursive call: the entry
`index_current` has been popped and `work_queue` is the rest.  Returns the new state and the
queue handed to the recursive call; `none` when an index past the end is dereferenced. -/
def updateHelperStep (P : Params) (g : Webgraph) (index_current : Nat)
    (work_queue : List Nat) : Option (Webgraph × List Nat) :=
  match g[index_current]? with
  | none => none
  | some current =>
    match incomingSum g (getIncomingLinks current) (FVal.fin 0) with
    | none => none
    | some sum =>
      let new_rank := FVal.add (FVal.sub (FVal.fin 1) (FVal.fin P.damping_factor))
        (FVal.mul (FVal.fin P.damping_factor) sum)
      let old_rank := current.rank
      let g' := g.set index_current (current.updateRank new_rank)
      if converged P new_rank old_rank then some (g', work_queue)
      else
        let children := getOutgoingLinks (current.updateRank new_rank)
        some (g', work_queue ++ children.map (getNodeIndexFromLink g'))

/-- The member function `Webgraph::updateHelper`: the final state and the number of queue
entries processed.  Every processed entry costs one unit of fuel. -/
def updateHelper (P : Params) : Nat → Webgraph → List Nat → Outcome (Webgraph × Nat)
  | _, g, [] => Outcome.done (g, 0)
  | 0, _, _ :: _ => Outcome.outOfFuel
  | fuel + 1, g, index_current :: work_queue =>
    match updateHelperStep P g index_current work_queue with
    | none => Outcome.outOfBounds
    | some (g', q') =>
      match updateHelper P fuel g' q' with
      | Outcome.done (g'', k) => Outcome.done (g'', k + 1)
      | Outcome.outOfBounds => Outcome.outOfBounds
      | Outcome.outOfFuel => Outcome.outOfFuel

/-- The member function `Webgraph::updateRank`: the queue is seeded with the index of the start
url. -/
def updateRank (P : Params) (fuel : Nat) (g : Webgraph) (url_ : String) :
    Outcome (Webgraph × Nat) :=
  updateHelper P fuel g [getNodeIndexFromLink g url_]

/-! ## Rank query -/

/-- A `std::map<string, pair<float, float>>` as a finite partial function. -/
abbrev RankMap := String → Option (FVal × FVal)

namespace RankMap

/-- The empty map. -/
def empty : RankMap := fun _ => none

/-- The reference `m[k]` read: the entry, value-initialised when the key is new. -/
def entry (m : RankMap) (k : String) : FVal × FVal := (m k).getD (FVal.fin 0, FVal.fin 0)

/-- The assignment `m[k] = v`. -/
def assign (m : RankMap) (k : String) (v : FVal × FVal) : RankMap :=
  fun k' => if k' = k then some v else m k'

/-- The assignment `m[k].first = x`. -/
def setFirst (m : RankMap) (k : String) (x : FVal) : RankMap := m.assign k (x, (m.entry k).2)

/-- The assignment `m[k].second = x`. -/
def setSecond (m : RankMap) (k : String) (x : FVal) : RankMap := m.assign k ((m.entry k).1, x)

end RankMap

/-- The first loop of `getAllRanks`: stores the raw ranks and records the highest one. -/
def collectRanks : List Node → RankMap × FVal → RankMap × FVal
  | [], acc => acc
  | n :: rest, (all_ranks, rank_max) =>
    let m1 := all_ranks.assign n.url (FVal.fin 0, FVal.fin 0)
    let m2 := m1.setFirst n.url n.rank
    collectRanks rest (m2, if FVal.gt n.rank rank_max then n.rank else rank_max)

/-- The second loop of `getAllRanks`: stores the normalized ranks. -/
def storeNormalized (scale : FVal) : List Node → RankMap → RankMap
  | [], all_ranks => all_ranks
  | n :: rest, all_ranks =>
    storeNormalized scale rest (all_ranks.setSecond n.url (FVal.mul n.rank scale))

/-- The member function `Webgraph::getAllRanks`. -/
def getAllRanks (g : Webgraph) : RankMap :=
  let acc := collectRanks g (RankMap.empty, FVal.fin 0)
  let scale := FVal.div (FVal.fin 10) acc.2
  storeNormalized scale g acc.1

/-! ## Reachable states -/

/-- The graphs built from the empty graph by `addLink` and `addConnection` calls. -/
inductive Built : Webgraph → Prop
  | empty : Built []
  | addLink (g : Webgraph) (url_ : String) : Built g → Built (addLink g url_).1
  | addConnection (g : Webgraph) (from_url to_url : String) (g' : Webgraph) (r : Bool) :
      Built g → addConnection g from_url to_url = some (g', r) → Built g'

/-- The graphs reached from the empty graph by `addLink`, `addConnection` and returning
`updateRank` calls. -/
inductive Reachable (P : Params) : Webgraph → Prop
  | empty : Reachable P []
  | addLink (g : Webgraph) (url_ : String) : Reachable P g → Reachable P (addLink g url_).1
  | addConnection (g : Webgraph) (from_url to_url : String) (g' : Webgraph) (r : Bool) :
      Reachable P g → addConnection g from_url to_url = some (g', r) → Reachable P g'
  | updateRank (g : Webgraph) (url_ : String) (fuel : Nat) (g' : Webgraph) (k : Nat) :
      Reachable P g → updateRank P fuel g url_ = Outcome.done (g', k) → Reachable P g'

/-! ## Auxiliary definitions of the verification -/

/-- The urls of the nodes, in node order. -/
def urls (g : Webgraph) : List String := g.map Node.url

/-- The statement `if (hasLink(u) == false) addLink(u);` of `addConnection`. -/
def ensureLink (g : Webgraph) (u : String) : Webgraph :=
  if hasLink g u = false then (addLink g u).1 else g

/-- What `addConnection` makes of the node at position `k`: the child `b` is inserted at the
position `i` of the source node, then the parent `a` at the position `j` of the target. -/
def linkNode (i j : Nat) (a b : String) (k : Nat) (n : Node) : Node :=
  let n1 := if k = i then (n.addChild b).1 else n
  if k = j then (n1.addParent a).1 else n1

/-- The node list with every rank reset: what is left is urls, time stamps and edges. -/
def eraseRanks (g : Webgraph) : Webgraph := g.map (fun n => n.updateRank (FVal.fin 0))

/-- No identifier occurs twice among the children or among the parents of a node. -/
def NoDuplicateEdges (g : Webgraph) : Prop :=
  ∀ n ∈ g, n.children.Nodup ∧ n.parents.Nodup

/-- Every identifier among the children or the parents of a node is the url of a node. -/
def EdgeClosed (g : Webgraph) : Prop :=
  ∀ n ∈ g, (∀ c ∈ n.children, hasLink g c = true) ∧ (∀ p ∈ n.parents, hasLink g p = true)

/-- The constants of the scenario: damping factor 0.85 and threshold 0.0001. -/
def scenarioParams : Params := ⟨85 / 100, 1 / 10000⟩

/-- The graph with the edges A→B, A→C and B→C and ranks `a`, `b`, `c`. -/
def scenarioGraph (a b c : ℚ) : Webgraph :=
  [⟨"A", FVal.fin a, 0, ["B", "C"], []⟩, ⟨"B", FVal.fin b, 0, ["C"], ["A"]⟩,
    ⟨"C", FVal.fin c, 0, [], ["A", "B"]⟩]

/-- The children relation on identifiers: `b` is a child of a node with the url `a`. -/
def ChildOf (g : Webgraph) (b a : String) : Prop := ∃ n ∈ g, n.url = a ∧ b ∈ n.children

/-- The children relation has no directed cycle. -/
def Acyclic (g : Webgraph) : Prop := ∀ a, ¬ Relation.TransGen (ChildOf g) a a

/-- The index `j` is what `updateHelper` pushes for a child of the node at the index `i`. -/
def ChildIndex (g : Webgraph) (j i : Nat) : Prop :=
  ∃ n, g[i]? = some n ∧ ∃ c ∈ n.children, j = getNodeIndexFromLink g c

/-- The url at an index of the node list, the empty string past the end. -/
def urlAt (g : Webgraph) (i : Nat) : String := ((g[i]?).map Node.url).getD ""

/-- The last node of the list with the given url: the one whose rank ends up in the map of
`getAllRanks`. -/
def lastWithUrl : Webgraph → String → Option Node
  | [], _ => none
  | n :: rest, k =>
    match lastWithUrl rest k with
    | some m => some m
    | none => if n.url = k then some n else none

/-- The normalization bound in exact arithmetic: every normalized rank returned by
`getAllRanks` lies in the interval from 0 to 10, and every node of maximum raw rank has the
normalized rank 10. -/
def NormalizationBound (g : Webgraph) : Prop :=
  (∀ k e, getAllRanks g k = some e → ∃ v : ℚ, e.2 = FVal.fin v ∧ 0 ≤ v ∧ v ≤ 10) ∧
  (∀ n ∈ g, (∀ m ∈ g, FVal.lt n.rank m.rank = false) →
    ∃ raw, getAllRanks g n.url = some (raw, FVal.fin 10))

/-- The division with the guard the source lacks: `none` when the divisor is zero. -/
def FVal.divGuarded (a b : FVal) : Option FVal :=
  if b = FVal.fin 0 then none else some (FVal.div a b)

/-- The rank `updateHelper` assigns for the accumulated sum of incoming shares:
`(1 - damping_factor) + damping_factor * new_rank`. -/
def dampedRank (P : Params) (sum : FVal) : FVal :=
  FVal.add (FVal.sub (FVal.fin 1) (FVal.fin P.damping_factor))
    (FVal.mul (FVal.fin P.damping_factor) sum)

/-- Parent/child symmetry: every parent of a node is the url of a node that has this node
among its children, and every child is the url of a node that has it among its parents. -/
def EdgeSymmetric (g : Webgraph) : Prop :=
  ∀ n ∈ g, (∀ p ∈ n.parents, ∃ m, getNodeFromLink g p = some m ∧ n.url ∈ m.children) ∧
    (∀ c ∈ n.children, ∃ m, getNodeFromLink g c = some m ∧ n.url ∈ m.parents)

/-- The run of `updateHelper` with its trace: the indices of the processed queue entries, in
the order of processing, in place of their number. -/
def updateHelperTrace (P : Params) : Nat → Webgraph → List Nat → Outcome (Webgraph × List Nat)
  | _, g, [] => Outcome.done (g, [])
  | 0, _, _ :: _ => Outcome.outOfFuel
  | fuel + 1, g, index_current :: work_queue =>
    match updateHelperStep P g index_current work_queue with
    | none => Outcome.outOfBounds
    | some (g', q') =>
      match updateHelperTrace P fuel g' q' with
      | Outcome.done (g'', tr) => Outcome.done (g'', index_current :: tr)
      | Outcome.outOfBounds => Outcome.outOfBounds
      | Outcome.outOfFuel => Outcome.outOfFuel

/-- The reachable states, each with the indices processed by the `updateRank` calls of a
history that leads to it. -/
inductive ReachableTrace (P : Params) : Webgraph → List Nat → Prop
  | empty : ReachableTrace P [] []
  | addLink (g : Webgraph) (pr : List Nat) (url_ : String) :
      ReachableTrace P g pr → ReachableTrace P (addLink g url_).1 pr
  | addConnection (g : Webgraph) (pr : List Nat) (from_url to_url : String) (g' : Webgraph)
      (r : Bool) :
      ReachableTrace P g pr → addConnection g from_url to_url = some (g', r) →
      ReachableTrace P g' pr
  | updateRank (g : Webgraph) (pr : List Nat) (url_ : String) (fuel : Nat) (g' : Webgraph)
      (tr : List Nat) :
      ReachableTrace P g pr →
      updateHelperTrace P fuel g [getNodeIndexFromLink g url_] = Outcome.done (g', tr) →
      ReachableTrace P g' (pr ++ tr)

/-- The index `j` is reached from the index `i` along pushes of children. -/
def ReachesIndex (g : Webgraph) (i j : Nat) : Prop :=
  Relation.ReflTransGen (fun a b => ChildIndex g b a) i j

/-- Every rank is exactly 0 or a finite value of at least `1 - damping_factor`. -/
def RanksInRange (P : Params) (g : Webgraph) : Prop :=
  ∀ n ∈ g, n.rank = FVal.fin 0 ∨ ∃ q : ℚ, n.rank = FVal.fin q ∧ 1 - P.damping_factor ≤ q

/-- The node list `g'` differs from `g` in rank fields at most: same length, and at every
position the same url, time stamp, children and parents. -/
def SameButRanks (g g' : Webgraph) : Prop :=
  g'.length = g.length ∧
  ∀ (k : Nat) (n' : Node), g'[k]? = some n' → ∃ n : Node, g[k]? = some n ∧ n.url = n'.url ∧
    n.timestamp = n'.timestamp ∧ n.children = n'.children ∧ n.parents = n'.parents

/-- The nearest integer, a tie going to the even one. -/
def roundHalfEven (x : ℚ) : ℤ :=
  if x - (⌊x⌋ : ℚ) < 1 / 2 then ⌊x⌋
  else if 1 / 2 < x - (⌊x⌋ : ℚ) then ⌊x⌋ + 1
  else if ⌊x⌋ % 2 = 0 then ⌊x⌋ else ⌊x⌋ + 1

/-- The exponent of the unit in the last place of a positive value held with 24 significant
bits: `2 ^ (e + 23) ≤ x < 2 ^ (e + 24)`. -/
def ulpExponent (x : ℚ) : ℤ := Int.log 2 x - 23

/-- The rounding of an exact result to a `float` (IEEE-754 binary32): to the nearest value
with 24 significant bits, a tie going to the even significand.  The exponent range is not
bounded: no overflow and no underflow. -/
def round32 (x : ℚ) : ℚ :=
  roundHalfEven (x / 2 ^ ulpExponent |x|) * 2 ^ ulpExponent |x|

/-- The rounding of the result of a `float` operation: a finite result is rounded, a special
value is kept. -/
def FVal.toBinary32 : FVal → FVal
  | FVal.fin q => FVal.fin (round32 q)
  | x => x

/-- The second loop of `getAllRanks` with the product rounded to a `float`. -/
def storeNormalized32 (scale : FVal) : List Node → RankMap → RankMap
  | [], all_ranks => all_ranks
  | n :: rest, all_ranks =>
    storeNormalized32 scale rest
      (all_ranks.setSecond n.url (FVal.toBinary32 (FVal.mul n.rank scale)))

/-- The member function `Webgraph::getAllRanks` with its two arithmetic operations, the
quotient `10 / rank_max` and the products `rank * scale`, rounded to a `float`. -/
def getAllRanks32 (g : Webgraph) : RankMap :=
  let acc := collectRanks g (RankMap.empty, FVal.fin 0)
  let scale := FVal.toBinary32 (FVal.div (FVal.fin 10) acc.2)
  storeNormalized32 scale g acc.1

/-- The normalization bound with the tolerance `tol`, for the rank query in binary32
arithmetic: every normalized rank lies in the interval from 0 to `10 + tol`, and the
normalized rank of every node of maximum raw rank differs from 10 by at most `tol`. -/
def NormalizationWithin (tol : ℚ) (g : Webgraph) : Prop :=
  (∀ k e, getAllRanks32 g k = some e → ∃ v : ℚ, e.2 = FVal.fin v ∧ 0 ≤ v ∧ v ≤ 10 + tol) ∧
  (∀ n ∈ g, (∀ m ∈ g, FVal.lt n.rank m.rank = false) →
    ∃ raw v, getAllRanks32 g n.url = some (raw, FVal.fin v) ∧ |v - 10| ≤ tol)

/-- The constants of the rounding example: damping factor 0.625 and threshold 0.0001. -/
def roundingParams : Params := ⟨5 / 8, 1 / 10000⟩

/-- The graph with the edge A→B and the ranks `a`, `b`. -/
def roundingGraph (a b : ℚ) : Webgraph :=
  [⟨"A", FVal.fin a, 0, ["B"], []⟩, ⟨"B", FVal.fin b, 0, [], ["A"]⟩]

/-! # Lemmas -/

/-! ## Lookup lemmas -/

theorem hasLink_iff (g : Webgraph) (u : String) :
    hasLink g u = true ↔ ∃ n ∈ g, n.url = u := by
  induction g with
  | nil => simp [hasLink]
  | cons n rest ih =>
    by_cases h : n.url = u
    · simp [hasLink, h]
    · simp [hasLink, h, ih]

theorem hasLink_iff_mem_urls (g : Webgraph) (u : String) :
    hasLink g u = true ↔ u ∈ urls g := by
  rw [hasLink_iff]; simp [urls]

theorem hasLink_congr {g g' : Webgraph} (h : urls g = urls g') (u : String) :
    hasLink g' u = hasLink g u := by
  have h1 := hasLink_iff_mem_urls g u
  have h2 := hasLink_iff_mem_urls g' u
  rw [h] at h1
  cases hg : hasLink g u <;> cases hg' : hasLink g' u <;> simp_all

theorem getNodeIndexFromLink_congr {g g' : Webgraph} (h : urls g = urls g') (u : String) :
    getNodeIndexFromLink g' u = getNodeIndexFromLink g u := by
  induction g generalizing g' with
  | nil =>
    cases g' with
    | nil => rfl
    | cons _ _ => simp [urls] at h
  | cons n rest ih =>
    cases g' with
    | nil => simp [urls] at h
    | cons n' rest' =>
      simp only [urls, List.map_cons, List.cons.injEq] at h
      simp only [getNodeIndexFromLink, h.1]
      rw [ih h.2]

theorem getNodeIndexFromLink_le (g : Webgraph) (u : String) :
    getNodeIndexFromLink g u ≤ g.length := by
  induction g with
  | nil => simp [getNodeIndexFromLink]
  | cons n rest ih =>
    simp only [getNodeIndexFromLink, List.length_cons]
    split <;> omega

theorem getNodeIndexFromLink_lt_iff (g : Webgraph) (u : String) :
    getNodeIndexFromLink g u < g.length ↔ hasLink g u = true := by
  induction g with
  | nil => simp [getNodeIndexFromLink, hasLink]
  | cons n rest ih =>
    by_cases h : n.url = u
    · simp [getNodeIndexFromLink, hasLink, h]
    · simp [getNodeIndexFromLink, hasLink, h, ih]

theorem getNodeIndexFromLink_of_not_hasLink {g : Webgraph} {u : String}
    (h : hasLink g u = false) : getNodeIndexFromLink g u = g.length := by
  have h1 := getNodeIndexFromLink_le g u
  have h2 := getNodeIndexFromLink_lt_iff g u
  rw [h] at h2
  simp at h2
  omega

/-- The node found for a url that is present carries this url, and no earlier node does. -/
theorem getNodeIndexFromLink_spec {g : Webgraph} {u : String} (h : hasLink g u = true) :
    ∃ n, g[getNodeIndexFromLink g u]? = some n ∧ n.url = u ∧
      ∀ j m, j < getNodeIndexFromLink g u → g[j]? = some m → m.url ≠ u := by
  induction g with
  | nil => simp [hasLink] at h
  | cons n rest ih =>
    by_cases hn : n.url = u
    · refine ⟨n, by simp [getNodeIndexFromLink, hn], hn, ?_⟩
      intro j m hj
      simp [getNodeIndexFromLink, hn] at hj
    · simp only [hasLink, hn, if_false] at h
      obtain ⟨m, hm, hu, hmin⟩ := ih h
      refine ⟨m, by simp [getNodeIndexFromLink, hn, hm], hu, ?_⟩
      intro j k hj hk
      cases j with
      | zero => simp at hk; subst hk; exact hn
      | succ j =>
        simp only [getNodeIndexFromLink, hn, if_false, Nat.add_lt_add_iff_right] at hj
        simp only [List.getElem?_cons_succ] at hk
        exact hmin j k hj hk

/-- In a list without repeated urls, a node is found at its own position. -/
theorem getNodeIndexFromLink_of_nodup {g : Webgraph} (hnd : (urls g).Nodup) {i : Nat} {n : Node}
    (hi : g[i]? = some n) : getNodeIndexFromLink g n.url = i := by
  induction g generalizing i with
  | nil => simp at hi
  | cons m rest ih =>
    simp only [urls, List.map_cons, List.nodup_cons] at hnd
    cases i with
    | zero =>
      simp at hi; subst hi
      simp [getNodeIndexFromLink]
    | succ i =>
      simp only [List.getElem?_cons_succ] at hi
      have hmem : n.url ∈ rest.map Node.url :=
        List.mem_map.mpr ⟨n, List.getElem?_mem hi, rfl⟩
      have hne : m.url ≠ n.url := fun h => hnd.1 (h ▸ hmem)
      simp only [getNodeIndexFromLink, hne, if_false]
      rw [ih hnd.2 hi]

/-! ## Node lemmas -/

theorem Node.addChild_fst (n : Node) (c : String) :
    (n.addChild c).1 =
      { n with children := if c ∈ n.children then n.children else n.children ++ [c] } := by
  unfold Node.addChild Node.hasChild
  by_cases h : c ∈ n.children <;> simp [h]

theorem Node.addChild_snd (n : Node) (c : String) :
    (n.addChild c).2 = !decide (c ∈ n.children) := by
  unfold Node.addChild Node.hasChild
  by_cases h : c ∈ n.children <;> simp [h]

theorem Node.addParent_fst (n : Node) (p : String) :
    (n.addParent p).1 =
      { n with parents := if p ∈ n.parents then n.parents else n.parents ++ [p] } := by
  unfold Node.addParent Node.hasParent
  by_cases h : p ∈ n.parents <;> simp [h]

theorem Node.addParent_snd (n : Node) (p : String) :
    (n.addParent p).2 = !decide (p ∈ n.parents) := by
  unfold Node.addParent Node.hasParent
  by_cases h : p ∈ n.parents <;> simp [h]

/-! ## addLink and the end points of addConnection -/

theorem ensureLink_eq (g : Webgraph) (u : String) :
    ensureLink g u =
      if hasLink g u = true then g else g ++ [Node.create u creationTimestamp] := by
  unfold ensureLink addLink
  cases h : hasLink g u <;> simp

theorem urls_append (g l : Webgraph) : urls (g ++ l) = urls g ++ urls l := by
  simp [urls]

theorem hasLink_append (g l : Webgraph) (u : String) :
    hasLink (g ++ l) u = (hasLink g u || hasLink l u) := by
  induction g with
  | nil => simp [hasLink]
  | cons n rest ih =>
    by_cases h : n.url = u <;> simp [hasLink, h, ih]

theorem hasLink_ensureLink_self (g : Webgraph) (u : String) :
    hasLink (ensureLink g u) u = true := by
  rw [ensureLink_eq]
  cases h : hasLink g u
  · simp [hasLink_append, hasLink, Node.create]
  · simp [h]

theorem hasLink_ensureLink_of_hasLink {g : Webgraph} {v : String} (u : String)
    (h : hasLink g v = true) : hasLink (ensureLink g u) v = true := by
  rw [ensureLink_eq]
  split
  · exact h
  · simp [hasLink_append, h]

theorem ensureLink_of_hasLink {g : Webgraph} {u : String} (h : hasLink g u = true) :
    ensureLink g u = g := by
  rw [ensureLink_eq]; simp [h]

/-- Every node of the state with the end point ensured is an old node or the fresh one. -/
theorem mem_ensureLink {g : Webgraph} {u : String} {n : Node} (h : n ∈ ensureLink g u) :
    n ∈ g ∨ n = Node.create u creationTimestamp := by
  rw [ensureLink_eq] at h
  split at h
  · exact Or.inl h
  · simpa using h

theorem nodup_urls_ensureLink {g : Webgraph} (u : String) (h : (urls g).Nodup) :
    (urls (ensureLink g u)).Nodup := by
  rw [ensureLink_eq]
  cases hl : hasLink g u
  · have hnot : u ∉ urls g := by
      intro hm
      rw [← hasLink_iff_mem_urls, hl] at hm
      exact Bool.noConfusion hm
    simp only [Bool.false_eq_true, if_false, urls_append]
    rw [List.nodup_append]
    refine ⟨h, by simp [urls], ?_⟩
    intro x hx hx'
    simp [urls, Node.create] at hx'
    subst hx'
    exact hnot hx
  · simpa using h

/-! ## The explicit form of addConnection -/

theorem linkNode_url (i j : Nat) (a b : String) (k : Nat) (n : Node) :
    (linkNode i j a b k n).url = n.url := by
  unfold linkNode
  simp only [Node.addChild_fst, Node.addParent_fst]
  split <;> split <;> rfl

theorem linkNode_rank (i j : Nat) (a b : String) (k : Nat) (n : Node) :
    (linkNode i j a b k n).rank = n.rank := by
  unfold linkNode
  simp only [Node.addChild_fst, Node.addParent_fst]
  split <;> split <;> rfl

theorem linkNode_children (i j : Nat) (a b : String) (k : Nat) (n : Node) :
    (linkNode i j a b k n).children =
      if k = i ∧ b ∉ n.children then n.children ++ [b] else n.children := by
  unfold linkNode
  simp only [Node.addChild_fst, Node.addParent_fst]
  split_ifs <;> simp_all

theorem linkNode_parents (i j : Nat) (a b : String) (k : Nat) (n : Node) :
    (linkNode i j a b k n).parents =
      if k = j ∧ a ∉ n.parents then n.parents ++ [a] else n.parents := by
  unfold linkNode
  simp only [Node.addChild_fst, Node.addParent_fst]
  split_ifs <;> simp_all

/-- The explicit form of `addConnection`: no index is out of range, every node of the state
with both end points ensured is rewritten by `linkNode`, and the flag tells whether one of
the two insertions took place. -/
theorem addConnection_spec (g : Webgraph) (a b : String) :
    ∃ g' nf nt,
      (ensureLink (ensureLink g a) b)[getNodeIndexFromLink
        (ensureLink (ensureLink g a) b) a]? = some nf ∧ nf.url = a ∧
      (ensureLink (ensureLink g a) b)[getNodeIndexFromLink
        (ensureLink (ensureLink g a) b) b]? = some nt ∧ nt.url = b ∧
      addConnection g a b = some (g',
        (!decide (b ∈ nf.children)) || !decide (a ∈ nt.parents)) ∧
      ∀ k, g'[k]? = ((ensureLink (ensureLink g a) b)[k]?).map
        (linkNode (getNodeIndexFromLink (ensureLink (ensureLink g a) b) a)
          (getNodeIndexFromLink (ensureLink (ensureLink g a) b) b) a b k) := by
  have ha : hasLink (ensureLink (ensureLink g a) b) a = true :=
    hasLink_ensureLink_of_hasLink b (hasLink_ensureLink_self g a)
  have hb : hasLink (ensureLink (ensureLink g a) b) b = true := hasLink_ensureLink_self _ b
  obtain ⟨nf, hnf, hnfu, hfmin⟩ := getNodeIndexFromLink_spec ha
  obtain ⟨nt, hnt, hntu, htmin⟩ := getNodeIndexFromLink_spec hb
  have hunfold : addConnection g a b =
      (match (ensureLink (ensureLink g a) b)[getNodeIndexFromLink
          (ensureLink (ensureLink g a) b) a]?,
        (ensureLink (ensureLink g a) b)[getNodeIndexFromLink
          (ensureLink (ensureLink g a) b) b]? with
      | some nodeFrom, some nodeTo =>
        match ((ensureLink (ensureLink g a) b).set (getNodeIndexFromLink
            (ensureLink (ensureLink g a) b) a) (nodeFrom.addChild nodeTo.url).1)[
              getNodeIndexFromLink (ensureLink (ensureLink g a) b) b]?,
          ((ensureLink (ensureLink g a) b).set (getNodeIndexFromLink
            (ensureLink (ensureLink g a) b) a) (nodeFrom.addChild nodeTo.url).1)[
              getNodeIndexFromLink (ensureLink (ensureLink g a) b) a]? with
        | some nodeTo3, some nodeFrom3 =>
          some (((ensureLink (ensureLink g a) b).set (getNodeIndexFromLink
            (ensureLink (ensureLink g a) b) a) (nodeFrom.addChild nodeTo.url).1).set
              (getNodeIndexFromLink (ensureLink (ensureLink g a) b) b)
              (nodeTo3.addParent nodeFrom3.url).1,
            (nodeFrom.addChild nodeTo.url).2 || (nodeTo3.addParent nodeFrom3.url).2)
        | _, _ => none
      | _, _ => none) := rfl
  generalize ensureLink (ensureLink g a) b = g2 at *
  generalize hi : getNodeIndexFromLink g2 a = i at *
  generalize hj : getNodeIndexFromLink g2 b = j at *
  have hil : i < g2.length := (List.getElem?_eq_some.mp hnf).1
  have hjl : j < g2.length := (List.getElem?_eq_some.mp hnt).1
  have hij : i = j → nf = nt := by
    intro h; subst h; rw [hnf] at hnt; exact Option.some.inj hnt
  rw [hunfold, hnf, hnt]
  simp only [hntu]
  have h3i : (g2.set i (nf.addChild b).1)[i]? = some (nf.addChild b).1 := by
    simp [hil]
  have h3j : (g2.set i (nf.addChild b).1)[j]? =
      some (if i = j then (nf.addChild b).1 else nt) := by
    rw [List.getElem?_set]
    by_cases h : i = j <;> simp [h, hil, hjl, hnt]
  rw [h3i, h3j]
  simp only
  have hurl : (nf.addChild b).1.url = a := by rw [Node.addChild_fst]; exact hnfu
  rw [hurl]
  refine ⟨(g2.set i (nf.addChild b).1).set j
    ((if i = j then (nf.addChild b).1 else nt).addParent a).1, nf, nt, rfl, hnfu, rfl, hntu,
    ?_, ?_⟩
  · congr 2
    rw [Node.addChild_snd, Node.addParent_snd]
    by_cases h : i = j
    · have := hij h; subst this
      simp [h, Node.addChild_fst]
    · simp [h]
  · intro k
    rw [List.getElem?_set, List.getElem?_set]
    have hlen : (g2.set i (nf.addChild b).1).length = g2.length := by simp
    by_cases hkj : j = k
    · subst hkj
      simp only [if_true, hlen, hjl, hnt, Option.map_some']
      by_cases hki : i = j
      · have := hij hki; subst this
        simp [linkNode, hki]
      · have hki' : ¬ j = i := fun h => hki h.symm
        simp [linkNode, hki, hki']
    · have hkj' : ¬ k = j := fun h => hkj h.symm
      simp only [hkj, if_false]
      by_cases hki : i = k
      · subst hki
        simp [linkNode, hil, hnf, hkj']
      · have hki' : ¬ k = i := fun h => hki h.symm
        simp only [hki, if_false]
        cases hk : g2[k]? <;> simp [linkNode, hki', hkj']

theorem addLink_fst (g : Webgraph) (u : String) : (addLink g u).1 = ensureLink g u := by
  unfold ensureLink addLink
  cases h : hasLink g u <;> simp

theorem linkNode_timestamp (i j : Nat) (a b : String) (k : Nat) (n : Node) :
    (linkNode i j a b k n).timestamp = n.timestamp := by
  unfold linkNode
  simp only [Node.addChild_fst, Node.addParent_fst]
  split <;> split <;> rfl

theorem linkNode_eq_self {i j : Nat} {a b : String} {k : Nat} {n : Node}
    (hc : k = i → b ∈ n.children) (hp : k = j → a ∈ n.parents) :
    linkNode i j a b k n = n := by
  unfold linkNode
  simp only [Node.addChild_fst, Node.addParent_fst]
  split_ifs <;> simp_all

/-- Two node lists related position by position by a url preserving map have the same urls. -/
theorem urls_eq_of_getElem? {g g' : Webgraph} {f : Nat → Node → Node}
    (h : ∀ k, g'[k]? = (g[k]?).map (f k)) (hf : ∀ k n, (f k n).url = n.url) :
    urls g' = urls g := by
  apply List.ext_getElem?
  intro k
  simp only [urls, List.getElem?_map, h k]
  cases g[k]? <;> simp [hf]

theorem getNodeIndexFromLink_append (g l : Webgraph) (u : String) :
    getNodeIndexFromLink (g ++ l) u =
      if hasLink g u = true then getNodeIndexFromLink g u
      else g.length + getNodeIndexFromLink l u := by
  induction g with
  | nil => simp [hasLink]
  | cons n rest ih =>
    have hc : getNodeIndexFromLink (n :: rest ++ l) u =
        if n.url = u then 0 else getNodeIndexFromLink (rest ++ l) u + 1 := rfl
    rw [hc, ih]
    by_cases h : n.url = u
    · simp [getNodeIndexFromLink, hasLink, h]
    · by_cases hr : hasLink rest u = true
      · simp [getNodeIndexFromLink, hasLink, h, hr]
      · simp [getNodeIndexFromLink, hasLink, h, hr]; omega

theorem getNodeFromLink_append (g l : Webgraph) (u : String) :
    getNodeFromLink (g ++ l) u =
      if hasLink g u = true then getNodeFromLink g u else getNodeFromLink l u := by
  unfold getNodeFromLink
  rw [getNodeIndexFromLink_append]
  by_cases h : hasLink g u = true
  · have hlt := (getNodeIndexFromLink_lt_iff g u).mpr h
    simp [h, List.getElem?_append_left hlt]
  · simp [h, List.getElem?_append_right]

theorem getNodeFromLink_isSome_iff (g : Webgraph) (u : String) :
    (∃ n, getNodeFromLink g u = some n) ↔ hasLink g u = true := by
  unfold getNodeFromLink
  rw [← getNodeIndexFromLink_lt_iff]
  constructor
  · rintro ⟨n, hn⟩
    exact (List.getElem?_eq_some.mp hn).1
  · intro h
    exact ⟨g[getNodeIndexFromLink g u], List.getElem?_eq_getElem h⟩

theorem getNodeFromLink_of_not_hasLink {g : Webgraph} {u : String}
    (h : ¬ hasLink g u = true) : getNodeFromLink g u = none := by
  cases hn : getNodeFromLink g u with
  | none => rfl
  | some n => exact absurd ((getNodeFromLink_isSome_iff g u).mp ⟨n, hn⟩) h

theorem getNodeFromLink_ensureLink (g : Webgraph) (u v : String) :
    getNodeFromLink (ensureLink g u) v =
      if hasLink g v = true then getNodeFromLink g v
      else if u = v then some (Node.create u creationTimestamp) else none := by
  rw [ensureLink_eq]
  by_cases hu : hasLink g u = true
  · rw [if_pos hu]
    by_cases hv : hasLink g v = true
    · rw [if_pos hv]
    · have hne : ¬ u = v := fun h => hv (h ▸ hu)
      rw [if_neg hv, if_neg hne]
      exact getNodeFromLink_of_not_hasLink hv
  · rw [if_neg hu, getNodeFromLink_append]
    by_cases hv : hasLink g v = true
    · rw [if_pos hv, if_pos hv]
    · rw [if_neg hv, if_neg hv]
      by_cases h : u = v
      · simp [h, getNodeFromLink, getNodeIndexFromLink, Node.create]
      · simp [h, getNodeFromLink, getNodeIndexFromLink, Node.create]
/-- The source node `addConnection` works on. -/
theorem getNodeFromLink_ensured_from (g : Webgraph) (a b : String) :
    getNodeFromLink (ensureLink (ensureLink g a) b) a =
      if hasLink g a = true then getNodeFromLink g a
      else some (Node.create a creationTimestamp) := by
  rw [getNodeFromLink_ensureLink, getNodeFromLink_ensureLink]
  simp [hasLink_ensureLink_self]

/-- The target node `addConnection` works on. -/
theorem getNodeFromLink_ensured_to (g : Webgraph) (a b : String) :
    getNodeFromLink (ensureLink (ensureLink g a) b) b =
      if hasLink g b = true then getNodeFromLink g b
      else some (Node.create b creationTimestamp) := by
  rw [getNodeFromLink_ensureLink, getNodeFromLink_ensureLink]
  by_cases hb : hasLink g b = true
  · simp [hb, hasLink_ensureLink_of_hasLink]
  · by_cases hab : a = b
    · subst hab
      simp [hb, hasLink_ensureLink_self]
    · have h1 : ¬ hasLink (ensureLink g a) b = true := by
        rw [ensureLink_eq]
        split
        · exact hb
        · simp [hasLink_append, hb, hasLink, Node.create, hab]
      simp [hb, h1, hab]

/-- After `addConnection` the source node has the child and the target node the parent. -/
theorem addConnection_linked {g g' : Webgraph} {a b : String} {r : Bool}
    (h : addConnection g a b = some (g', r)) :
    hasLink g' a = true ∧ hasLink g' b = true ∧
    (∃ na, getNodeFromLink g' a = some na ∧ b ∈ na.children) ∧
    (∃ nb, getNodeFromLink g' b = some nb ∧ a ∈ nb.parents) := by
  obtain ⟨g'', nf, nt, hnf, hnfu, hnt, hntu, heq, hk⟩ := addConnection_spec g a b
  rw [h] at heq
  have hg : g' = g'' := (Prod.mk.inj (Option.some.inj heq)).1
  subst hg
  have hurls := urls_eq_of_getElem? hk (linkNode_url _ _ a b)
  have ha : hasLink (ensureLink (ensureLink g a) b) a = true :=
    hasLink_ensureLink_of_hasLink b (hasLink_ensureLink_self g a)
  have hb : hasLink (ensureLink (ensureLink g a) b) b = true := hasLink_ensureLink_self _ b
  generalize ensureLink (ensureLink g a) b = g2 at *
  have hia := getNodeIndexFromLink_congr hurls.symm a
  have hib := getNodeIndexFromLink_congr hurls.symm b
  generalize getNodeIndexFromLink g2 a = i at *
  generalize getNodeIndexFromLink g2 b = j at *
  refine ⟨by rw [hasLink_congr hurls.symm]; exact ha, by rw [hasLink_congr hurls.symm]; exact hb,
    ?_, ?_⟩
  · refine ⟨linkNode i j a b i nf, ?_, ?_⟩
    · unfold getNodeFromLink
      rw [hia, hk, hnf]
      rfl
    · rw [linkNode_children]
      split <;> simp_all
  · refine ⟨linkNode i j a b j nt, ?_, ?_⟩
    · unfold getNodeFromLink
      rw [hib, hk, hnt]
      rfl
    · rw [linkNode_parents]
      split <;> simp_all

/-- The flag of `addConnection` is false exactly when the connection was there in both
directions, and the state is then left as it was. -/
theorem addConnection_flag {g g' : Webgraph} {a b : String} {r : Bool}
    (h : addConnection g a b = some (g', r)) :
    (r = false ↔ ∃ na nb, getNodeFromLink g a = some na ∧ getNodeFromLink g b = some nb ∧
      b ∈ na.children ∧ a ∈ nb.parents) ∧ (r = false → g' = g) := by
  obtain ⟨g'', nf, nt, hnf, hnfu, hnt, hntu, heq, hk⟩ := addConnection_spec g a b
  rw [h] at heq
  obtain ⟨hg, hr⟩ := Prod.mk.inj (Option.some.inj heq)
  subst hg
  have hnf' : getNodeFromLink (ensureLink (ensureLink g a) b) a = some nf := hnf
  have hnt' : getNodeFromLink (ensureLink (ensureLink g a) b) b = some nt := hnt
  rw [getNodeFromLink_ensured_from] at hnf'
  rw [getNodeFromLink_ensured_to] at hnt'
  have hiff : r = false ↔ (b ∈ nf.children ∧ a ∈ nt.parents) := by
    rw [hr]; simp
  have hfwd : r = false → hasLink g a = true ∧ hasLink g b = true := by
    intro h0
    obtain ⟨hc, hp⟩ := hiff.mp h0
    constructor
    · by_contra hna
      simp only [hna, if_false] at hnf'
      have := Option.some.inj hnf'
      subst this
      simp [Node.create] at hc
    · by_contra hnb
      simp only [hnb, if_false] at hnt'
      have := Option.some.inj hnt'
      subst this
      simp [Node.create] at hp
  refine ⟨⟨?_, ?_⟩, ?_⟩
  · intro h0
    obtain ⟨ha, hb⟩ := hfwd h0
    simp only [ha, hb, if_true] at hnf' hnt'
    exact ⟨nf, nt, hnf', hnt', hiff.mp h0⟩
  · rintro ⟨na, nb, hna, hnb, hc, hp⟩
    have ha := (getNodeFromLink_isSome_iff g a).mp ⟨na, hna⟩
    have hb := (getNodeFromLink_isSome_iff g b).mp ⟨nb, hnb⟩
    simp only [ha, hb, if_true, hna, hnb] at hnf' hnt'
    have h1 := Option.some.inj hnf'
    have h2 := Option.some.inj hnt'
    subst h1; subst h2
    exact hiff.mpr ⟨hc, hp⟩
  · intro h0
    obtain ⟨ha, hb⟩ := hfwd h0
    obtain ⟨hc, hp⟩ := hiff.mp h0
    have hg2 : ensureLink (ensureLink g a) b = g := by
      rw [ensureLink_of_hasLink ha, ensureLink_of_hasLink hb]
    rw [hg2] at hk hnf hnt
    apply List.ext_getElem?
    intro k
    rw [hk]
    cases hgk : g[k]? with
    | none => rfl
    | some n =>
      simp only [Option.map_some', Option.some.injEq]
      apply linkNode_eq_self
      · intro hki
        subst hki
        rw [hgk] at hnf
        have := Option.some.inj hnf
        subst this
        exact hc
      · intro hkj
        subst hkj
        rw [hgk] at hnt
        have := Option.some.inj hnt
        subst this
        exact hp

theorem addConnection_isSome (g : Webgraph) (a b : String) :
    ∃ g' r, addConnection g a b = some (g', r) := by
  obtain ⟨g', nf, nt, _, _, _, _, heq, _⟩ := addConnection_spec g a b
  exact ⟨g', _, heq⟩

/-! ## Rank propagation changes ranks only -/

theorem set_eq_self_of_getElem? {α : Type} {l : List α} {i : Nat} {x : α}
    (h : l[i]? = some x) : l.set i x = l := by
  apply List.ext_getElem?
  intro k
  rw [List.getElem?_set]
  by_cases hik : i = k
  · subst hik
    simp [(List.getElem?_eq_some.mp h).1, h]
  · simp [hik]

theorem eraseRanks_set_updateRank {g : Webgraph} {i : Nat} {n : Node} (h : g[i]? = some n)
    (r : FVal) : eraseRanks (g.set i (n.updateRank r)) = eraseRanks g := by
  unfold eraseRanks
  rw [List.map_set]
  apply set_eq_self_of_getElem?
  simp [h, Node.updateRank]

theorem urls_eraseRanks (g : Webgraph) : urls (eraseRanks g) = urls g := by
  simp [urls, eraseRanks, Node.updateRank]

theorem urls_eq_of_eraseRanks {g g' : Webgraph} (h : eraseRanks g' = eraseRanks g) :
    urls g' = urls g := by
  rw [← urls_eraseRanks g', h, urls_eraseRanks]

/-- Node lists that agree up to ranks hold, position by position, nodes that agree in url
and edges. -/
theorem getElem?_of_eraseRanks {g g' : Webgraph} (h : eraseRanks g' = eraseRanks g) {k : Nat}
    {n' : Node} (hk : g'[k]? = some n') :
    ∃ n, g[k]? = some n ∧ n.url = n'.url ∧ n.timestamp = n'.timestamp ∧
      n.children = n'.children ∧ n.parents = n'.parents := by
  have h1 : (eraseRanks g')[k]? = some (n'.updateRank (FVal.fin 0)) := by
    simp [eraseRanks, hk]
  rw [h] at h1
  simp only [eraseRanks, List.getElem?_map] at h1
  cases hg : g[k]? with
  | none => simp [hg] at h1
  | some n =>
    rw [hg] at h1
    simp only [Option.map_some', Option.some.injEq, Node.updateRank] at h1
    refine ⟨n, rfl, ?_⟩
    have h2 := congrArg Node.url h1
    have h3 := congrArg Node.timestamp h1
    have h4 := congrArg Node.children h1
    have h5 := congrArg Node.parents h1
    exact ⟨h2, h3, h4, h5⟩

theorem mem_of_eraseRanks {g g' : Webgraph} (h : eraseRanks g' = eraseRanks g) {n' : Node}
    (hn : n' ∈ g') :
    ∃ n ∈ g, n.url = n'.url ∧ n.children = n'.children ∧ n.parents = n'.parents := by
  obtain ⟨k, hk⟩ := List.mem_iff_getElem?.mp hn
  obtain ⟨n, hg, h1, _, h3, h4⟩ := getElem?_of_eraseRanks h hk
  exact ⟨n, List.getElem?_mem hg, h1, h3, h4⟩

theorem updateHelperStep_eraseRanks {P : Params} {g g' : Webgraph} {i : Nat} {q q' : List Nat}
    (h : updateHelperStep P g i q = some (g', q')) : eraseRanks g' = eraseRanks g := by
  unfold updateHelperStep at h
  cases hg : g[i]? with
  | none => simp [hg] at h
  | some current =>
    simp only [hg] at h
    cases hs : incomingSum g (getIncomingLinks current) (FVal.fin 0) with
    | none => simp [hs] at h
    | some sum =>
      simp only [hs] at h
      split at h
      · have := (Prod.mk.inj (Option.some.inj h)).1
        rw [← this]
        exact eraseRanks_set_updateRank hg _
      · have := (Prod.mk.inj (Option.some.inj h)).1
        rw [← this]
        exact eraseRanks_set_updateRank hg _

theorem updateHelper_eraseRanks {P : Params} {fuel : Nat} {g g' : Webgraph} {q : List Nat}
    {k : Nat} (h : updateHelper P fuel g q = Outcome.done (g', k)) :
    eraseRanks g' = eraseRanks g := by
  induction fuel generalizing g g' q k with
  | zero =>
    cases q with
    | nil =>
      simp only [updateHelper, Outcome.done.injEq, Prod.mk.injEq] at h
      rw [h.1]
    | cons i rest => simp [updateHelper] at h
  | succ fuel ih =>
    cases q with
    | nil =>
      simp only [updateHelper, Outcome.done.injEq, Prod.mk.injEq] at h
      rw [h.1]
    | cons i rest =>
      simp only [updateHelper] at h
      cases hs : updateHelperStep P g i rest with
      | none => simp [hs] at h
      | some res =>
        obtain ⟨g1, q1⟩ := res
        simp only [hs] at h
        cases hr : updateHelper P fuel g1 q1 with
        | done res2 =>
          obtain ⟨g2, k2⟩ := res2
          simp only [hr, Outcome.done.injEq, Prod.mk.injEq] at h
          rw [← h.1, ih hr, updateHelperStep_eraseRanks hs]
        | outOfBounds => simp [hr] at h
        | outOfFuel => simp [hr] at h

theorem updateRank_eraseRanks {P : Params} {fuel : Nat} {g g' : Webgraph} {u : String}
    {k : Nat} (h : updateRank P fuel g u = Outcome.done (g', k)) :
    eraseRanks g' = eraseRanks g :=
  updateHelper_eraseRanks h

/-! ## Invariants of the reachable states -/

theorem noDuplicateEdges_of_eraseRanks {g g' : Webgraph} (h : eraseRanks g' = eraseRanks g)
    (hg : NoDuplicateEdges g) : NoDuplicateEdges g' := by
  intro n' hn'
  obtain ⟨n, hn, _, hc, hp⟩ := mem_of_eraseRanks h hn'
  rw [← hc, ← hp]
  exact hg n hn

theorem edgeClosed_of_eraseRanks {g g' : Webgraph} (h : eraseRanks g' = eraseRanks g)
    (hg : EdgeClosed g) : EdgeClosed g' := by
  intro n' hn'
  obtain ⟨n, hn, _, hc, hp⟩ := mem_of_eraseRanks h hn'
  rw [← hc, ← hp]
  have hu := urls_eq_of_eraseRanks h
  refine ⟨fun c hcm => ?_, fun p hpm => ?_⟩
  · rw [hasLink_congr hu.symm]; exact (hg n hn).1 c hcm
  · rw [hasLink_congr hu.symm]; exact (hg n hn).2 p hpm

theorem noDuplicateEdges_ensureLink {g : Webgraph} (u : String) (hg : NoDuplicateEdges g) :
    NoDuplicateEdges (ensureLink g u) := by
  intro n hn
  rcases mem_ensureLink hn with h | h
  · exact hg n h
  · subst h; simp [Node.create]

theorem edgeClosed_ensureLink {g : Webgraph} (u : String) (hg : EdgeClosed g) :
    EdgeClosed (ensureLink g u) := by
  intro n hn
  rcases mem_ensureLink hn with h | h
  · exact ⟨fun c hc => hasLink_ensureLink_of_hasLink u ((hg n h).1 c hc),
      fun p hp => hasLink_ensureLink_of_hasLink u ((hg n h).2 p hp)⟩
  · subst h; simp [Node.create]

/-- Every node after `addConnection` is a node of the state with both end points ensured,
rewritten by `linkNode`. -/
theorem addConnection_mem {g g' : Webgraph} {a b : String} {r : Bool}
    (h : addConnection g a b = some (g', r)) :
    urls g' = urls (ensureLink (ensureLink g a) b) ∧
    ∀ n' ∈ g', ∃ n ∈ ensureLink (ensureLink g a) b, ∃ i j k, n' = linkNode i j a b k n := by
  obtain ⟨g'', nf, nt, hnf, hnfu, hnt, hntu, heq, hk⟩ := addConnection_spec g a b
  rw [h] at heq
  have hg : g' = g'' := (Prod.mk.inj (Option.some.inj heq)).1
  subst hg
  refine ⟨urls_eq_of_getElem? hk (linkNode_url _ _ a b), ?_⟩
  intro n' hn'
  obtain ⟨k, hkn⟩ := List.mem_iff_getElem?.mp hn'
  rw [hk] at hkn
  cases hg2 : (ensureLink (ensureLink g a) b)[k]? with
  | none => simp [hg2] at hkn
  | some n =>
    rw [hg2] at hkn
    simp only [Option.map_some', Option.some.injEq] at hkn
    exact ⟨n, List.getElem?_mem hg2, _, _, k, hkn.symm⟩

theorem noDuplicateEdges_addConnection {g g' : Webgraph} {a b : String} {r : Bool}
    (h : addConnection g a b = some (g', r)) (hg : NoDuplicateEdges g) :
    NoDuplicateEdges g' := by
  have h2 : NoDuplicateEdges (ensureLink (ensureLink g a) b) :=
    noDuplicateEdges_ensureLink b (noDuplicateEdges_ensureLink a hg)
  intro n' hn'
  obtain ⟨n, hn, i, j, k, rfl⟩ := (addConnection_mem h).2 n' hn'
  rw [linkNode_children, linkNode_parents]
  obtain ⟨hc, hp⟩ := h2 n hn
  constructor
  · split
    · rename_i hcond
      rw [List.nodup_append]
      exact ⟨hc, by simp, by simpa using hcond.2⟩
    · exact hc
  · split
    · rename_i hcond
      rw [List.nodup_append]
      exact ⟨hp, by simp, by simpa using hcond.2⟩
    · exact hp

theorem edgeClosed_addConnection {g g' : Webgraph} {a b : String} {r : Bool}
    (h : addConnection g a b = some (g', r)) (hg : EdgeClosed g) : EdgeClosed g' := by
  have h2 : EdgeClosed (ensureLink (ensureLink g a) b) :=
    edgeClosed_ensureLink b (edgeClosed_ensureLink a hg)
  have ha : hasLink (ensureLink (ensureLink g a) b) a = true :=
    hasLink_ensureLink_of_hasLink b (hasLink_ensureLink_self g a)
  have hb : hasLink (ensureLink (ensureLink g a) b) b = true := hasLink_ensureLink_self _ b
  obtain ⟨hu, hmem⟩ := addConnection_mem h
  intro n' hn'
  obtain ⟨n, hn, i, j, k, rfl⟩ := hmem n' hn'
  rw [linkNode_children, linkNode_parents]
  obtain ⟨hc, hp⟩ := h2 n hn
  constructor
  · intro c hcm
    rw [hasLink_congr hu.symm]
    split at hcm
    · rcases List.mem_append.mp hcm with h1 | h1
      · exact hc c h1
      · simp at h1; subst h1; exact hb
    · exact hc c hcm
  · intro p hpm
    rw [hasLink_congr hu.symm]
    split at hpm
    · rcases List.mem_append.mp hpm with h1 | h1
      · exact hp p h1
      · simp at h1; subst h1; exact ha
    · exact hp p hpm

theorem built_reachable (P : Params) {g : Webgraph} (h : Built g) : Reachable P g := by
  induction h with
  | empty => exact Reachable.empty
  | addLink g u _ ih => exact Reachable.addLink g u ih
  | addConnection g a b g' r _ hc ih => exact Reachable.addConnection g a b g' r ih hc

theorem reachable_noDuplicateEdges {P : Params} {g : Webgraph} (h : Reachable P g) :
    NoDuplicateEdges g := by
  induction h with
  | empty => intro n hn; simp at hn
  | addLink g u _ ih => rw [addLink_fst]; exact noDuplicateEdges_ensureLink u ih
  | addConnection g a b g' r _ hc ih => exact noDuplicateEdges_addConnection hc ih
  | updateRank g u fuel g' k _ hu ih =>
    exact noDuplicateEdges_of_eraseRanks (updateRank_eraseRanks hu) ih

theorem reachable_edgeClosed {P : Params} {g : Webgraph} (h : Reachable P g) :
    EdgeClosed g := by
  induction h with
  | empty => intro n hn; simp at hn
  | addLink g u _ ih => rw [addLink_fst]; exact edgeClosed_ensureLink u ih
  | addConnection g a b g' r _ hc ih => exact edgeClosed_addConnection hc ih
  | updateRank g u fuel g' k _ hu ih =>
    exact edgeClosed_of_eraseRanks (updateRank_eraseRanks hu) ih

theorem reachable_nodup_urls {P : Params} {g : Webgraph} (h : Reachable P g) :
    (urls g).Nodup := by
  induction h with
  | empty => simp [urls]
  | addLink g u _ ih => rw [addLink_fst]; exact nodup_urls_ensureLink u ih
  | addConnection g a b g' r _ hc ih =>
    rw [(addConnection_mem hc).1]
    exact nodup_urls_ensureLink b (nodup_urls_ensureLink a ih)
  | updateRank g u fuel g' k _ hu ih =>
    rw [urls_eq_of_eraseRanks (updateRank_eraseRanks hu)]; exact ih

/-! ## Arithmetic on finite values -/

theorem FVal.add_fin (a b : ℚ) : FVal.add (FVal.fin a) (FVal.fin b) = FVal.fin (a + b) := rfl

theorem FVal.sub_fin (a b : ℚ) : FVal.sub (FVal.fin a) (FVal.fin b) = FVal.fin (a - b) := by
  simp [FVal.sub, FVal.neg, FVal.add, sub_eq_add_neg]

theorem FVal.mul_fin (a b : ℚ) : FVal.mul (FVal.fin a) (FVal.fin b) = FVal.fin (a * b) := rfl

theorem FVal.div_fin {b : ℚ} (a : ℚ) (hb : b ≠ 0) :
    FVal.div (FVal.fin a) (FVal.fin b) = FVal.fin (a / b) := by
  simp [FVal.div, hb]

theorem FVal.abs_fin (a : ℚ) : FVal.abs (FVal.fin a) = FVal.fin |a| := rfl

theorem FVal.lt_fin (a b : ℚ) : FVal.lt (FVal.fin a) (FVal.fin b) = decide (a < b) := rfl

/-- The relative change against an old rank 0 is never below the threshold: the quotient is
`+inf` or `NaN`. -/
theorem converged_old_zero (P : Params) (new_rank : ℚ) :
    converged P (FVal.fin new_rank) (FVal.fin 0) = false := by
  unfold converged
  rw [FVal.sub_fin, FVal.abs_fin]
  have hdiv : FVal.div (FVal.fin |new_rank - 0|) (FVal.fin 0) =
      if |new_rank - 0| = 0 then FVal.nan else FVal.pinf := by
    by_cases h : |new_rank - 0| = 0
    · simp only [FVal.div, h, if_true]
    · have hpos : 0 < |new_rank - 0| := lt_of_le_of_ne (abs_nonneg _) (Ne.symm h)
      simp only [FVal.div, if_true, h, if_false, hpos, decide_True, FVal.infOf]
  rw [hdiv]
  split <;> rfl

/-! ## Fuel -/

theorem updateHelper_fuel_succ {P : Params} {fuel : Nat} {g : Webgraph} {q : List Nat}
    {res : Webgraph × Nat} (h : updateHelper P fuel g q = Outcome.done res) :
    updateHelper P (fuel + 1) g q = Outcome.done res := by
  induction fuel generalizing g q res with
  | zero =>
    cases q with
    | nil => simpa [updateHelper] using h
    | cons i rest => simp [updateHelper] at h
  | succ fuel ih =>
    cases q with
    | nil => simpa [updateHelper] using h
    | cons i rest =>
      rw [updateHelper] at h ⊢
      cases hs : updateHelperStep P g i rest with
      | none => simp [hs] at h
      | some st =>
        obtain ⟨g1, q1⟩ := st
        simp only [hs] at h ⊢
        cases hr : updateHelper P fuel g1 q1 with
        | done res2 =>
          rw [ih hr]
          rw [hr] at h
          exact h
        | outOfBounds => simp [hr] at h
        | outOfFuel => simp [hr] at h

theorem updateHelper_fuel_mono {P : Params} {fuel fuel' : Nat} {g : Webgraph} {q : List Nat}
    {res : Webgraph × Nat} (h : updateHelper P fuel g q = Outcome.done res)
    (hle : fuel ≤ fuel') : updateHelper P fuel' g q = Outcome.done res := by
  induction hle with
  | refl => exact h
  | step _ ih => exact updateHelper_fuel_succ ih

/-- One processed entry followed by a returning run is a returning run. -/
theorem updateHelper_cons {P : Params} {fuel : Nat} {g g1 g' : Webgraph} {i k : Nat}
    {rest q1 : List Nat} (hs : updateHelperStep P g i rest = some (g1, q1))
    (hr : updateHelper P fuel g1 q1 = Outcome.done (g', k)) :
    updateHelper P (fuel + 1) g (i :: rest) = Outcome.done (g', k + 1) := by
  rw [updateHelper]
  simp only [hs, hr]

/-! ## The scenario A→B, A→C, B→C -/

theorem scenario_built_eq :
    addConnection [] "A" "B" =
      some ([⟨"A", FVal.fin 0, 0, ["B"], []⟩, ⟨"B", FVal.fin 0, 0, [], ["A"]⟩], true) ∧
    addConnection [⟨"A", FVal.fin 0, 0, ["B"], []⟩, ⟨"B", FVal.fin 0, 0, [], ["A"]⟩] "A" "C" =
      some ([⟨"A", FVal.fin 0, 0, ["B", "C"], []⟩, ⟨"B", FVal.fin 0, 0, [], ["A"]⟩,
        ⟨"C", FVal.fin 0, 0, [], ["A"]⟩], true) ∧
    addConnection [⟨"A", FVal.fin 0, 0, ["B", "C"], []⟩, ⟨"B", FVal.fin 0, 0, [], ["A"]⟩,
        ⟨"C", FVal.fin 0, 0, [], ["A"]⟩] "B" "C" = some (scenarioGraph 0 0 0, true) := by
  refine ⟨by decide, by decide, by decide⟩

theorem scenario_built : Built (scenarioGraph 0 0 0) :=
  Built.addConnection _ "B" "C" _ true
    (Built.addConnection _ "A" "C" _ true
      (Built.addConnection [] "A" "B" _ true Built.empty scenario_built_eq.1)
      scenario_built_eq.2.1)
    scenario_built_eq.2.2

theorem scenario_index (a b c : ℚ) :
    getNodeIndexFromLink (scenarioGraph a b c) "A" = 0 ∧
    getNodeIndexFromLink (scenarioGraph a b c) "B" = 1 ∧
    getNodeIndexFromLink (scenarioGraph a b c) "C" = 2 := by
  have hAB : ¬ "A" = "B" := by decide
  have hAC : ¬ "A" = "C" := by decide
  have hBC : ¬ "B" = "C" := by decide
  simp [getNodeIndexFromLink, scenarioGraph, hAB, hAC, hBC]

theorem scenario_step_A (b c : ℚ) (q : List Nat) :
    updateHelperStep scenarioParams (scenarioGraph 0 b c) 0 q =
      some (scenarioGraph (3 / 20) b c, q ++ [1, 2]) := by
  have hi := scenario_index (3 / 20) b c
  simp only [scenarioGraph] at hi
  norm_num [updateHelperStep, scenarioGraph, scenarioParams, getIncomingLinks,
    getOutgoingLinks, incomingSum, FVal.sub_fin, FVal.mul_fin, FVal.add_fin, Node.updateRank,
    converged_old_zero, hi]

theorem scenario_step_B (c : ℚ) (q : List Nat) :
    updateHelperStep scenarioParams (scenarioGraph (3 / 20) 0 c) 1 q =
      some (scenarioGraph (3 / 20) (171 / 800) c, q ++ [2]) := by
  have hi := scenario_index (3 / 20) 0 c
  have hi' := scenario_index (3 / 20) (171 / 800) c
  simp only [scenarioGraph] at hi hi'
  norm_num [updateHelperStep, scenarioGraph, scenarioParams, getIncomingLinks,
    getOutgoingLinks, incomingSum, FVal.sub_fin, FVal.mul_fin, FVal.add_fin, Node.updateRank,
    converged_old_zero, FVal.div_fin, hi, hi']

theorem scenario_step_C (q : List Nat) :
    updateHelperStep scenarioParams (scenarioGraph (3 / 20) (171 / 800) 0) 2 q =
      some (scenarioGraph (3 / 20) (171 / 800) (6327 / 16000), q) := by
  have hi := scenario_index (3 / 20) (171 / 800) 0
  simp only [scenarioGraph] at hi
  norm_num [updateHelperStep, scenarioGraph, scenarioParams, getIncomingLinks,
    getOutgoingLinks, incomingSum, FVal.sub_fin, FVal.mul_fin, FVal.add_fin, Node.updateRank,
    converged_old_zero, FVal.div_fin, hi]

theorem scenario_step_C_again (q : List Nat) :
    updateHelperStep scenarioParams (scenarioGraph (3 / 20) (171 / 800) (6327 / 16000)) 2 q =
      some (scenarioGraph (3 / 20) (171 / 800) (6327 / 16000), q) := by
  have hi := scenario_index (3 / 20) (171 / 800) (6327 / 16000)
  simp only [scenarioGraph] at hi
  norm_num [updateHelperStep, scenarioGraph, scenarioParams, getIncomingLinks,
    getOutgoingLinks, incomingSum, FVal.sub_fin, FVal.mul_fin, FVal.add_fin, Node.updateRank,
    converged, FVal.div_fin, FVal.abs_fin, FVal.lt_fin, hi]

theorem scenario_run :
    updateRank scenarioParams 4 (scenarioGraph 0 0 0) "A" =
      Outcome.done (scenarioGraph (3 / 20) (171 / 800) (6327 / 16000), 4) := by
  have h5 : updateHelper scenarioParams 0 (scenarioGraph (3 / 20) (171 / 800) (6327 / 16000))
      [] = Outcome.done (scenarioGraph (3 / 20) (171 / 800) (6327 / 16000), 0) := rfl
  have h4 := updateHelper_cons (scenario_step_C_again []) h5
  have h3 := updateHelper_cons (scenario_step_C [2]) h4
  have h2 := updateHelper_cons (scenario_step_B 0 [2]) h3
  have h1 := updateHelper_cons (scenario_step_A 0 0 []) h2
  unfold updateRank
  rw [(scenario_index 0 0 0).1]
  exact h1

theorem scenario_reachable :
    Reachable scenarioParams (scenarioGraph (3 / 20) (171 / 800) (6327 / 16000)) :=
  Reachable.updateRank (scenarioGraph 0 0 0) "A" 4 _ 4
    (built_reachable scenarioParams scenario_built) scenario_run

/-! ## Termination of the propagation on acyclic graphs -/

theorem length_eq_of_eraseRanks {g g' : Webgraph} (h : eraseRanks g' = eraseRanks g) :
    g'.length = g.length := by
  have := congrArg List.length h
  simpa [eraseRanks] using this

theorem childIndex_lt {g : Webgraph} (hc : EdgeClosed g) {j i : Nat} (h : ChildIndex g j i) :
    j < g.length ∧ i < g.length := by
  obtain ⟨n, hn, c, hcm, rfl⟩ := h
  exact ⟨(getNodeIndexFromLink_lt_iff g c).mpr ((hc n (List.getElem?_mem hn)).1 c hcm),
    (List.getElem?_eq_some.mp hn).1⟩

theorem childIndex_childOf {g : Webgraph} (hc : EdgeClosed g) {j i : Nat}
    (h : ChildIndex g j i) : ChildOf g (urlAt g j) (urlAt g i) := by
  obtain ⟨n, hn, c, hcm, rfl⟩ := h
  have hl := (hc n (List.getElem?_mem hn)).1 c hcm
  obtain ⟨m, hm, hmu, _⟩ := getNodeIndexFromLink_spec hl
  refine ⟨n, List.getElem?_mem hn, ?_, ?_⟩
  · simp [urlAt, hn]
  · simpa [urlAt, hm, hmu] using hcm

theorem childIndex_of_eraseRanks {g g' : Webgraph} (h : eraseRanks g' = eraseRanks g)
    {j i : Nat} (hji : ChildIndex g' j i) : ChildIndex g j i := by
  obtain ⟨n', hn', c, hcm, rfl⟩ := hji
  obtain ⟨n, hn, _, _, hch, _⟩ := getElem?_of_eraseRanks h hn'
  exact ⟨n, hn, c, hch ▸ hcm, getNodeIndexFromLink_congr (urls_eq_of_eraseRanks h).symm c⟩

theorem childIndex_wf {g : Webgraph} (hc : EdgeClosed g) (hac : Acyclic g) :
    WellFounded (ChildIndex g) := by
  have htrans : IsTrans (Fin g.length)
      (fun a b => Relation.TransGen (ChildIndex g) a.val b.val) :=
    ⟨fun _ _ _ h1 h2 => Relation.TransGen.trans h1 h2⟩
  have hirr : IsIrrefl (Fin g.length)
      (fun a b => Relation.TransGen (ChildIndex g) a.val b.val) :=
    ⟨fun a h => hac _ (Relation.TransGen.lift (urlAt g) (fun _ _ => childIndex_childOf hc) h)⟩
  have hwf : WellFounded
      (fun a b : Fin g.length => Relation.TransGen (ChildIndex g) a.val b.val) :=
    Finite.wellFounded_of_trans_of_irrefl _
  have hacc : ∀ x : Fin g.length, Acc (ChildIndex g) x.val := by
    intro x
    induction x using hwf.induction with
    | _ x ih =>
      constructor
      intro j hj
      exact ih ⟨j, (childIndex_lt hc hj).1⟩ (Relation.TransGen.single hj)
  constructor
  intro i
  by_cases hi : i < g.length
  · exact hacc ⟨i, hi⟩
  · constructor
    intro j hj
    exact absurd (childIndex_lt hc hj).2 hi

theorem incomingSum_isSome {g : Webgraph} {ps : List String}
    (h : ∀ p ∈ ps, hasLink g p = true) (acc : FVal) : ∃ s, incomingSum g ps acc = some s := by
  induction ps generalizing acc with
  | nil => exact ⟨acc, rfl⟩
  | cons p rest ih =>
    obtain ⟨m, hm, _, _⟩ := getNodeIndexFromLink_spec (h p (List.mem_cons_self _ _))
    simp only [incomingSum, hm]
    exact ih (fun p' hp' => h p' (List.mem_cons_of_mem _ hp')) _

/-- In an edge-closed graph the body of `updateHelper` does not fail on an index in range; it
changes ranks only, and it appends to the queue nothing but indices of children of the
current node. -/
theorem updateHelperStep_progress (P : Params) {g : Webgraph} (hc : EdgeClosed g) {i : Nat}
    (hi : i < g.length) (rest : List Nat) :
    ∃ g1 t, updateHelperStep P g i rest = some (g1, rest ++ t) ∧
      eraseRanks g1 = eraseRanks g ∧ ∀ j ∈ t, ChildIndex g j i := by
  have hgi : g[i]? = some g[i] := List.getElem?_eq_getElem hi
  obtain ⟨s, hs⟩ := incomingSum_isSome (hc g[i] (List.getElem_mem hi)).2 (FVal.fin 0)
  unfold updateHelperStep
  simp only [hgi, getIncomingLinks, hs]
  generalize FVal.add (FVal.sub (FVal.fin 1) (FVal.fin P.damping_factor))
    (FVal.mul (FVal.fin P.damping_factor) s) = nr
  split
  · refine ⟨g.set i (g[i].updateRank nr), [], ?_, ?_, ?_⟩
    · rw [List.append_nil]
    · exact eraseRanks_set_updateRank hgi _
    · intro j hj
      exact absurd hj (List.not_mem_nil j)
  · refine ⟨g.set i (g[i].updateRank nr),
      (getOutgoingLinks (g[i].updateRank nr)).map
        (getNodeIndexFromLink (g.set i (g[i].updateRank nr))),
      rfl, eraseRanks_set_updateRank hgi _, ?_⟩
    intro j hj
    simp only [getOutgoingLinks, Node.updateRank, List.mem_map] at hj
    obtain ⟨c, hcm, rfl⟩ := hj
    refine ⟨g[i], hgi, c, hcm, ?_⟩
    exact getNodeIndexFromLink_congr
      (urls_eq_of_eraseRanks (eraseRanks_set_updateRank hgi _)).symm c

/-- When the indices pushed for children form a well-founded relation, every run of
`updateHelper` on a queue of indices in range returns, whatever the ranks are. -/
theorem updateHelper_terminates (P : Params) {g₀ : Webgraph} (hc : EdgeClosed g₀)
    (hwf : WellFounded (ChildIndex g₀)) (q : List Nat) (g : Webgraph)
    (hg : eraseRanks g = eraseRanks g₀) (hq : ∀ i ∈ q, i < g₀.length) :
    ∃ fuel g' k, updateHelper P fuel g q = Outcome.done (g', k) := by
  have key : ∀ m : Multiset Nat, ∀ (q : List Nat) (g : Webgraph), (q : Multiset Nat) = m →
      eraseRanks g = eraseRanks g₀ → (∀ i ∈ q, i < g₀.length) →
      ∃ fuel g' k, updateHelper P fuel g q = Outcome.done (g', k) := by
    intro m
    induction m using hwf.cutExpand.induction with
    | _ m ih =>
      intro q g hqm hg hq
      cases q with
      | nil => exact ⟨0, g, 0, rfl⟩
      | cons i rest =>
        have hcg : EdgeClosed g := edgeClosed_of_eraseRanks hg hc
        have hlen := length_eq_of_eraseRanks hg
        have hi : i < g.length := by
          rw [hlen]; exact hq i (List.mem_cons_self _ _)
        obtain ⟨g1, t, hstep, hg1, ht⟩ := updateHelperStep_progress P hcg hi rest
        have ht₀ : ∀ j ∈ t, ChildIndex g₀ j i :=
          fun j hj => childIndex_of_eraseRanks hg (ht j hj)
        have hcut : Relation.CutExpand (ChildIndex g₀) ((rest ++ t : List Nat) : Multiset Nat)
            m := by
          refine ⟨(t : Multiset Nat), i, fun j hj => ht₀ j (by simpa using hj), ?_⟩
          rw [← hqm, ← Multiset.coe_add, ← Multiset.cons_coe, ← Multiset.singleton_add]
          abel
        have hq1 : ∀ j ∈ rest ++ t, j < g₀.length := by
          intro j hj
          rcases List.mem_append.mp hj with h | h
          · exact hq j (List.mem_cons_of_mem _ h)
          · exact (childIndex_lt hc (ht₀ j h)).1
        obtain ⟨fuel, g', k, hrun⟩ := ih _ hcut (rest ++ t) g1 rfl (hg1.trans hg) hq1
        exact ⟨fuel + 1, g', k + 1, updateHelper_cons hstep hrun⟩
  exact key _ q g rfl hg hq

theorem acyclic_of_height {g : Webgraph} (height : String → Nat)
    (h : ∀ n ∈ g, ∀ c ∈ n.children, height c < height n.url) : Acyclic g := by
  have key : ∀ a b, Relation.TransGen (ChildOf g) a b → height a < height b := by
    intro a b hab
    induction hab with
    | single hs =>
      obtain ⟨n, hn, hu, hcm⟩ := hs
      rw [← hu]; exact h n hn _ hcm
    | tail _ hs ih =>
      obtain ⟨n, hn, hu, hcm⟩ := hs
      rw [← hu]; exact lt_trans ih (h n hn _ hcm)
  intro a ha
  exact lt_irrefl _ (key a a ha)

theorem scenario_acyclic (a b c : ℚ) : Acyclic (scenarioGraph a b c) := by
  apply acyclic_of_height (fun s => if s = "A" then 2 else if s = "B" then 1 else 0)
  have hBA : ¬ "B" = "A" := by decide
  have hCA : ¬ "C" = "A" := by decide
  have hCB : ¬ "C" = "B" := by decide
  simp [scenarioGraph, hBA, hCA, hCB]

/-! ## The map of getAllRanks -/

theorem lastWithUrl_mem {g : Webgraph} {k : String} {n : Node} (h : lastWithUrl g k = some n) :
    n ∈ g ∧ n.url = k := by
  induction g with
  | nil => simp [lastWithUrl] at h
  | cons m rest ih =>
    simp only [lastWithUrl] at h
    cases hr : lastWithUrl rest k with
    | some m' =>
      rw [hr] at h
      simp only [Option.some.injEq] at h
      subst h
      exact ⟨List.mem_cons_of_mem _ (ih hr).1, (ih hr).2⟩
    | none =>
      rw [hr] at h
      simp only at h
      split at h
      · rename_i hu
        simp only [Option.some.injEq] at h
        subst h
        exact ⟨List.mem_cons_self _ _, hu⟩
      · exact absurd h (by simp)

theorem lastWithUrl_eq_none {g : Webgraph} {k : String} (h : lastWithUrl g k = none) :
    ∀ n ∈ g, n.url ≠ k := by
  induction g with
  | nil => intro n hn; simp at hn
  | cons m rest ih =>
    simp only [lastWithUrl] at h
    cases hr : lastWithUrl rest k with
    | some m' => rw [hr] at h; exact absurd h (by simp)
    | none =>
      rw [hr] at h
      simp only at h
      intro n hn
      rcases List.mem_cons.mp hn with rfl | hn
      · intro hu; simp [hu] at h
      · exact ih hr n hn

theorem lastWithUrl_of_nodup {g : Webgraph} (hnd : (urls g).Nodup) {n : Node} (hn : n ∈ g) :
    lastWithUrl g n.url = some n := by
  induction g with
  | nil => simp at hn
  | cons m rest ih =>
    simp only [urls, List.map_cons, List.nodup_cons] at hnd
    rcases List.mem_cons.mp hn with rfl | hn
    · have hnone : lastWithUrl rest n.url = none := by
        cases hr : lastWithUrl rest n.url with
        | none => rfl
        | some m' =>
          obtain ⟨hm, hu⟩ := lastWithUrl_mem hr
          exact absurd (List.mem_map.mpr ⟨m', hm, hu⟩) hnd.1
      simp [lastWithUrl, hnone]
    · simp [lastWithUrl, ih hnd.2 hn]

theorem RankMap.entry_setSecond_fst (m : RankMap) (u k : String) (x : FVal) :
    ((m.setSecond u x).entry k).1 = (m.entry k).1 := by
  unfold RankMap.setSecond RankMap.entry RankMap.assign
  by_cases h : k = u
  · subst h; simp
  · simp [h]

theorem collectRanks_fst (g : Webgraph) (m : RankMap) (mx : FVal) (k : String) :
    (collectRanks g (m, mx)).1 k =
      match lastWithUrl g k with
      | some n => some (n.rank, FVal.fin 0)
      | none => m k := by
  induction g generalizing m mx with
  | nil => rfl
  | cons n rest ih =>
    simp only [collectRanks, lastWithUrl]
    rw [ih]
    cases hr : lastWithUrl rest k with
    | some m' => rfl
    | none =>
      simp only
      by_cases hu : n.url = k
      · subst hu
        simp [RankMap.setFirst, RankMap.assign, RankMap.entry]
      · have hu' : ¬ k = n.url := fun h => hu h.symm
        simp [RankMap.setFirst, RankMap.assign, hu, hu']

theorem storeNormalized_apply (scale : FVal) (g : Webgraph) (m : RankMap) (k : String) :
    storeNormalized scale g m k =
      match lastWithUrl g k with
      | some n => some ((m.entry k).1, FVal.mul n.rank scale)
      | none => m k := by
  induction g generalizing m with
  | nil => rfl
  | cons n rest ih =>
    simp only [storeNormalized, lastWithUrl]
    rw [ih]
    cases hr : lastWithUrl rest k with
    | some m' => simp only [RankMap.entry_setSecond_fst]
    | none =>
      simp only
      by_cases hu : n.url = k
      · subst hu
        simp [RankMap.setSecond, RankMap.assign]
      · have hu' : ¬ k = n.url := fun h => hu h.symm
        simp [RankMap.setSecond, RankMap.assign, hu, hu']

/-- The entry of `getAllRanks` for a url: raw and normalized rank of the last node with this
url, no entry when there is no such node. -/
theorem getAllRanks_apply (g : Webgraph) (k : String) :
    getAllRanks g k =
      match lastWithUrl g k with
      | some n => some (n.rank, FVal.mul n.rank
          (FVal.div (FVal.fin 10) (collectRanks g (RankMap.empty, FVal.fin 0)).2))
      | none => none := by
  unfold getAllRanks
  rw [storeNormalized_apply]
  cases hr : lastWithUrl g k with
  | some n =>
    simp only [RankMap.entry, collectRanks_fst, hr, Option.getD_some]
  | none =>
    simp only [collectRanks_fst, hr]
    rfl

/-- The highest rank recorded by the first loop, for finite non-negative ranks. -/
theorem collectRanks_snd {g : Webgraph} (hfin : ∀ n ∈ g, ∃ q : ℚ, n.rank = FVal.fin q ∧ 0 ≤ q)
    (m : RankMap) (M0 : ℚ) :
    ∃ M : ℚ, (collectRanks g (m, FVal.fin M0)).2 = FVal.fin M ∧ M0 ≤ M ∧
      (∀ n ∈ g, ∀ q : ℚ, n.rank = FVal.fin q → q ≤ M) ∧
      (M = M0 ∨ ∃ n ∈ g, n.rank = FVal.fin M) := by
  induction g generalizing m M0 with
  | nil => exact ⟨M0, rfl, le_refl _, by simp, Or.inl rfl⟩
  | cons n rest ih =>
    obtain ⟨q, hq, _⟩ := hfin n (List.mem_cons_self _ _)
    have hrest : ∀ n' ∈ rest, ∃ q : ℚ, n'.rank = FVal.fin q ∧ 0 ≤ q :=
      fun n' hn' => hfin n' (List.mem_cons_of_mem _ hn')
    simp only [collectRanks, hq, FVal.gt, FVal.lt_fin]
    by_cases hlt : M0 < q
    · simp only [hlt, decide_True, if_true]
      obtain ⟨M, hM, hle, hall, hor⟩ := ih hrest
        (RankMap.setFirst (RankMap.assign m n.url (FVal.fin 0, FVal.fin 0)) n.url (FVal.fin q)) q
      refine ⟨M, hM, le_trans (le_of_lt hlt) hle, ?_, ?_⟩
      · intro n' hn' q' hq'
        rcases List.mem_cons.mp hn' with rfl | hn'
        · rw [hq] at hq'
          rw [← FVal.fin.inj hq']; exact hle
        · exact hall n' hn' q' hq'
      · rcases hor with h | ⟨n', hn', h⟩
        · exact Or.inr ⟨n, List.mem_cons_self _ _, by rw [hq, h]⟩
        · exact Or.inr ⟨n', List.mem_cons_of_mem _ hn', h⟩
    · simp only [hlt, decide_False, Bool.false_eq_true, if_false]
      obtain ⟨M, hM, hle, hall, hor⟩ := ih hrest
        (RankMap.setFirst (RankMap.assign m n.url (FVal.fin 0, FVal.fin 0)) n.url (FVal.fin q)) M0
      refine ⟨M, hM, hle, ?_, ?_⟩
      · intro n' hn' q' hq'
        rcases List.mem_cons.mp hn' with rfl | hn'
        · rw [hq] at hq'
          rw [← FVal.fin.inj hq']; exact le_trans (not_lt.mp hlt) hle
        · exact hall n' hn' q' hq'
      · rcases hor with h | ⟨n', hn', h⟩
        · exact Or.inl h
        · exact Or.inr ⟨n', List.mem_cons_of_mem _ hn', h⟩

/-! ## The steps of the propagation in detail -/

/-- Under edge closure the loop over the parents adds up, in list order, the share
`rank / out-degree` of the node found for each parent. -/
theorem incomingSum_shares {g : Webgraph} {ps : List String}
    (h : ∀ p ∈ ps, hasLink g p = true) (acc : FVal) :
    ∃ shares : List FVal,
      List.Forall₂ (fun p s => ∃ m, getNodeFromLink g p = some m ∧
        s = FVal.div m.rank (FVal.fin m.children.length)) ps shares ∧
      incomingSum g ps acc = some (shares.foldl FVal.add acc) := by
  induction ps generalizing acc with
  | nil => exact ⟨[], List.Forall₂.nil, rfl⟩
  | cons p rest ih =>
    obtain ⟨m, hm, _, _⟩ := getNodeIndexFromLink_spec (h p (List.mem_cons_self _ _))
    obtain ⟨shares, hsh, hsum⟩ := ih (fun p' hp' => h p' (List.mem_cons_of_mem _ hp'))
      (FVal.add acc (FVal.div m.rank (FVal.fin m.children.length)))
    refine ⟨FVal.div m.rank (FVal.fin m.children.length) :: shares,
      List.Forall₂.cons ⟨m, hm, rfl⟩ hsh, ?_⟩
    simp only [incomingSum, hm, getOutgoingLinks, List.foldl_cons]
    exact hsum

/-- The explicit form of a step that does not fail. -/
theorem updateHelperStep_eq {P : Params} {g : Webgraph} {i : Nat} {n : Node} {sum : FVal}
    (hn : g[i]? = some n) (hs : incomingSum g n.parents (FVal.fin 0) = some sum)
    (rest : List Nat) :
    updateHelperStep P g i rest =
      some (g.set i (n.updateRank (dampedRank P sum)),
        if converged P (dampedRank P sum) n.rank = true then rest
        else rest ++ n.children.map (getNodeIndexFromLink g)) := by
  have hu : urls (g.set i (n.updateRank (dampedRank P sum))) = urls g :=
    urls_eq_of_eraseRanks (eraseRanks_set_updateRank hn _)
  have hidx : getNodeIndexFromLink (g.set i (n.updateRank (dampedRank P sum))) =
      getNodeIndexFromLink g := by
    funext c
    exact getNodeIndexFromLink_congr hu.symm c
  unfold updateHelperStep
  simp only [hn, getIncomingLinks, hs]
  show (if converged P (dampedRank P sum) n.rank = true then
      some (g.set i (n.updateRank (dampedRank P sum)), rest)
    else some (g.set i (n.updateRank (dampedRank P sum)),
      rest ++ (getOutgoingLinks (n.updateRank (dampedRank P sum))).map
        (getNodeIndexFromLink (g.set i (n.updateRank (dampedRank P sum)))))) = _
  rw [hidx]
  split <;> rfl

/-- A step that does not fail has read the current node and added up its incoming shares. -/
theorem updateHelperStep_some {P : Params} {g g1 : Webgraph} {i : Nat} {rest q1 : List Nat}
    (h : updateHelperStep P g i rest = some (g1, q1)) :
    ∃ n sum, g[i]? = some n ∧ incomingSum g n.parents (FVal.fin 0) = some sum := by
  unfold updateHelperStep at h
  cases hg : g[i]? with
  | none => simp [hg] at h
  | some n =>
    simp only [hg] at h
    cases hs : incomingSum g (getIncomingLinks n) (FVal.fin 0) with
    | none => simp [hs] at h
    | some sum => exact ⟨n, sum, rfl, hs⟩

/-- Against an old rank 0 the convergence test fails, whatever the new rank is. -/
theorem converged_zero (P : Params) (new_rank : FVal) :
    converged P new_rank (FVal.fin 0) = false := by
  unfold converged
  cases new_rank with
  | fin q => exact converged_old_zero P q
  | pinf => rfl
  | ninf => rfl
  | nan => rfl

theorem built_ranks_zero {g : Webgraph} (h : Built g) : ∀ n ∈ g, n.rank = FVal.fin 0 := by
  induction h with
  | empty => intro n hn; simp at hn
  | addLink g u _ ih =>
    intro n hn
    rw [addLink_fst] at hn
    rcases mem_ensureLink hn with h | h
    · exact ih n h
    · rw [h]; rfl
  | addConnection g a b g' r _ hc ih =>
    intro n' hn'
    obtain ⟨n, hn, i, j, k, rfl⟩ := (addConnection_mem hc).2 n' hn'
    rw [linkNode_rank]
    rcases mem_ensureLink hn with h | h
    · rcases mem_ensureLink h with h | h
      · exact ih n h
      · rw [h]; rfl
    · rw [h]; rfl

/-- The highest rank recorded by the first loop of `getAllRanks` when no rank exceeds `M`. -/
theorem collectRanks_snd_le {g : Webgraph} {M : ℚ}
    (hle : ∀ n ∈ g, FVal.gt n.rank (FVal.fin M) = false) (m : RankMap) (M0 : ℚ)
    (h0 : M0 ≤ M) :
    ∃ M' : ℚ, (collectRanks g (m, FVal.fin M0)).2 = FVal.fin M' ∧ M0 ≤ M' ∧ M' ≤ M ∧
      ∀ n ∈ g, ∀ q : ℚ, n.rank = FVal.fin q → q ≤ M' := by
  induction g generalizing m M0 with
  | nil => exact ⟨M0, rfl, le_refl _, h0, by simp⟩
  | cons n rest ih =>
    have hrest : ∀ n' ∈ rest, FVal.gt n'.rank (FVal.fin M) = false :=
      fun n' hn' => hle n' (List.mem_cons_of_mem _ hn')
    have hn := hle n (List.mem_cons_self _ _)
    simp only [collectRanks]
    cases hr : n.rank with
    | fin q =>
      rw [hr] at hn
      have hqM : q ≤ M := by
        simp only [FVal.gt, FVal.lt_fin, decide_eq_false_iff_not, not_lt] at hn
        exact hn
      simp only [FVal.gt, FVal.lt_fin]
      by_cases hlt : M0 < q
      · simp only [hlt, decide_True, if_true]
        obtain ⟨M', hM', h1, h2, h3⟩ := ih hrest
          (RankMap.setFirst (RankMap.assign m n.url (FVal.fin 0, FVal.fin 0)) n.url
            (FVal.fin q)) q hqM
        refine ⟨M', hM', le_trans (le_of_lt hlt) h1, h2, ?_⟩
        intro n' hn' q' hq'
        rcases List.mem_cons.mp hn' with rfl | hn'
        · rw [hr] at hq'
          rw [← FVal.fin.inj hq']; exact h1
        · exact h3 n' hn' q' hq'
      · simp only [hlt, decide_False, Bool.false_eq_true, if_false]
        obtain ⟨M', hM', h1, h2, h3⟩ := ih hrest
          (RankMap.setFirst (RankMap.assign m n.url (FVal.fin 0, FVal.fin 0)) n.url
            (FVal.fin q)) M0 h0
        refine ⟨M', hM', h1, h2, ?_⟩
        intro n' hn' q' hq'
        rcases List.mem_cons.mp hn' with rfl | hn'
        · rw [hr] at hq'
          rw [← FVal.fin.inj hq']; exact le_trans (not_lt.mp hlt) h1
        · exact h3 n' hn' q' hq'
    | pinf =>
      rw [hr] at hn
      exact absurd hn (by simp [FVal.gt, FVal.lt])
    | ninf =>
      have hg : FVal.gt FVal.ninf (FVal.fin M0) = false := rfl
      simp only [hg, Bool.false_eq_true, if_false]
      obtain ⟨M', hM', h1, h2, h3⟩ := ih hrest
        (RankMap.setFirst (RankMap.assign m n.url (FVal.fin 0, FVal.fin 0)) n.url
          FVal.ninf) M0 h0
      refine ⟨M', hM', h1, h2, ?_⟩
      intro n' hn' q' hq'
      rcases List.mem_cons.mp hn' with rfl | hn'
      · rw [hr] at hq'; exact absurd hq' (by simp)
      · exact h3 n' hn' q' hq'
    | nan =>
      have hg : FVal.gt FVal.nan (FVal.fin M0) = false := rfl
      simp only [hg, Bool.false_eq_true, if_false]
      obtain ⟨M', hM', h1, h2, h3⟩ := ih hrest
        (RankMap.setFirst (RankMap.assign m n.url (FVal.fin 0, FVal.fin 0)) n.url
          FVal.nan) M0 h0
      refine ⟨M', hM', h1, h2, ?_⟩
      intro n' hn' q' hq'
      rcases List.mem_cons.mp hn' with rfl | hn'
      · rw [hr] at hq'; exact absurd hq' (by simp)
      · exact h3 n' hn' q' hq'

/-! ## Parent/child symmetry -/

theorem getNodeFromLink_of_eraseRanks {g g' : Webgraph} (h : eraseRanks g' = eraseRanks g)
    {u : String} {m' : Node} (hm : getNodeFromLink g' u = some m') :
    ∃ m, getNodeFromLink g u = some m ∧ m.url = m'.url ∧ m.children = m'.children ∧
      m.parents = m'.parents := by
  unfold getNodeFromLink at hm ⊢
  rw [getNodeIndexFromLink_congr (urls_eq_of_eraseRanks h).symm u] at hm
  obtain ⟨m, hg, h1, _, h3, h4⟩ := getElem?_of_eraseRanks h hm
  exact ⟨m, hg, h1, h3, h4⟩

theorem edgeSymmetric_of_eraseRanks {g g' : Webgraph} (h : eraseRanks g' = eraseRanks g)
    (hg : EdgeSymmetric g) : EdgeSymmetric g' := by
  intro n' hn'
  obtain ⟨n, hn, hu, hc, hp⟩ := mem_of_eraseRanks h hn'
  rw [← hc, ← hp, ← hu]
  refine ⟨fun p hpm => ?_, fun c hcm => ?_⟩
  · obtain ⟨m, hm, hmem⟩ := (hg n hn).1 p hpm
    obtain ⟨m', hm', _, hc', _⟩ := getNodeFromLink_of_eraseRanks h.symm hm
    exact ⟨m', hm', hc' ▸ hmem⟩
  · obtain ⟨m, hm, hmem⟩ := (hg n hn).2 c hcm
    obtain ⟨m', hm', _, _, hp'⟩ := getNodeFromLink_of_eraseRanks h.symm hm
    exact ⟨m', hm', hp' ▸ hmem⟩

theorem edgeSymmetric_ensureLink {g : Webgraph} (u : String) (hg : EdgeSymmetric g) :
    EdgeSymmetric (ensureLink g u) := by
  have hkeep : ∀ v m, getNodeFromLink g v = some m →
      getNodeFromLink (ensureLink g u) v = some m := by
    intro v m hm
    rw [getNodeFromLink_ensureLink, if_pos ((getNodeFromLink_isSome_iff g v).mp ⟨m, hm⟩)]
    exact hm
  intro n hn
  rcases mem_ensureLink hn with h | h
  · refine ⟨fun p hp => ?_, fun c hc => ?_⟩
    · obtain ⟨m, hm, hmem⟩ := (hg n h).1 p hp
      exact ⟨m, hkeep p m hm, hmem⟩
    · obtain ⟨m, hm, hmem⟩ := (hg n h).2 c hc
      exact ⟨m, hkeep c m hm, hmem⟩
  · subst h; simp [Node.create]

theorem mem_linkNode_children {i j : Nat} {a b : String} {k : Nat} {n : Node} {x : String}
    (h : x ∈ n.children) : x ∈ (linkNode i j a b k n).children := by
  rw [linkNode_children]
  split
  · exact List.mem_append_left _ h
  · exact h

theorem mem_linkNode_parents {i j : Nat} {a b : String} {k : Nat} {n : Node} {x : String}
    (h : x ∈ n.parents) : x ∈ (linkNode i j a b k n).parents := by
  rw [linkNode_parents]
  split
  · exact List.mem_append_left _ h
  · exact h

theorem edgeSymmetric_addConnection {g g' : Webgraph} {a b : String} {r : Bool}
    (h : addConnection g a b = some (g', r)) (hg : EdgeSymmetric g) : EdgeSymmetric g' := by
  have h2 : EdgeSymmetric (ensureLink (ensureLink g a) b) :=
    edgeSymmetric_ensureLink b (edgeSymmetric_ensureLink a hg)
  obtain ⟨_, _, ⟨na, hna, hca⟩, ⟨nb, hnb, hpb⟩⟩ := addConnection_linked h
  obtain ⟨g'', nf, nt, hnf, hnfu, hnt, hntu, heq, hk⟩ := addConnection_spec g a b
  rw [h] at heq
  have hgg : g' = g'' := (Prod.mk.inj (Option.some.inj heq)).1
  subst hgg
  have hurls := urls_eq_of_getElem? hk (linkNode_url _ _ a b)
  generalize ensureLink (ensureLink g a) b = g2 at *
  have hlook : ∀ v m, getNodeFromLink g2 v = some m →
      ∃ k, getNodeFromLink g' v = some (linkNode (getNodeIndexFromLink g2 a)
        (getNodeIndexFromLink g2 b) a b k m) := by
    intro v m hm
    refine ⟨getNodeIndexFromLink g2 v, ?_⟩
    unfold getNodeFromLink at hm ⊢
    rw [getNodeIndexFromLink_congr hurls.symm, hk, hm]
    rfl
  intro n' hn'
  obtain ⟨k, hkn⟩ := List.mem_iff_getElem?.mp hn'
  rw [hk] at hkn
  cases hg2 : g2[k]? with
  | none => simp [hg2] at hkn
  | some n =>
    rw [hg2] at hkn
    simp only [Option.map_some', Option.some.injEq] at hkn
    subst hkn
    have hnmem : n ∈ g2 := List.getElem?_mem hg2
    rw [linkNode_url]
    refine ⟨fun p hp => ?_, fun c hc => ?_⟩
    · rw [linkNode_parents] at hp
      have hold : p ∈ n.parents → ∃ m, getNodeFromLink g' p = some m ∧
          n.url ∈ m.children := by
        intro hp'
        obtain ⟨m, hm, hmem⟩ := (h2 n hnmem).1 p hp'
        obtain ⟨k', hk'⟩ := hlook p m hm
        exact ⟨_, hk', mem_linkNode_children hmem⟩
      split at hp
      · rename_i hcond
        rcases List.mem_append.mp hp with hp' | hp'
        · exact hold hp'
        · simp only [List.mem_singleton] at hp'
          subst hp'
          have hnt' : n = nt := by
            have := hcond.1
            subst this
            rw [hg2] at hnt
            exact Option.some.inj hnt
          rw [hnt', hntu]
          exact ⟨na, hna, hca⟩
      · exact hold hp
    · rw [linkNode_children] at hc
      have hold : c ∈ n.children → ∃ m, getNodeFromLink g' c = some m ∧
          n.url ∈ m.parents := by
        intro hc'
        obtain ⟨m, hm, hmem⟩ := (h2 n hnmem).2 c hc'
        obtain ⟨k', hk'⟩ := hlook c m hm
        exact ⟨_, hk', mem_linkNode_parents hmem⟩
      split at hc
      · rename_i hcond
        rcases List.mem_append.mp hc with hc' | hc'
        · exact hold hc'
        · simp only [List.mem_singleton] at hc'
          subst hc'
          have hnf' : n = nf := by
            have := hcond.1
            subst this
            rw [hg2] at hnf
            exact Option.some.inj hnf
          rw [hnf', hnfu]
          exact ⟨nb, hnb, hpb⟩
      · exact hold hc

theorem reachable_edgeSymmetric {P : Params} {g : Webgraph} (h : Reachable P g) :
    EdgeSymmetric g := by
  induction h with
  | empty => intro n hn; simp at hn
  | addLink g u _ ih => rw [addLink_fst]; exact edgeSymmetric_ensureLink u ih
  | addConnection g a b g' r _ hc ih => exact edgeSymmetric_addConnection hc ih
  | updateRank g u fuel g' k _ hu ih =>
    exact edgeSymmetric_of_eraseRanks (updateRank_eraseRanks hu) ih

/-! ## Runs with their trace -/

/-- The run with trace is the run of `updateHelper`, with the length of the trace as the
number of processed entries. -/
theorem updateHelper_eq_trace (P : Params) (fuel : Nat) (g : Webgraph) (q : List Nat) :
    updateHelper P fuel g q =
      match updateHelperTrace P fuel g q with
      | Outcome.done (g', tr) => Outcome.done (g', tr.length)
      | Outcome.outOfBounds => Outcome.outOfBounds
      | Outcome.outOfFuel => Outcome.outOfFuel := by
  induction fuel generalizing g q with
  | zero =>
    cases q with
    | nil => rfl
    | cons i rest => rfl
  | succ fuel ih =>
    cases q with
    | nil => rfl
    | cons i rest =>
      simp only [updateHelper, updateHelperTrace]
      cases hs : updateHelperStep P g i rest with
      | none => rfl
      | some st =>
        obtain ⟨g1, q1⟩ := st
        simp only
        rw [ih g1 q1]
        cases updateHelperTrace P fuel g1 q1 with
        | done res => rfl
        | outOfBounds => rfl
        | outOfFuel => rfl

theorem updateHelper_done_trace {P : Params} {fuel : Nat} {g g' : Webgraph} {q : List Nat}
    {k : Nat} (h : updateHelper P fuel g q = Outcome.done (g', k)) :
    ∃ tr, updateHelperTrace P fuel g q = Outcome.done (g', tr) ∧ tr.length = k := by
  rw [updateHelper_eq_trace] at h
  cases ht : updateHelperTrace P fuel g q with
  | done res =>
    obtain ⟨g1, tr⟩ := res
    rw [ht] at h
    simp only [Outcome.done.injEq, Prod.mk.injEq] at h
    exact ⟨tr, by rw [h.1], h.2⟩
  | outOfBounds => rw [ht] at h; exact absurd h (by simp)
  | outOfFuel => rw [ht] at h; exact absurd h (by simp)

theorem updateHelper_of_trace {P : Params} {fuel : Nat} {g g' : Webgraph} {q : List Nat}
    {tr : List Nat} (h : updateHelperTrace P fuel g q = Outcome.done (g', tr)) :
    updateHelper P fuel g q = Outcome.done (g', tr.length) := by
  rw [updateHelper_eq_trace, h]

/-- A returning run with trace, unfolded by one step. -/
theorem updateHelperTrace_cons_inv {P : Params} {fuel : Nat} {g g' : Webgraph} {i : Nat}
    {rest tr : List Nat}
    (h : updateHelperTrace P fuel g (i :: rest) = Outcome.done (g', tr)) :
    ∃ fuel' g1 q1 tr', fuel = fuel' + 1 ∧ updateHelperStep P g i rest = some (g1, q1) ∧
      updateHelperTrace P fuel' g1 q1 = Outcome.done (g', tr') ∧ tr = i :: tr' := by
  cases fuel with
  | zero => simp [updateHelperTrace] at h
  | succ fuel' =>
    simp only [updateHelperTrace] at h
    cases hs : updateHelperStep P g i rest with
    | none => simp [hs] at h
    | some st =>
      obtain ⟨g1, q1⟩ := st
      simp only [hs] at h
      cases hr : updateHelperTrace P fuel' g1 q1 with
      | done res =>
        obtain ⟨g2, tr'⟩ := res
        simp only [hr, Outcome.done.injEq, Prod.mk.injEq] at h
        exact ⟨fuel', g1, q1, tr', rfl, rfl, by rw [hr, h.1], h.2.symm⟩
      | outOfBounds => simp [hr] at h
      | outOfFuel => simp [hr] at h

theorem updateHelperTrace_nil_inv {P : Params} {fuel : Nat} {g g' : Webgraph} {tr : List Nat}
    (h : updateHelperTrace P fuel g [] = Outcome.done (g', tr)) : g' = g ∧ tr = [] := by
  cases fuel with
  | zero =>
    simp only [updateHelperTrace, Outcome.done.injEq, Prod.mk.injEq] at h
    exact ⟨h.1.symm, h.2.symm⟩
  | succ fuel' =>
    simp only [updateHelperTrace, Outcome.done.injEq, Prod.mk.injEq] at h
    exact ⟨h.1.symm, h.2.symm⟩

theorem updateHelperTrace_eraseRanks {P : Params} {fuel : Nat} {g g' : Webgraph}
    {q tr : List Nat} (h : updateHelperTrace P fuel g q = Outcome.done (g', tr)) :
    eraseRanks g' = eraseRanks g :=
  updateHelper_eraseRanks (updateHelper_of_trace h)

/-- A step changes the node list at the processed index only. -/
theorem updateHelperStep_getElem?_ne {P : Params} {g g1 : Webgraph} {i : Nat}
    {rest q1 : List Nat} (h : updateHelperStep P g i rest = some (g1, q1)) {k : Nat}
    (hk : k ≠ i) : g1[k]? = g[k]? := by
  obtain ⟨n, sum, hn, hs⟩ := updateHelperStep_some h
  rw [updateHelperStep_eq hn hs rest] at h
  rw [← (Prod.mk.inj (Option.some.inj h)).1, List.getElem?_set_ne (Ne.symm hk)]

/-- What a step appends to the queue are indices of children of the processed node. -/
theorem updateHelperStep_pushes {P : Params} {g g1 : Webgraph} {i : Nat}
    {rest q1 : List Nat} (h : updateHelperStep P g i rest = some (g1, q1)) :
    ∃ t, q1 = rest ++ t ∧ ∀ j ∈ t, ChildIndex g j i := by
  obtain ⟨n, sum, hn, hs⟩ := updateHelperStep_some h
  rw [updateHelperStep_eq hn hs rest] at h
  have hq := (Prod.mk.inj (Option.some.inj h)).2
  split at hq
  · exact ⟨[], by rw [← hq, List.append_nil], fun j hj => absurd hj (List.not_mem_nil j)⟩
  · refine ⟨_, hq.symm, ?_⟩
    intro j hj
    obtain ⟨c, hc, rfl⟩ := List.mem_map.mp hj
    exact ⟨n, hn, c, hc, rfl⟩

theorem reachesIndex_of_eraseRanks {g g' : Webgraph} (h : eraseRanks g' = eraseRanks g)
    {i j : Nat} (hr : ReachesIndex g' i j) : ReachesIndex g i j := by
  unfold ReachesIndex at hr ⊢
  exact Relation.ReflTransGen.mono (fun _ _ hab => childIndex_of_eraseRanks h hab) hr

/-- A returning run leaves the positions outside its trace untouched, and every index of
its trace is reached from an index of the initial queue along pushes of children. -/
theorem updateHelperTrace_frame {P : Params} {fuel : Nat} {g g' : Webgraph} {q tr : List Nat}
    (h : updateHelperTrace P fuel g q = Outcome.done (g', tr)) :
    (∀ j, j ∉ tr → g'[j]? = g[j]?) ∧ ∀ j ∈ tr, ∃ i ∈ q, ReachesIndex g i j := by
  induction fuel generalizing g q tr with
  | zero =>
    cases q with
    | nil =>
      obtain ⟨h1, h2⟩ := updateHelperTrace_nil_inv h
      subst h1; subst h2
      exact ⟨fun _ _ => rfl, fun j hj => absurd hj (List.not_mem_nil j)⟩
    | cons i rest => simp [updateHelperTrace] at h
  | succ fuel ih =>
    cases q with
    | nil =>
      obtain ⟨h1, h2⟩ := updateHelperTrace_nil_inv h
      subst h1; subst h2
      exact ⟨fun _ _ => rfl, fun j hj => absurd hj (List.not_mem_nil j)⟩
    | cons i rest =>
      obtain ⟨fuel', g1, q1, tr', hf, hstep, hrun, htr⟩ := updateHelperTrace_cons_inv h
      have hf' : fuel' = fuel := by omega
      subst hf'
      subst htr
      obtain ⟨ih1, ih2⟩ := ih hrun
      obtain ⟨t, hq1, ht⟩ := updateHelperStep_pushes hstep
      have he := updateHelperStep_eraseRanks hstep
      constructor
      · intro j hj
        simp only [List.mem_cons, not_or] at hj
        rw [ih1 j hj.2, updateHelperStep_getElem?_ne hstep hj.1]
      · intro j hj
        rcases List.mem_cons.mp hj with rfl | hj
        · exact ⟨j, List.mem_cons_self _ _, Relation.ReflTransGen.refl⟩
        · obtain ⟨i', hi', hreach⟩ := ih2 j hj
          have hreach' : ReachesIndex g i' j := reachesIndex_of_eraseRanks he hreach
          rw [hq1] at hi'
          rcases List.mem_append.mp hi' with hi' | hi'
          · exact ⟨i', List.mem_cons_of_mem _ hi', hreach'⟩
          · exact ⟨i, List.mem_cons_self _ _,
              Relation.ReflTransGen.head (ht i' hi') hreach'⟩

/-! ## The range of the ranks -/

theorem ranksInRange_nonneg {P : Params} (hd1 : P.damping_factor < 1) {g : Webgraph}
    (h : RanksInRange P g) {n : Node} (hn : n ∈ g) : ∃ q : ℚ, n.rank = FVal.fin q ∧ 0 ≤ q := by
  rcases h n hn with h0 | ⟨q, hq, hle⟩
  · exact ⟨0, h0, le_refl _⟩
  · exact ⟨q, hq, by linarith⟩

/-- With symmetric edges and non-negative finite ranks the accumulated sum of the incoming
shares is a non-negative finite value. -/
theorem incomingSum_nonneg {g : Webgraph} {ps : List String}
    (h : ∀ p ∈ ps, ∃ m, getNodeFromLink g p = some m ∧ m.children ≠ [] ∧
      ∃ q : ℚ, m.rank = FVal.fin q ∧ 0 ≤ q) (a : ℚ) (ha : 0 ≤ a) :
    ∃ s : ℚ, incomingSum g ps (FVal.fin a) = some (FVal.fin s) ∧ 0 ≤ s := by
  induction ps generalizing a with
  | nil => exact ⟨a, rfl, ha⟩
  | cons p rest ih =>
    obtain ⟨m, hm, hne, q, hq, hq0⟩ := h p (List.mem_cons_self _ _)
    have hm' : g[getNodeIndexFromLink g p]? = some m := hm
    have hlen : (0 : ℚ) < (m.children.length : ℚ) := by
      have : 0 < m.children.length := List.length_pos.mpr hne
      exact_mod_cast this
    simp only [incomingSum, hm', getOutgoingLinks, hq, FVal.div_fin q (ne_of_gt hlen),
      FVal.add_fin]
    exact ih (fun p' hp' => h p' (List.mem_cons_of_mem _ hp')) _
      (add_nonneg ha (div_nonneg hq0 (le_of_lt hlen)))

/-- The parents of a node in a graph with closed and symmetric edges and ranks in range. -/
theorem parents_ready {P : Params} (hd1 : P.damping_factor < 1) {g : Webgraph}
    (hsym : EdgeSymmetric g) (hrng : RanksInRange P g) {n : Node} (hn : n ∈ g) :
    ∀ p ∈ n.parents, ∃ m, getNodeFromLink g p = some m ∧ m.children ≠ [] ∧
      ∃ q : ℚ, m.rank = FVal.fin q ∧ 0 ≤ q := by
  intro p hp
  obtain ⟨m, hm, hmem⟩ := (hsym n hn).1 p hp
  have hmg : m ∈ g := List.getElem?_mem hm
  exact ⟨m, hm, List.ne_nil_of_mem hmem, ranksInRange_nonneg hd1 hrng hmg⟩

/-- In such a graph a step on an index in range does not fail and assigns a finite rank of
at least `1 - damping_factor`. -/
theorem updateHelperStep_inRange {P : Params} (hd0 : 0 < P.damping_factor)
    (hd1 : P.damping_factor < 1) {g : Webgraph} (hsym : EdgeSymmetric g)
    (hrng : RanksInRange P g) {i : Nat} {n : Node} (hn : g[i]? = some n) :
    ∃ s : ℚ, incomingSum g n.parents (FVal.fin 0) = some (FVal.fin s) ∧ 0 ≤ s ∧
      dampedRank P (FVal.fin s) = FVal.fin (1 - P.damping_factor + P.damping_factor * s) ∧
      1 - P.damping_factor ≤ 1 - P.damping_factor + P.damping_factor * s := by
  obtain ⟨s, hs, hs0⟩ := incomingSum_nonneg
    (parents_ready hd1 hsym hrng (List.getElem?_mem hn)) 0 (le_refl _)
  refine ⟨s, hs, hs0, ?_, ?_⟩
  · simp only [dampedRank, FVal.sub_fin, FVal.mul_fin, FVal.add_fin]
  · have := mul_nonneg (le_of_lt hd0) hs0
    linarith

theorem ranksInRange_set {P : Params} {g : Webgraph} (hrng : RanksInRange P g) {i : Nat}
    {n : Node} {q : ℚ} (hq : 1 - P.damping_factor ≤ q) :
    RanksInRange P (g.set i (n.updateRank (FVal.fin q))) := by
  intro m hm
  obtain ⟨k, hk⟩ := List.mem_iff_getElem?.mp hm
  rw [List.getElem?_set] at hk
  split at hk
  · split at hk
    · simp only [Option.some.injEq] at hk
      rw [← hk]
      exact Or.inr ⟨q, rfl, hq⟩
    · exact absurd hk (by simp)
  · exact hrng m (List.getElem?_mem hk)

/-- A step keeps the ranks in range and leaves a rank of at least `1 - damping_factor` at the
processed index. -/
theorem updateHelperStep_ranksInRange {P : Params} (hd0 : 0 < P.damping_factor)
    (hd1 : P.damping_factor < 1) {g g1 : Webgraph} (hsym : EdgeSymmetric g)
    (hrng : RanksInRange P g) {i : Nat} {rest q1 : List Nat}
    (h : updateHelperStep P g i rest = some (g1, q1)) :
    RanksInRange P g1 ∧
      ∃ n1 q, g1[i]? = some n1 ∧ n1.rank = FVal.fin q ∧ 1 - P.damping_factor ≤ q := by
  obtain ⟨n, sum, hn, hs⟩ := updateHelperStep_some h
  obtain ⟨s, hs', _, hdr, hle⟩ := updateHelperStep_inRange hd0 hd1 hsym hrng hn
  rw [hs] at hs'
  have hsum : sum = FVal.fin s := Option.some.inj hs'
  rw [updateHelperStep_eq hn hs rest] at h
  have hg1 := (Prod.mk.inj (Option.some.inj h)).1
  rw [hsum, hdr] at hg1
  rw [← hg1]
  refine ⟨ranksInRange_set hrng hle,
    n.updateRank (FVal.fin (1 - P.damping_factor + P.damping_factor * s)),
    1 - P.damping_factor + P.damping_factor * s, ?_, rfl, hle⟩
  rw [List.getElem?_set_self (List.getElem?_eq_some.mp hn).1]

/-- A returning run keeps the ranks in range, and every index of its trace ends with a rank of
at least `1 - damping_factor`. -/
theorem updateHelperTrace_ranksInRange {P : Params} (hd0 : 0 < P.damping_factor)
    (hd1 : P.damping_factor < 1) {fuel : Nat} {g g' : Webgraph} {q tr : List Nat}
    (hsym : EdgeSymmetric g) (hrng : RanksInRange P g)
    (h : updateHelperTrace P fuel g q = Outcome.done (g', tr)) :
    RanksInRange P g' ∧
      ∀ j ∈ tr, ∃ n' r, g'[j]? = some n' ∧ n'.rank = FVal.fin r ∧
        1 - P.damping_factor ≤ r := by
  induction fuel generalizing g q tr with
  | zero =>
    cases q with
    | nil =>
      obtain ⟨h1, h2⟩ := updateHelperTrace_nil_inv h
      subst h1; subst h2
      exact ⟨hrng, fun j hj => absurd hj (List.not_mem_nil j)⟩
    | cons i rest => simp [updateHelperTrace] at h
  | succ fuel ih =>
    cases q with
    | nil =>
      obtain ⟨h1, h2⟩ := updateHelperTrace_nil_inv h
      subst h1; subst h2
      exact ⟨hrng, fun j hj => absurd hj (List.not_mem_nil j)⟩
    | cons i rest =>
      obtain ⟨fuel', g1, q1, tr', hf, hstep, hrun, htr⟩ := updateHelperTrace_cons_inv h
      have hf' : fuel' = fuel := by omega
      subst hf'
      subst htr
      obtain ⟨hrng1, n1, r1, hn1, hr1, hle1⟩ :=
        updateHelperStep_ranksInRange hd0 hd1 hsym hrng hstep
      have hsym1 : EdgeSymmetric g1 :=
        edgeSymmetric_of_eraseRanks (updateHelperStep_eraseRanks hstep) hsym
      obtain ⟨hrng', hall⟩ := ih hsym1 hrng1 hrun
      refine ⟨hrng', ?_⟩
      intro j hj
      by_cases hjt : j ∈ tr'
      · exact hall j hjt
      · rcases List.mem_cons.mp hj with rfl | hj
        · exact ⟨n1, r1, by rw [(updateHelperTrace_frame hrun).1 j hjt]; exact hn1, hr1, hle1⟩
        · exact absurd hj hjt

/-! ## Histories with their processed indices -/

theorem sameButRanks_of_eraseRanks {g g' : Webgraph} (h : eraseRanks g' = eraseRanks g) :
    SameButRanks g g' :=
  ⟨length_eq_of_eraseRanks h, fun _ _ hk => getElem?_of_eraseRanks h hk⟩

theorem getElem?_ensureLink {g : Webgraph} {u : String} {i : Nat} {n : Node}
    (h : (ensureLink g u)[i]? = some n) :
    g[i]? = some n ∨ (g.length ≤ i ∧ n.rank = FVal.fin 0) := by
  rw [ensureLink_eq] at h
  split at h
  · exact Or.inl h
  · by_cases hi : i < g.length
    · rw [List.getElem?_append_left hi] at h
      exact Or.inl h
    · rw [List.getElem?_append_right (not_lt.mp hi)] at h
      have hmem := List.getElem?_mem h
      simp only [List.mem_singleton] at hmem
      exact Or.inr ⟨not_lt.mp hi, by rw [hmem]; rfl⟩

theorem length_le_ensureLink (g : Webgraph) (u : String) :
    g.length ≤ (ensureLink g u).length := by
  rw [ensureLink_eq]
  split
  · exact le_refl _
  · simp

/-- The ranks after `addConnection`, position by position. -/
theorem addConnection_getElem? {g g' : Webgraph} {a b : String} {r : Bool}
    (h : addConnection g a b = some (g', r)) :
    g.length ≤ g'.length ∧
    ∀ i n', g'[i]? = some n' →
      (∃ n, g[i]? = some n ∧ n.rank = n'.rank) ∨ (g.length ≤ i ∧ n'.rank = FVal.fin 0) := by
  obtain ⟨g'', nf, nt, _, _, _, _, heq, hk⟩ := addConnection_spec g a b
  rw [h] at heq
  have hgg : g' = g'' := (Prod.mk.inj (Option.some.inj heq)).1
  subst hgg
  have hlen : g'.length = (ensureLink (ensureLink g a) b).length := by
    have := congrArg List.length (urls_eq_of_getElem? hk (linkNode_url _ _ a b))
    simpa [urls] using this
  refine ⟨?_, ?_⟩
  · rw [hlen]
    exact le_trans (length_le_ensureLink g a) (length_le_ensureLink _ b)
  · intro i n' hi
    rw [hk] at hi
    cases h2 : (ensureLink (ensureLink g a) b)[i]? with
    | none => simp [h2] at hi
    | some n =>
      rw [h2] at hi
      simp only [Option.map_some', Option.some.injEq] at hi
      have hrank : n'.rank = n.rank := by rw [← hi, linkNode_rank]
      rcases getElem?_ensureLink h2 with h1 | ⟨hle, h0⟩
      · rcases getElem?_ensureLink h1 with h0 | ⟨hle, h0⟩
        · exact Or.inl ⟨n, h0, hrank.symm⟩
        · exact Or.inr ⟨hle, by rw [hrank, h0]⟩
      · exact Or.inr ⟨le_trans (length_le_ensureLink g a) hle, by rw [hrank, h0]⟩

theorem reachableTrace_reachable {P : Params} {g : Webgraph} {pr : List Nat}
    (h : ReachableTrace P g pr) : Reachable P g := by
  induction h with
  | empty => exact Reachable.empty
  | addLink g pr u _ ih => exact Reachable.addLink g u ih
  | addConnection g pr a b g' r _ hc ih => exact Reachable.addConnection g a b g' r ih hc
  | updateRank g pr u fuel g' tr _ hu ih =>
    exact Reachable.updateRank g u fuel g' tr.length ih (updateHelper_of_trace hu)

theorem reachable_reachableTrace {P : Params} {g : Webgraph} (h : Reachable P g) :
    ∃ pr, ReachableTrace P g pr := by
  induction h with
  | empty => exact ⟨[], ReachableTrace.empty⟩
  | addLink g u _ ih =>
    obtain ⟨pr, hpr⟩ := ih
    exact ⟨pr, ReachableTrace.addLink g pr u hpr⟩
  | addConnection g a b g' r _ hc ih =>
    obtain ⟨pr, hpr⟩ := ih
    exact ⟨pr, ReachableTrace.addConnection g pr a b g' r hpr hc⟩
  | updateRank g u fuel g' k _ hu ih =>
    obtain ⟨pr, hpr⟩ := ih
    obtain ⟨tr, htr, _⟩ := updateHelper_done_trace hu
    exact ⟨pr ++ tr, ReachableTrace.updateRank g pr u fuel g' tr hpr htr⟩

/-- Along a history the processed indices are in range and hold ranks of at least
`1 - damping_factor`; all other ranks are 0. -/
theorem reachableTrace_ranks {P : Params} (hd0 : 0 < P.damping_factor)
    (hd1 : P.damping_factor < 1) {g : Webgraph} {pr : List Nat}
    (h : ReachableTrace P g pr) :
    (∀ i ∈ pr, i < g.length) ∧
    ∀ i n, g[i]? = some n →
      (i ∈ pr → ∃ q : ℚ, n.rank = FVal.fin q ∧ 1 - P.damping_factor ≤ q) ∧
      (i ∉ pr → n.rank = FVal.fin 0) := by
  induction h with
  | empty => exact ⟨fun i hi => absurd hi (List.not_mem_nil i), fun i n hi => by simp at hi⟩
  | addLink g pr u _ ih =>
    obtain ⟨ih1, ih2⟩ := ih
    rw [addLink_fst]
    refine ⟨fun i hi => lt_of_lt_of_le (ih1 i hi) (length_le_ensureLink g u), ?_⟩
    intro i n hi
    rcases getElem?_ensureLink hi with h0 | ⟨hle, h0⟩
    · exact ih2 i n h0
    · exact ⟨fun hmem => absurd (ih1 i hmem) (not_lt.mpr hle), fun _ => h0⟩
  | addConnection g pr a b g' r _ hc ih =>
    obtain ⟨ih1, ih2⟩ := ih
    obtain ⟨hlen, hget⟩ := addConnection_getElem? hc
    refine ⟨fun i hi => lt_of_lt_of_le (ih1 i hi) hlen, ?_⟩
    intro i n' hi
    rcases hget i n' hi with ⟨n, hn, hr⟩ | ⟨hle, h0⟩
    · rw [← hr]; exact ih2 i n hn
    · exact ⟨fun hmem => absurd (ih1 i hmem) (not_lt.mpr hle), fun _ => h0⟩
  | updateRank g pr u fuel g' tr hprev hu ih =>
    obtain ⟨ih1, ih2⟩ := ih
    have hsym : EdgeSymmetric g := reachable_edgeSymmetric (reachableTrace_reachable hprev)
    have hrng : RanksInRange P g := by
      intro n hn
      obtain ⟨i, hi⟩ := List.mem_iff_getElem?.mp hn
      by_cases hmem : i ∈ pr
      · exact Or.inr ((ih2 i n hi).1 hmem)
      · exact Or.inl ((ih2 i n hi).2 hmem)
    obtain ⟨_, hall⟩ := updateHelperTrace_ranksInRange hd0 hd1 hsym hrng hu
    obtain ⟨hframe, _⟩ := updateHelperTrace_frame hu
    have hlen := length_eq_of_eraseRanks (updateHelperTrace_eraseRanks hu)
    constructor
    · intro i hi
      rcases List.mem_append.mp hi with hi | hi
      · rw [hlen]; exact ih1 i hi
      · obtain ⟨n', _, hn', _, _⟩ := hall i hi
        exact (List.getElem?_eq_some.mp hn').1
    · intro i n' hi
      by_cases hit : i ∈ tr
      · obtain ⟨n'', r, hn'', hr, hle⟩ := hall i hit
        rw [hi] at hn''
        have := Option.some.inj hn''
        subst this
        exact ⟨fun _ => ⟨r, hr, hle⟩,
          fun hnot => absurd (List.mem_append_right pr hit) hnot⟩
      · rw [hframe i hit] at hi
        refine ⟨fun hmem => ?_, fun hnot => ?_⟩
        · rcases List.mem_append.mp hmem with hm | hm
          · exact (ih2 i n' hi).1 hm
          · exact absurd hm hit
        · exact (ih2 i n' hi).2 (fun hm => hnot (List.mem_append_left tr hm))

/-! ## The drift example -/

theorem updateHelperTrace_cons {P : Params} {fuel : Nat} {g g1 g' : Webgraph} {i : Nat}
    {rest q1 tr : List Nat} (hs : updateHelperStep P g i rest = some (g1, q1))
    (hr : updateHelperTrace P fuel g1 q1 = Outcome.done (g', tr)) :
    updateHelperTrace P (fuel + 1) g (i :: rest) = Outcome.done (g', i :: tr) := by
  rw [updateHelperTrace]
  simp only [hs, hr]

theorem incomingSum_congr {g g' : Webgraph} {ps : List String}
    (h : ∀ p ∈ ps, g'[getNodeIndexFromLink g' p]? = g[getNodeIndexFromLink g p]?)
    (acc : FVal) : incomingSum g' ps acc = incomingSum g ps acc := by
  induction ps generalizing acc with
  | nil => rfl
  | cons p rest ih =>
    simp only [incomingSum, h p (List.mem_cons_self _ _)]
    cases g[getNodeIndexFromLink g p]? with
    | none => rfl
    | some m => exact ih (fun p' hp' => h p' (List.mem_cons_of_mem _ hp')) _

theorem converged_self (P : Params) (hthr : 0 < P.rank_threshold) {r : ℚ} (hr : 0 < r) :
    converged P (FVal.fin r) (FVal.fin r) = true := by
  unfold converged
  rw [FVal.sub_fin, FVal.abs_fin, FVal.div_fin _ (ne_of_gt hr), FVal.lt_fin]
  simp [hthr]

/-- In a graph with symmetric edges and without cycle no node is its own parent. -/
theorem not_self_parent {g : Webgraph} (hsym : EdgeSymmetric g) (hac : Acyclic g) {v : Nat}
    {n : Node} (hn : g[v]? = some n) {p : String} (hp : p ∈ n.parents) :
    getNodeIndexFromLink g p ≠ v := by
  intro hidx
  obtain ⟨m, hm, hmem⟩ := (hsym n (List.getElem?_mem hn)).1 p hp
  unfold getNodeFromLink at hm
  rw [hidx, hn] at hm
  have hmn : n = m := Option.some.inj hm
  subst hmn
  exact hac n.url (Relation.TransGen.single ⟨n, List.getElem?_mem hn, rfl, hmem⟩)

theorem acyclic_of_eraseRanks {g g' : Webgraph} (h : eraseRanks g' = eraseRanks g)
    (hac : Acyclic g) : Acyclic g' := by
  intro a ha
  apply hac a
  refine Relation.TransGen.mono ?_ ha
  intro x y hxy
  obtain ⟨n', hn', hu, hc⟩ := hxy
  obtain ⟨n, hn, hu', hc', _⟩ := mem_of_eraseRanks h hn'
  exact ⟨n, hn, hu'.trans hu, hc'.symm ▸ hc⟩

/-- A returning run whose trace is split at an occurrence of `v`: the state before this
processing of `v`, the step, and the rest of the run. -/
theorem updateHelperTrace_split {P : Params} (Inv : Webgraph → Prop)
    (hInv : ∀ g i rest g1 q1, Inv g → updateHelperStep P g i rest = some (g1, q1) → Inv g1)
    {pre : List Nat} {v : Nat} {post : List Nat} {fuel : Nat} {g g' : Webgraph} {q : List Nat}
    (hg : Inv g) (h : updateHelperTrace P fuel g q = Outcome.done (g', pre ++ v :: post)) :
    ∃ fuel' gk rest g1 q1, Inv gk ∧ updateHelperStep P gk v rest = some (g1, q1) ∧
      updateHelperTrace P fuel' g1 q1 = Outcome.done (g', post) := by
  induction pre generalizing fuel g q with
  | nil =>
    cases q with
    | nil =>
      have := (updateHelperTrace_nil_inv h).2
      simp at this
    | cons i rest =>
      obtain ⟨fuel', g1, q1, tr', _, hstep, hrun, htr⟩ := updateHelperTrace_cons_inv h
      simp only [List.nil_append, List.cons.injEq] at htr
      obtain ⟨hv, hpost⟩ := htr
      subst hv; subst hpost
      exact ⟨fuel', g, rest, g1, q1, hg, hstep, hrun⟩
  | cons x pre' ih =>
    cases q with
    | nil =>
      have := (updateHelperTrace_nil_inv h).2
      simp at this
    | cons i rest =>
      obtain ⟨fuel', g1, q1, tr', _, hstep, hrun, htr⟩ := updateHelperTrace_cons_inv h
      simp only [List.cons_append, List.cons.injEq] at htr
      obtain ⟨_, htr'⟩ := htr
      subst htr'
      exact ih (hInv g i rest g1 q1 hg hstep) hrun

/-- After a returning run on a graph with symmetric edges, without cycle and with ranks in
range, a node none of whose parents is processed after its own last processing holds
exactly the rank the formula yields from the final ranks of its parents. -/
theorem updateHelperTrace_undisturbed {P : Params} (hd0 : 0 < P.damping_factor)
    (hd1 : P.damping_factor < 1) {g g' : Webgraph} (hsym : EdgeSymmetric g)
    (hac : Acyclic g) (hrng : RanksInRange P g) {fuel : Nat} {q pre post : List Nat} {v : Nat}
    (hrun : updateHelperTrace P fuel g q = Outcome.done (g', pre ++ v :: post))
    (hlast : v ∉ post)
    (hpar : ∀ n, g[v]? = some n → ∀ p ∈ n.parents, getNodeIndexFromLink g p ∉ post) :
    ∃ n' r, g'[v]? = some n' ∧ n'.rank = FVal.fin r ∧ 1 - P.damping_factor ≤ r ∧
      ∃ sum, incomingSum g' n'.parents (FVal.fin 0) = some sum ∧
        dampedRank P sum = FVal.fin r := by
  obtain ⟨fuel', gk, rest, g1, q1, ⟨hek, hsymk, hrngk⟩, hstep, hrest⟩ :=
    updateHelperTrace_split
      (fun x => eraseRanks x = eraseRanks g ∧ EdgeSymmetric x ∧ RanksInRange P x)
      (fun x i rest x1 q1 hx hs =>
        ⟨(updateHelperStep_eraseRanks hs).trans hx.1,
          edgeSymmetric_of_eraseRanks (updateHelperStep_eraseRanks hs) hx.2.1,
          (updateHelperStep_ranksInRange hd0 hd1 hx.2.1 hx.2.2 hs).1⟩)
      ⟨rfl, hsym, hrng⟩ hrun
  obtain ⟨n, sum, hn, hs⟩ := updateHelperStep_some hstep
  obtain ⟨s, hs', _, hdr, hle⟩ := updateHelperStep_inRange hd0 hd1 hsymk hrngk hn
  rw [hs] at hs'
  have hsum : sum = FVal.fin s := Option.some.inj hs'
  subst hsum
  have hstep' := hstep
  rw [updateHelperStep_eq hn hs rest] at hstep'
  have hg1 := (Prod.mk.inj (Option.some.inj hstep')).1
  have hv : v < gk.length := (List.getElem?_eq_some.mp hn).1
  obtain ⟨hframe, _⟩ := updateHelperTrace_frame hrest
  have hg1v : g1[v]? = some (n.updateRank (dampedRank P (FVal.fin s))) := by
    rw [← hg1, List.getElem?_set_self hv]
  have hg'v : g'[v]? = some (n.updateRank (dampedRank P (FVal.fin s))) := by
    rw [hframe v hlast, hg1v]
  have he1 : eraseRanks g1 = eraseRanks gk := updateHelperStep_eraseRanks hstep
  have he' : eraseRanks g' = eraseRanks gk := (updateHelperTrace_eraseRanks hrest).trans he1
  obtain ⟨n0, hn0, _, _, _, hpar0⟩ := getElem?_of_eraseRanks hek hn
  have hack : Acyclic gk := acyclic_of_eraseRanks hek hac
  refine ⟨n.updateRank (dampedRank P (FVal.fin s)),
    1 - P.damping_factor + P.damping_factor * s, hg'v, by rw [← hdr]; rfl, hle,
    FVal.fin s, ?_, hdr⟩
  have hcongr : incomingSum g' n.parents (FVal.fin 0) =
      incomingSum gk n.parents (FVal.fin 0) := by
    apply incomingSum_congr
    intro p hp
    have hi' : getNodeIndexFromLink g' p = getNodeIndexFromLink gk p :=
      getNodeIndexFromLink_congr (urls_eq_of_eraseRanks he').symm p
    have hik : getNodeIndexFromLink gk p = getNodeIndexFromLink g p :=
      getNodeIndexFromLink_congr (urls_eq_of_eraseRanks hek).symm p
    have hnotpost : getNodeIndexFromLink gk p ∉ post := by
      rw [hik]; exact hpar n0 hn0 p (hpar0 ▸ hp)
    have hne : getNodeIndexFromLink gk p ≠ v := not_self_parent hsymk hack hn hp
    rw [hi', hframe _ hnotpost, updateHelperStep_getElem?_ne hstep hne]
  exact hcongr.trans hs

theorem reachable_ranksInRange {P : Params} (hd0 : 0 < P.damping_factor)
    (hd1 : P.damping_factor < 1) {g : Webgraph} (h : Reachable P g) : RanksInRange P g := by
  obtain ⟨pr, hpr⟩ := reachable_reachableTrace h
  obtain ⟨_, hall⟩ := reachableTrace_ranks hd0 hd1 hpr
  intro n hn
  obtain ⟨i, hi⟩ := List.mem_iff_getElem?.mp hn
  by_cases hmem : i ∈ pr
  · exact Or.inr ((hall i n hi).1 hmem)
  · exact Or.inl ((hall i n hi).2 hmem)

theorem scenario_trace :
    updateHelperTrace scenarioParams 4 (scenarioGraph 0 0 0)
        [getNodeIndexFromLink (scenarioGraph 0 0 0) "A"] =
      Outcome.done (scenarioGraph (3 / 20) (171 / 800) (6327 / 16000), [0, 1, 2] ++ 2 :: []) := by
  have h5 : updateHelperTrace scenarioParams 0
      (scenarioGraph (3 / 20) (171 / 800) (6327 / 16000)) [] =
      Outcome.done (scenarioGraph (3 / 20) (171 / 800) (6327 / 16000), []) := rfl
  have h4 := updateHelperTrace_cons (scenario_step_C_again []) h5
  have h3 := updateHelperTrace_cons (scenario_step_C [2]) h4
  have h2 := updateHelperTrace_cons (scenario_step_B 0 [2]) h3
  have h1 := updateHelperTrace_cons (scenario_step_A 0 0 []) h2
  rw [(scenario_index 0 0 0).1]
  exact h1

/-! ## Parents that are processed once more -/

theorem roundHalfEven_cases (x : ℚ) :
    (roundHalfEven x = ⌊x⌋ ∧ x - (⌊x⌋ : ℚ) ≤ 1 / 2) ∨
    (roundHalfEven x = ⌊x⌋ + 1 ∧ 1 / 2 ≤ x - (⌊x⌋ : ℚ)) := by
  unfold roundHalfEven
  split_ifs with h1 h2 h3
  · exact Or.inl ⟨rfl, le_of_lt h1⟩
  · exact Or.inr ⟨rfl, le_of_lt h2⟩
  · exact Or.inl ⟨rfl, le_of_not_lt h2⟩
  · exact Or.inr ⟨rfl, le_of_not_lt h1⟩

/-- The nearest integer is at most one half away. -/
theorem roundHalfEven_sub_le (x : ℚ) : |(roundHalfEven x : ℚ) - x| ≤ 1 / 2 := by
  have h1 := Int.floor_le x
  have h2 := Int.lt_floor_add_one x
  rw [abs_le]
  rcases roundHalfEven_cases x with ⟨h, hf⟩ | ⟨h, hf⟩
  · rw [h]; constructor <;> linarith
  · rw [h]; push_cast; constructor <;> linarith

theorem roundHalfEven_eq {x : ℚ} {z : ℤ} (h1 : (z : ℚ) - 1 / 2 < x) (h2 : x < (z : ℚ) + 1 / 2) :
    roundHalfEven x = z := by
  have h := abs_le.mp (roundHalfEven_sub_le x)
  have h3 : ((roundHalfEven x - z : ℤ) : ℚ) < 1 := by push_cast; linarith [h.2]
  have h4 : (-1 : ℚ) < ((roundHalfEven x - z : ℤ) : ℚ) := by push_cast; linarith [h.1]
  have h5 : roundHalfEven x - z < 1 := by exact_mod_cast h3
  have h6 : -1 < roundHalfEven x - z := by exact_mod_cast h4
  omega

theorem roundHalfEven_intCast (z : ℤ) : roundHalfEven (z : ℚ) = z :=
  roundHalfEven_eq (by linarith) (by linarith)

theorem roundHalfEven_mono {x y : ℚ} (h : x ≤ y) : roundHalfEven x ≤ roundHalfEven y := by
  have hfl : ⌊x⌋ ≤ ⌊y⌋ := Int.floor_le_floor h
  rcases lt_or_eq_of_le hfl with hlt | heq
  · have hx : roundHalfEven x ≤ ⌊x⌋ + 1 := by
      rcases roundHalfEven_cases x with ⟨h1, _⟩ | ⟨h1, _⟩ <;> omega
    have hy : ⌊y⌋ ≤ roundHalfEven y := by
      rcases roundHalfEven_cases y with ⟨h1, _⟩ | ⟨h1, _⟩ <;> omega
    omega
  · unfold roundHalfEven
    rw [← heq]
    split_ifs <;> first | omega | (exfalso; linarith)

theorem ulpExponent_le {x : ℚ} (hx : 0 < x) : (2 : ℚ) ^ (ulpExponent x + 23) ≤ x := by
  have h := @Int.zpow_log_le_self ℚ _ _ 2 x (by norm_num) hx
  unfold ulpExponent
  rw [sub_add_cancel]
  exact_mod_cast h

theorem lt_ulpExponent {x : ℚ} : x < (2 : ℚ) ^ (ulpExponent x + 24) := by
  have h := @Int.lt_zpow_succ_log_self ℚ _ _ 2 (by norm_num) x
  unfold ulpExponent
  have he : Int.log 2 x - 23 + 24 = Int.log 2 x + 1 := by ring
  rw [he]
  exact_mod_cast h

theorem ulpExponent_eq {x : ℚ} {e : ℤ} (hx : 0 < x) (h1 : (2 : ℚ) ^ (e + 23) ≤ x)
    (h2 : x < (2 : ℚ) ^ (e + 24)) : ulpExponent x = e := by
  have h3 : e + 23 ≤ Int.log 2 x :=
    (@Int.zpow_le_iff_le_log ℚ _ _ 2 (by norm_num) (e + 23) x hx).mp (by exact_mod_cast h1)
  have h4 : Int.log 2 x < e + 24 :=
    (@Int.lt_zpow_iff_log_lt ℚ _ _ 2 (by norm_num) (e + 24) x hx).mp (by exact_mod_cast h2)
  unfold ulpExponent
  omega

theorem ulpExponent_mono {x y : ℚ} (hx : 0 < x) (h : x ≤ y) :
    ulpExponent x ≤ ulpExponent y := by
  have := @Int.log_mono_right ℚ _ _ 2 x y hx h
  unfold ulpExponent
  omega

theorem round32_zero : round32 0 = 0 := by
  simp [round32, roundHalfEven]

theorem round32_of_pos {x : ℚ} (hx : 0 < x) :
    round32 x = roundHalfEven (x / 2 ^ ulpExponent x) * 2 ^ ulpExponent x := by
  unfold round32
  rw [abs_of_pos hx]

/-- The significand of a positive value lies between `2 ^ 23` and `2 ^ 24`. -/
theorem significand_bounds {x : ℚ} (hx : 0 < x) :
    (2 : ℚ) ^ (23 : ℕ) ≤ x / 2 ^ ulpExponent x ∧ x / 2 ^ ulpExponent x < (2 : ℚ) ^ (24 : ℕ) := by
  have hp : (0 : ℚ) < 2 ^ ulpExponent x := zpow_pos (by norm_num) _
  have h1 := ulpExponent_le hx
  have h2 := @lt_ulpExponent x
  rw [zpow_add₀ (by norm_num : (2 : ℚ) ≠ 0)] at h1 h2
  constructor
  · rw [le_div_iff₀ hp]
    calc (2 : ℚ) ^ (23 : ℕ) * 2 ^ ulpExponent x = 2 ^ ulpExponent x * 2 ^ (23 : ℤ) := by
          rw [mul_comm]; norm_cast
      _ ≤ x := h1
  · rw [div_lt_iff₀ hp]
    calc x < 2 ^ ulpExponent x * 2 ^ (24 : ℤ) := h2
      _ = (2 : ℚ) ^ (24 : ℕ) * 2 ^ ulpExponent x := by rw [mul_comm]; norm_cast

/-- The rounded significand of a positive value lies between `2 ^ 23` and `2 ^ 24`. -/
theorem roundHalfEven_significand {x : ℚ} (hx : 0 < x) :
    (2 : ℤ) ^ (23 : ℕ) ≤ roundHalfEven (x / 2 ^ ulpExponent x) ∧
    roundHalfEven (x / 2 ^ ulpExponent x) ≤ (2 : ℤ) ^ (24 : ℕ) := by
  obtain ⟨h1, h2⟩ := significand_bounds hx
  constructor
  · have := roundHalfEven_mono h1
    have hc : ((2 : ℚ) ^ (23 : ℕ)) = (((2 : ℤ) ^ (23 : ℕ) : ℤ) : ℚ) := by norm_cast
    rw [hc, roundHalfEven_intCast] at this
    exact this
  · have := roundHalfEven_mono (le_of_lt h2)
    have hc : ((2 : ℚ) ^ (24 : ℕ)) = (((2 : ℤ) ^ (24 : ℕ) : ℤ) : ℚ) := by norm_cast
    rw [hc, roundHalfEven_intCast] at this
    exact this

theorem round32_pos {x : ℚ} (hx : 0 < x) : 0 < round32 x := by
  rw [round32_of_pos hx]
  have h := (roundHalfEven_significand hx).1
  have hp : (0 : ℚ) < 2 ^ ulpExponent x := zpow_pos (by norm_num) _
  have h0 : (0 : ℚ) < (roundHalfEven (x / 2 ^ ulpExponent x) : ℚ) := by
    have : (0 : ℤ) < roundHalfEven (x / 2 ^ ulpExponent x) := lt_of_lt_of_le (by norm_num) h
    exact_mod_cast this
  exact mul_pos h0 hp

theorem round32_nonneg {x : ℚ} (hx : 0 ≤ x) : 0 ≤ round32 x := by
  rcases eq_or_lt_of_le hx with h | h
  · rw [← h, round32_zero]
  · exact le_of_lt (round32_pos h)

/-- Rounding is monotone on the non-negative values. -/
theorem round32_mono {x y : ℚ} (hx : 0 ≤ x) (h : x ≤ y) : round32 x ≤ round32 y := by
  rcases eq_or_lt_of_le hx with h0 | hpos
  · rw [← h0, round32_zero]
    exact round32_nonneg (le_trans hx h)
  · have hy : 0 < y := lt_of_lt_of_le hpos h
    rw [round32_of_pos hpos, round32_of_pos hy]
    rcases lt_or_eq_of_le (ulpExponent_mono hpos h) with hlt | heq
    · have h1 := (roundHalfEven_significand hpos).2
      have h2 := (roundHalfEven_significand hy).1
      have h1' : (roundHalfEven (x / 2 ^ ulpExponent x) : ℚ) ≤ (2 : ℚ) ^ (24 : ℕ) := by
        exact_mod_cast h1
      have h2' : (2 : ℚ) ^ (23 : ℕ) ≤ (roundHalfEven (y / 2 ^ ulpExponent y) : ℚ) := by
        exact_mod_cast h2
      have hpx : (0 : ℚ) < 2 ^ ulpExponent x := zpow_pos (by norm_num) _
      have hpy : (0 : ℚ) < 2 ^ ulpExponent y := zpow_pos (by norm_num) _
      have hle : (2 : ℚ) ^ (ulpExponent x + 1) ≤ 2 ^ ulpExponent y :=
        zpow_le_zpow_right₀ (by norm_num) (by omega)
      rw [zpow_add₀ (by norm_num : (2 : ℚ) ≠ 0), zpow_one] at hle
      calc (roundHalfEven (x / 2 ^ ulpExponent x) : ℚ) * 2 ^ ulpExponent x
          ≤ (2 : ℚ) ^ (24 : ℕ) * 2 ^ ulpExponent x :=
            mul_le_mul_of_nonneg_right h1' (le_of_lt hpx)
        _ = (2 : ℚ) ^ (23 : ℕ) * (2 ^ ulpExponent x * 2) := by ring
        _ ≤ (2 : ℚ) ^ (23 : ℕ) * 2 ^ ulpExponent y :=
            mul_le_mul_of_nonneg_left hle (by positivity)
        _ ≤ (roundHalfEven (y / 2 ^ ulpExponent y) : ℚ) * 2 ^ ulpExponent y :=
            mul_le_mul_of_nonneg_right h2' (le_of_lt hpy)
    · rw [← heq]
      have hp : (0 : ℚ) < 2 ^ ulpExponent x := zpow_pos (by norm_num) _
      have hdiv : x / 2 ^ ulpExponent x ≤ y / 2 ^ ulpExponent x :=
        div_le_div_of_nonneg_right h (le_of_lt hp)
      have := roundHalfEven_mono hdiv
      have hc : (roundHalfEven (x / 2 ^ ulpExponent x) : ℚ) ≤
          (roundHalfEven (y / 2 ^ ulpExponent x) : ℚ) := by exact_mod_cast this
      exact mul_le_mul_of_nonneg_right hc (le_of_lt hp)

/-- The relative error of rounding a positive value is at most `2 ^ (-24)`. -/
theorem round32_error {x : ℚ} (hx : 0 < x) : |round32 x - x| ≤ x / 2 ^ (24 : ℕ) := by
  rw [round32_of_pos hx]
  have hp : (0 : ℚ) < 2 ^ ulpExponent x := zpow_pos (by norm_num) _
  have h1 := roundHalfEven_sub_le (x / 2 ^ ulpExponent x)
  have h2 : (roundHalfEven (x / 2 ^ ulpExponent x) : ℚ) * 2 ^ ulpExponent x - x =
      ((roundHalfEven (x / 2 ^ ulpExponent x) : ℚ) - x / 2 ^ ulpExponent x) *
        2 ^ ulpExponent x := by
    field_simp
  rw [h2, abs_mul, abs_of_pos hp]
  have h3 := (significand_bounds hx).1
  rw [le_div_iff₀ hp] at h3
  calc |(roundHalfEven (x / 2 ^ ulpExponent x) : ℚ) - x / 2 ^ ulpExponent x| *
        2 ^ ulpExponent x ≤ 1 / 2 * 2 ^ ulpExponent x :=
        mul_le_mul_of_nonneg_right h1 (le_of_lt hp)
    _ = (2 : ℚ) ^ (23 : ℕ) * 2 ^ ulpExponent x / 2 ^ (24 : ℕ) := by ring
    _ ≤ x / 2 ^ (24 : ℕ) := div_le_div_of_nonneg_right h3 (by positivity)

/-- The value of the rounding, from bounds on the argument. -/
theorem round32_eq {x : ℚ} {e z : ℤ} (hx : 0 < x) (h1 : (2 : ℚ) ^ (e + 23) ≤ x)
    (h2 : x < (2 : ℚ) ^ (e + 24)) (h3 : (z : ℚ) - 1 / 2 < x / 2 ^ e)
    (h4 : x / 2 ^ e < (z : ℚ) + 1 / 2) : round32 x = z * 2 ^ e := by
  rw [round32_of_pos hx, ulpExponent_eq hx h1 h2, roundHalfEven_eq h3 h4]

/-! ## The rank query in binary32 arithmetic -/

theorem storeNormalized32_apply (scale : FVal) (g : Webgraph) (m : RankMap) (k : String) :
    storeNormalized32 scale g m k =
      match lastWithUrl g k with
      | some n => some ((m.entry k).1, FVal.toBinary32 (FVal.mul n.rank scale))
      | none => m k := by
  induction g generalizing m with
  | nil => rfl
  | cons n rest ih =>
    simp only [storeNormalized32, lastWithUrl]
    rw [ih]
    cases hr : lastWithUrl rest k with
    | some m' => simp only [RankMap.entry_setSecond_fst]
    | none =>
      simp only
      by_cases hu : n.url = k
      · subst hu
        simp [RankMap.setSecond, RankMap.assign]
      · have hu' : ¬ k = n.url := fun h => hu h.symm
        simp [RankMap.setSecond, RankMap.assign, hu, hu']

/-- The entry of the rank query in binary32 arithmetic for a url: the raw rank of the last
node with this url and its rounded product with the rounded scale factor. -/
theorem getAllRanks32_apply (g : Webgraph) (k : String) :
    getAllRanks32 g k =
      match lastWithUrl g k with
      | some n => some (n.rank, FVal.toBinary32 (FVal.mul n.rank (FVal.toBinary32
          (FVal.div (FVal.fin 10) (collectRanks g (RankMap.empty, FVal.fin 0)).2))))
      | none => none := by
  unfold getAllRanks32
  rw [storeNormalized32_apply]
  cases hr : lastWithUrl g k with
  | some n =>
    simp only [RankMap.entry, collectRanks_fst, hr, Option.getD_some]
  | none =>
    simp only [collectRanks_fst, hr]
    rfl

theorem round32_ten_above : round32 (10 + 10 / 2 ^ (24 : ℕ)) = 10 + 1 / 2 ^ (20 : ℕ) := by
  have h := @round32_eq (10 + 10 / 2 ^ (24 : ℕ)) (-20) 10485761 (by norm_num) (by norm_num)
    (by norm_num) (by norm_num) (by norm_num)
  rw [h]
  norm_num

theorem round32_ten_below : round32 (10 - 10 / 2 ^ (24 : ℕ)) = 10 - 1 / 2 ^ (20 : ℕ) := by
  have h := @round32_eq (10 - 10 / 2 ^ (24 : ℕ)) (-20) 10485759 (by norm_num) (by norm_num)
    (by norm_num) (by norm_num) (by norm_num)
  rw [h]
  norm_num

/-- The rounded scale factor of a positive maximum is positive, and its rounded product with
the maximum is 10 up to one unit in the last place. -/
theorem round32_scale {M : ℚ} (hM : 0 < M) :
    0 < round32 (10 / M) ∧ 10 - 1 / 2 ^ (20 : ℕ) ≤ round32 (M * round32 (10 / M)) ∧
    round32 (M * round32 (10 / M)) ≤ 10 + 1 / 2 ^ (20 : ℕ) := by
  have hq : 0 < 10 / M := div_pos (by norm_num) hM
  have hs := round32_pos hq
  have he := abs_le.mp (round32_error hq)
  have hMs : M * (10 / M) = 10 := by field_simp
  have h1 : M * round32 (10 / M) - 10 = M * (round32 (10 / M) - 10 / M) := by
    rw [mul_sub, hMs]
  have h2 : M * (10 / M / 2 ^ (24 : ℕ)) = 10 / 2 ^ (24 : ℕ) := by
    rw [← mul_div_assoc, hMs]
  have hlo : 10 - 10 / 2 ^ (24 : ℕ) ≤ M * round32 (10 / M) := by
    have := mul_le_mul_of_nonneg_left he.1 (le_of_lt hM)
    rw [mul_neg, h2] at this
    linarith
  have hhi : M * round32 (10 / M) ≤ 10 + 10 / 2 ^ (24 : ℕ) := by
    have := mul_le_mul_of_nonneg_left he.2 (le_of_lt hM)
    rw [h2] at this
    linarith
  refine ⟨hs, ?_, ?_⟩
  · rw [← round32_ten_below]
    exact round32_mono (by norm_num) hlo
  · rw [← round32_ten_above]
    exact round32_mono (le_of_lt (mul_pos hM hs)) hhi

/-- In a graph whose nodes have pairwise distinct urls and finite non-negative ranks, at least
one of them nonzero, the rank query in binary32 arithmetic keeps the normalization bound up
to one unit in the last place of 10. -/
theorem normalizationWithin_of_nonneg (g : Webgraph) (hnd : (urls g).Nodup)
    (hfin : ∀ n ∈ g, ∃ q : ℚ, n.rank = FVal.fin q ∧ 0 ≤ q)
    (hpos : ∃ n ∈ g, n.rank ≠ FVal.fin 0) : NormalizationWithin (1 / 2 ^ (20 : ℕ)) g := by
  obtain ⟨M, hM, hM0, hall, hor⟩ := collectRanks_snd hfin RankMap.empty 0
  have hMpos : 0 < M := by
    obtain ⟨n, hn, hne⟩ := hpos
    obtain ⟨q, hq, hq0⟩ := hfin n hn
    have hq' : q ≠ 0 := fun h => hne (by rw [hq, h])
    exact lt_of_lt_of_le (lt_of_le_of_ne hq0 (Ne.symm hq')) (hall n hn q hq)
  have hMne : M ≠ 0 := ne_of_gt hMpos
  obtain ⟨hs, hlo, hhi⟩ := round32_scale hMpos
  have happly : ∀ k, getAllRanks32 g k =
      match lastWithUrl g k with
      | some n => some (n.rank, FVal.toBinary32 (FVal.mul n.rank (FVal.fin (round32 (10 / M)))))
      | none => none := by
    intro k
    rw [getAllRanks32_apply, hM, FVal.div_fin 10 hMne]
    rfl
  constructor
  · intro k e he
    rw [happly] at he
    cases hl : lastWithUrl g k with
    | none => rw [hl] at he; exact absurd he (by simp)
    | some n =>
      rw [hl] at he
      obtain ⟨q, hq, hq0⟩ := hfin n (lastWithUrl_mem hl).1
      have hqM := hall n (lastWithUrl_mem hl).1 q hq
      simp only [hq, FVal.mul_fin, FVal.toBinary32, Option.some.injEq] at he
      refine ⟨round32 (q * round32 (10 / M)), by rw [← he],
        round32_nonneg (mul_nonneg hq0 (le_of_lt hs)), ?_⟩
      exact le_trans (round32_mono (mul_nonneg hq0 (le_of_lt hs))
        (mul_le_mul_of_nonneg_right hqM (le_of_lt hs))) hhi
  · intro n hn hmax
    obtain ⟨q, hq, hq0⟩ := hfin n hn
    have hqM := hall n hn q hq
    have hMq : M ≤ q := by
      rcases hor with h | ⟨m, hm, hmr⟩
      · exact absurd h hMne
      · have := hmax m hm
        rw [hq, hmr, FVal.lt_fin] at this
        exact not_lt.mp (by simpa using this)
    have hqeq : q = M := le_antisymm hqM hMq
    refine ⟨n.rank, round32 (M * round32 (10 / M)), ?_, ?_⟩
    · rw [happly, lastWithUrl_of_nodup hnd hn]
      simp only [hq, FVal.mul_fin, FVal.toBinary32, hqeq]
    · rw [abs_le]
      constructor <;> linarith

/-! ## The rounding example -/

theorem rounding_built : Built (roundingGraph 0 0) :=
  Built.addConnection [] "A" "B" _ true Built.empty (by decide)

theorem rounding_index (a b : ℚ) :
    getNodeIndexFromLink (roundingGraph a b) "A" = 0 ∧
    getNodeIndexFromLink (roundingGraph a b) "B" = 1 := by
  have hAB : ¬ "A" = "B" := by decide
  simp [getNodeIndexFromLink, roundingGraph, hAB]

theorem rounding_step_A (q : List Nat) :
    updateHelperStep roundingParams (roundingGraph 0 0) 0 q =
      some (roundingGraph (3 / 8) 0, q ++ [1]) := by
  have hi := rounding_index (3 / 8) 0
  simp only [roundingGraph] at hi
  norm_num [updateHelperStep, roundingGraph, roundingParams, getIncomingLinks,
    getOutgoingLinks, incomingSum, FVal.sub_fin, FVal.mul_fin, FVal.add_fin, Node.updateRank,
    converged_old_zero, hi]

theorem rounding_step_B (q : List Nat) :
    updateHelperStep roundingParams (roundingGraph (3 / 8) 0) 1 q =
      some (roundingGraph (3 / 8) (39 / 64), q) := by
  have hi := rounding_index (3 / 8) 0
  simp only [roundingGraph] at hi
  norm_num [updateHelperStep, roundingGraph, roundingParams, getIncomingLinks,
    getOutgoingLinks, incomingSum, FVal.sub_fin, FVal.mul_fin, FVal.add_fin, Node.updateRank,
    converged_old_zero, FVal.div_fin, hi]

theorem rounding_run :
    updateRank roundingParams 2 (roundingGraph 0 0) "A" =
      Outcome.done (roundingGraph (3 / 8) (39 / 64), 2) := by
  have h3 : updateHelper roundingParams 0 (roundingGraph (3 / 8) (39 / 64)) [] =
      Outcome.done (roundingGraph (3 / 8) (39 / 64), 0) := rfl
  have h2 := updateHelper_cons (rounding_step_B []) h3
  have h1 := updateHelper_cons (rounding_step_A []) h2
  unfold updateRank
  rw [(rounding_index 0 0).1]
  exact h1

theorem rounding_reachable : Reachable roundingParams (roundingGraph (3 / 8) (39 / 64)) :=
  Reachable.updateRank (roundingGraph 0 0) "A" 2 _ 2
    (built_reachable roundingParams rounding_built) rounding_run

theorem rounding_max :
    (collectRanks (roundingGraph (3 / 8) (39 / 64)) (RankMap.empty, FVal.fin 0)).2 =
      FVal.fin (39 / 64) := by
  norm_num [collectRanks, roundingGraph, FVal.gt, FVal.lt_fin]

theorem round32_scale_example : round32 (10 / (39 / 64)) = 8603701 / 2 ^ (19 : ℕ) := by
  have h := @round32_eq (10 / (39 / 64)) (-19) 8603701 (by norm_num) (by norm_num)
    (by norm_num) (by norm_num) (by norm_num)
  rw [h]
  norm_num

theorem round32_product_example :
    round32 (39 / 64 * (8603701 / 2 ^ (19 : ℕ))) = 10485761 / 1048576 := by
  have h := @round32_eq (39 / 64 * (8603701 / 2 ^ (19 : ℕ))) (-20) 10485761 (by norm_num)
    (by norm_num) (by norm_num) (by norm_num) (by norm_num)
  rw [h]
  norm_num

/-- The ranks of the rounding example are `float` values: rounding leaves them as they
are. -/
theorem rounding_ranks_exact :
    round32 (5 / 8) = 5 / 8 ∧ round32 (3 / 8) = 3 / 8 ∧ round32 (15 / 64) = 15 / 64 ∧
    round32 (39 / 64) = 39 / 64 := by
  refine ⟨?_, ?_, ?_, ?_⟩
  · rw [@round32_eq (5 / 8) (-24) 10485760 (by norm_num) (by norm_num) (by norm_num)
      (by norm_num) (by norm_num)]
    norm_num
  · rw [@round32_eq (3 / 8) (-25) 12582912 (by norm_num) (by norm_num) (by norm_num)
      (by norm_num) (by norm_num)]
    norm_num
  · rw [@round32_eq (15 / 64) (-26) 15728640 (by norm_num) (by norm_num) (by norm_num)
      (by norm_num) (by norm_num)]
    norm_num
  · rw [@round32_eq (39 / 64) (-24) 10223616 (by norm_num) (by norm_num) (by norm_num)
      (by norm_num) (by norm_num)]
    norm_num

theorem rounding_query :
    getAllRanks32 (roundingGraph (3 / 8) (39 / 64)) "B" =
      some (FVal.fin (39 / 64), FVal.fin (10485761 / 1048576)) := by
  have hl : lastWithUrl (roundingGraph (3 / 8) (39 / 64)) "B" =
      some ⟨"B", FVal.fin (39 / 64), 0, [], ["A"]⟩ := by
    have hAB : ¬ "A" = "B" := by decide
    simp [lastWithUrl, roundingGraph, hAB]
  rw [getAllRanks32_apply, hl, rounding_max]
  simp only [FVal.div_fin 10 (by norm_num : (39 / 64 : ℚ) ≠ 0), FVal.toBinary32, FVal.mul_fin,
    round32_scale_example, round32_product_example]

theorem rounding_query_exact :
    getAllRanks (roundingGraph (3 / 8) (39 / 64)) "B" =
      some (FVal.fin (39 / 64), FVal.fin 10) := by
  have hl : lastWithUrl (roundingGraph (3 / 8) (39 / 64)) "B" =
      some ⟨"B", FVal.fin (39 / 64), 0, [], ["A"]⟩ := by
    have hAB : ¬ "A" = "B" := by decide
    simp [lastWithUrl, roundingGraph, hAB]
  rw [getAllRanks_apply, hl, rounding_max]
  norm_num [FVal.div_fin, FVal.mul_fin]

/-! ## The rank query in exact arithmetic -/

/-- In exact arithmetic, in a graph whose nodes have pairwise distinct urls and finite
non-negative ranks, at least one of them nonzero, every normalized rank returned by
`getAllRanks` lies in the interval from 0 to 10, and every node of maximum raw rank has the
normalized rank 10. -/
theorem normalizationBound_of_nonneg (g : Webgraph) (hnd : (urls g).Nodup)
    (hfin : ∀ n ∈ g, ∃ q : ℚ, n.rank = FVal.fin q ∧ 0 ≤ q)
    (hpos : ∃ n ∈ g, n.rank ≠ FVal.fin 0) : NormalizationBound g := by
  obtain ⟨M, hM, hM0, hall, hor⟩ := collectRanks_snd hfin RankMap.empty 0
  have hMpos : 0 < M := by
    obtain ⟨n, hn, hne⟩ := hpos
    obtain ⟨q, hq, hq0⟩ := hfin n hn
    have hq' : q ≠ 0 := fun h => hne (by rw [hq, h])
    exact lt_of_lt_of_le (lt_of_le_of_ne hq0 (Ne.symm hq')) (hall n hn q hq)
  have hMne : M ≠ 0 := ne_of_gt hMpos
  have happly : ∀ k, getAllRanks g k =
      match lastWithUrl g k with
      | some n => some (n.rank, FVal.mul n.rank (FVal.fin (10 / M)))
      | none => none := by
    intro k
    rw [getAllRanks_apply, hM, FVal.div_fin 10 hMne]
  constructor
  · intro k e he
    rw [happly] at he
    cases hl : lastWithUrl g k with
    | none => rw [hl] at he; exact absurd he (by simp)
    | some n =>
      rw [hl] at he
      obtain ⟨q, hq, hq0⟩ := hfin n (lastWithUrl_mem hl).1
      have hqM := hall n (lastWithUrl_mem hl).1 q hq
      simp only [hq, FVal.mul_fin, Option.some.injEq] at he
      refine ⟨q * (10 / M), by rw [← he], mul_nonneg hq0 (by positivity), ?_⟩
      calc q * (10 / M) ≤ M * (10 / M) :=
            mul_le_mul_of_nonneg_right hqM (by positivity)
        _ = 10 := by field_simp
  · intro n hn hmax
    obtain ⟨q, hq, hq0⟩ := hfin n hn
    have hqM := hall n hn q hq
    have hMq : M ≤ q := by
      rcases hor with h | ⟨m, hm, hmr⟩
      · exact absurd h hMne
      · have := hmax m hm
        rw [hq, hmr, FVal.lt_fin] at this
        exact not_lt.mp (by simpa using this)
    have hqeq : q = M := le_antisymm hqM hMq
    refine ⟨n.rank, ?_⟩
    have hten : M * (10 / M) = 10 := by field_simp
    rw [happly, lastWithUrl_of_nodup hnd hn]
    simp only [hq, FVal.mul_fin, hqeq, hten]

/-- In exact arithmetic the normalization bound holds in every reachable state with a nonzero
rank. -/
theorem normalizationBound_of_reachable {P : Params} (hd0 : 0 < P.damping_factor)
    (hd1 : P.damping_factor < 1) {g : Webgraph} (h : Reachable P g)
    (hpos : ∃ n ∈ g, n.rank ≠ FVal.fin 0) : NormalizationBound g :=
  normalizationBound_of_nonneg g (reachable_nodup_urls h)
    (fun _ hn => ranksInRange_nonneg hd1 (reachable_ranksInRange hd0 hd1 h) hn) hpos

/-- The rank query in binary32 arithmetic has the entries of the exact one, with the same raw
ranks: the two differ in the normalized ranks only. -/
theorem getAllRanks32_fst (g : Webgraph) (k : String) :
    (getAllRanks32 g k).map Prod.fst = (getAllRanks g k).map Prod.fst := by
  rw [getAllRanks32_apply, getAllRanks_apply]
  cases lastWithUrl g k <;> rfl

/-! # The claims -/

/-! ## The ingest operations -/

/-- C1: in every graph state and for all identifiers `a` and `b` (equal or not, present or
not), `addConnection(a, b)` returns, and afterwards `hasLink(a)` and `hasLink(b)` hold, `b` is
among the children of the node found for `a`, and `a` is among the parents of the node found
for `b`. -/
theorem addConnection_connects (g : Webgraph) (a b : String) :
    ∃ g' r na nb, addConnection g a b = some (g', r) ∧
      hasLink g' a = true ∧ hasLink g' b = true ∧
      getNodeFromLink g' a = some na ∧ b ∈ na.children ∧
      getNodeFromLink g' b = some nb ∧ a ∈ nb.parents := by
  obtain ⟨g', r, h⟩ := addConnection_isSome g a b
  obtain ⟨ha, hb, ⟨na, hna, hc⟩, ⟨nb, hnb, hp⟩⟩ := addConnection_linked h
  exact ⟨g', r, na, nb, h, ha, hb, hna, hc, hnb, hp⟩

/-- C2: when no node has the identifier `x`, `addLink(x)` returns true and appends exactly one
fresh node with this identifier to the node list, which is otherwise unchanged; when some
node has it, `addLink(x)` returns false and leaves the graph as it is.  A second `addLink(x)`
right after a first one therefore returns false and changes nothing. -/
theorem addLink_once (g : Webgraph) (x : String) :
    ((¬ ∃ n ∈ g, n.url = x) →
      addLink g x = (g ++ [Node.create x creationTimestamp], true) ∧
      (Node.create x creationTimestamp).url = x ∧
      (addLink g x).1.length = g.length + 1) ∧
    ((∃ n ∈ g, n.url = x) → addLink g x = (g, false)) ∧
    addLink (addLink g x).1 x = ((addLink g x).1, false) := by
  have hpresent : (∃ n ∈ g, n.url = x) → addLink g x = (g, false) := by
    intro h
    have := (hasLink_iff g x).mpr h
    simp [addLink, this]
  refine ⟨?_, hpresent, ?_⟩
  · intro h
    have hf : hasLink g x = false := by
      cases hl : hasLink g x with
      | false => rfl
      | true => exact absurd ((hasLink_iff g x).mp hl) h
    simp [addLink, hf, Node.create]
  · have h2 : hasLink (addLink g x).1 x = true := by
      rw [addLink_fst]; exact hasLink_ensureLink_self g x
    generalize (addLink g x).1 = g1 at h2
    simp [addLink, h2]

/-- An instance of C2: the first `addLink("a")` on the empty graph creates the node. -/
theorem addLink_once_witness :
    (¬ ∃ n ∈ ([] : Webgraph), n.url = "a") ∧
      addLink [] "a" = ([] ++ [Node.create "a" creationTimestamp], true) ∧
      (Node.create "a" creationTimestamp).url = "a" ∧
      (addLink [] "a").1.length = ([] : Webgraph).length + 1 :=
  ⟨by simp, (addLink_once [] "a").1 (by simp)⟩

/-- C3: in every graph state (reachable or not) `addConnection(a, b)` returns; it returns
false exactly when, before the call, the nodes found for `a` and for `b` exist with `b` among
the children of the first and `a` among the parents of the second; the graph is then left
unchanged.  A second `addConnection(a, b)` right after a first one returns false and changes
nothing. -/
theorem addConnection_idempotent (g : Webgraph) (a b : String) :
    ∃ g' r, addConnection g a b = some (g', r) ∧
      (r = false ↔ ∃ na nb, getNodeFromLink g a = some na ∧ getNodeFromLink g b = some nb ∧
        b ∈ na.children ∧ a ∈ nb.parents) ∧
      (r = false → g' = g) ∧
      addConnection g' a b = some (g', false) := by
  obtain ⟨g', r, h⟩ := addConnection_isSome g a b
  obtain ⟨hiff, hsame⟩ := addConnection_flag h
  refine ⟨g', r, h, hiff, hsame, ?_⟩
  obtain ⟨_, _, ⟨na, hna, hc⟩, ⟨nb, hnb, hp⟩⟩ := addConnection_linked h
  obtain ⟨g'', r', h'⟩ := addConnection_isSome g' a b
  obtain ⟨hiff', hsame'⟩ := addConnection_flag h'
  have hr' : r' = false := hiff'.mpr ⟨na, nb, hna, hnb, hc, hp⟩
  rw [h', hsame' hr', hr']

/-! ## Invariants -/

/-- C4: in every graph built from the empty graph by `addLink` and `addConnection` calls, no
node has the same identifier twice among its children or twice among its parents. -/
theorem built_noDuplicateEdges (g : Webgraph) (h : Built g) :
    ∀ n ∈ g, n.children.Nodup ∧ n.parents.Nodup :=
  reachable_noDuplicateEdges (built_reachable ⟨0, 0⟩ h)

/-- An instance of C4: the graph built by the connections A→B, A→C and B→C. -/
theorem built_noDuplicateEdges_witness :
    Built (scenarioGraph 0 0 0) ∧
      ∀ n ∈ scenarioGraph 0 0 0, n.children.Nodup ∧ n.parents.Nodup :=
  ⟨scenario_built, built_noDuplicateEdges _ scenario_built⟩

/-- C5: in every graph reached from the empty graph by `addLink`, `addConnection` and
returning `updateRank` calls, every identifier among the children or the parents of a node
is the url of a node, so that its lookup by `getNodeIndexFromLink` is an index in range. -/
theorem reachable_edgeClosure (P : Params) (g : Webgraph) (h : Reachable P g) :
    ∀ n ∈ g, ∀ u, u ∈ n.children ∨ u ∈ n.parents →
      hasLink g u = true ∧ (∃ m ∈ g, m.url = u) ∧ getNodeIndexFromLink g u < g.length := by
  intro n hn u hu
  have hl : hasLink g u = true := by
    rcases hu with hu | hu
    · exact (reachable_edgeClosed h n hn).1 u hu
    · exact (reachable_edgeClosed h n hn).2 u hu
  exact ⟨hl, (hasLink_iff g u).mp hl, (getNodeIndexFromLink_lt_iff g u).mpr hl⟩

/-- An instance of C5: the graph A→B, A→C, B→C after the propagation from A. -/
theorem reachable_edgeClosure_witness :
    Reachable scenarioParams (scenarioGraph (3 / 20) (171 / 800) (6327 / 16000)) ∧
      ∀ n ∈ scenarioGraph (3 / 20) (171 / 800) (6327 / 16000), ∀ u,
        u ∈ n.children ∨ u ∈ n.parents →
        hasLink (scenarioGraph (3 / 20) (171 / 800) (6327 / 16000)) u = true ∧
        (∃ m ∈ scenarioGraph (3 / 20) (171 / 800) (6327 / 16000), m.url = u) ∧
        getNodeIndexFromLink (scenarioGraph (3 / 20) (171 / 800) (6327 / 16000)) u <
          (scenarioGraph (3 / 20) (171 / 800) (6327 / 16000)).length :=
  ⟨scenario_reachable, reachable_edgeClosure _ _ scenario_reachable⟩

/-- C6: in every graph reached from the empty graph by `addLink`, `addConnection` and
returning `updateRank` calls, two positions of the node list that hold nodes with the same
identifier are the same position. -/
theorem reachable_uniqueUrls (P : Params) (g : Webgraph) (h : Reachable P g) :
    ∀ (i j : Nat) (ni nj : Node),
      g[i]? = some ni → g[j]? = some nj → ni.url = nj.url → i = j := by
  intro i j ni nj hi hj hu
  have hnd := reachable_nodup_urls h
  rw [← getNodeIndexFromLink_of_nodup hnd hi, ← getNodeIndexFromLink_of_nodup hnd hj, hu]

/-- An instance of C6: the graph A→B, A→C, B→C after the propagation from A. -/
theorem reachable_uniqueUrls_witness :
    Reachable scenarioParams (scenarioGraph (3 / 20) (171 / 800) (6327 / 16000)) ∧
      ∀ (i j : Nat) (ni nj : Node),
        (scenarioGraph (3 / 20) (171 / 800) (6327 / 16000))[i]? = some ni →
        (scenarioGraph (3 / 20) (171 / 800) (6327 / 16000))[j]? = some nj →
        ni.url = nj.url → i = j :=
  ⟨scenario_reachable, reachable_uniqueUrls _ _ scenario_reachable⟩
/-! ## Rank query -/

/-- C7, as stated, fails in the arithmetic of the code.  With the damping factor 0.625 the
calls `addConnection("A", "B")` and `updateRank("A")` leave the ranks 0.375 and 0.609375,
both of them `float` values.  The node B has the maximum raw rank.  The scale factor
`10 / 0.609375`, rounded to a `float`, is 8603701 / 2^19, and its product with 0.609375,
rounded to a `float`, is 10485761 / 2^20 = 10.00000095...: the normalized rank of B is above
10 and is not 10, where exact arithmetic yields 10. -/
theorem normalization_rounding_counterexample :
    0 < roundingParams.damping_factor ∧ roundingParams.damping_factor < 1 ∧
    Built (roundingGraph 0 0) ∧
    updateRank roundingParams 2 (roundingGraph 0 0) "A" =
      Outcome.done (roundingGraph (3 / 8) (39 / 64), 2) ∧
    Reachable roundingParams (roundingGraph (3 / 8) (39 / 64)) ∧
    round32 (3 / 8) = 3 / 8 ∧ round32 (39 / 64) = 39 / 64 ∧
    roundingGraph (3 / 8) (39 / 64) ≠ [] ∧
    (∃ n ∈ roundingGraph (3 / 8) (39 / 64), n.rank ≠ FVal.fin 0) ∧
    (∀ m ∈ roundingGraph (3 / 8) (39 / 64), FVal.lt (FVal.fin (39 / 64)) m.rank = false) ∧
    getAllRanks32 (roundingGraph (3 / 8) (39 / 64)) "B" =
      some (FVal.fin (39 / 64), FVal.fin (10485761 / 1048576)) ∧
    (10 : ℚ) < 10485761 / 1048576 ∧
    getAllRanks (roundingGraph (3 / 8) (39 / 64)) "B" =
      some (FVal.fin (39 / 64), FVal.fin 10) ∧
    ¬ NormalizationWithin 0 (roundingGraph (3 / 8) (39 / 64)) := by
  have hmax : ∀ m ∈ roundingGraph (3 / 8) (39 / 64),
      FVal.lt (FVal.fin (39 / 64)) m.rank = false := by
    intro m hm
    simp only [roundingGraph, List.mem_cons, List.mem_singleton, List.not_mem_nil,
      or_false] at hm
    rcases hm with rfl | rfl <;> norm_num [FVal.lt_fin]
  refine ⟨by norm_num [roundingParams], by norm_num [roundingParams], rounding_built,
    rounding_run, rounding_reachable, rounding_ranks_exact.2.1, rounding_ranks_exact.2.2.2,
    by simp [roundingGraph],
    ⟨⟨"B", FVal.fin (39 / 64), 0, [], ["A"]⟩, by simp [roundingGraph], by norm_num⟩,
    hmax, rounding_query, by norm_num, rounding_query_exact, ?_⟩
  intro h
  obtain ⟨raw, v, hq, hv⟩ := h.2 ⟨"B", FVal.fin (39 / 64), 0, [], ["A"]⟩
    (by simp [roundingGraph]) hmax
  rw [rounding_query] at hq
  have h2 := congrArg (fun e => e.2) (Option.some.inj hq)
  simp only at h2
  have h3 : (10485761 / 1048576 : ℚ) = v := FVal.fin.inj h2
  rw [← h3] at hv
  rw [abs_of_pos (by norm_num)] at hv
  norm_num at hv

/-- C7, amended: in a non-empty graph reached from the empty graph by `addLink`,
`addConnection` and returning `updateRank` calls, with a damping factor strictly between 0
and 1, in which at least one node has a nonzero rank, every normalized rank returned by
`getAllRanks`, its quotient and its products rounded to a `float` as in the code, lies in
the interval from 0 to `10 + 2^(-20)`, and the normalized rank of every node of maximum raw
rank differs from 10 by at most `2^(-20)`, one unit in the last place of a `float` of this
size. -/
theorem normalization_within_ulp (P : Params) (hd0 : 0 < P.damping_factor)
    (hd1 : P.damping_factor < 1) (g : Webgraph) (h : Reachable P g)
    (hpos : ∃ n ∈ g, n.rank ≠ FVal.fin 0) : NormalizationWithin (1 / 2 ^ (20 : ℕ)) g :=
  normalizationWithin_of_nonneg g (reachable_nodup_urls h)
    (fun _ hn => ranksInRange_nonneg hd1 (reachable_ranksInRange hd0 hd1 h) hn) hpos

/-- An instance of C7 as amended: the graph A→B after the propagation from A with the damping
factor 0.625. -/
theorem normalization_within_ulp_witness :
    0 < roundingParams.damping_factor ∧ roundingParams.damping_factor < 1 ∧
    Reachable roundingParams (roundingGraph (3 / 8) (39 / 64)) ∧
    (∃ n ∈ roundingGraph (3 / 8) (39 / 64), n.rank ≠ FVal.fin 0) ∧
    NormalizationWithin (1 / 2 ^ (20 : ℕ)) (roundingGraph (3 / 8) (39 / 64)) :=
  have hd0 : 0 < roundingParams.damping_factor := by norm_num [roundingParams]
  have hd1 : roundingParams.damping_factor < 1 := by norm_num [roundingParams]
  have hpos : ∃ n ∈ roundingGraph (3 / 8) (39 / 64), n.rank ≠ FVal.fin 0 :=
    ⟨⟨"B", FVal.fin (39 / 64), 0, [], ["A"]⟩, by simp [roundingGraph], by norm_num⟩
  ⟨hd0, hd1, rounding_reachable, hpos,
    normalization_within_ulp roundingParams hd0 hd1 _ rounding_reachable hpos⟩

/-! ## Rank propagation -/

/-- C8: for every graph, every damping factor and every identifier `x` whose node has no
parents and no children, `updateRank(x)` returns after processing exactly one queue entry;
the node of `x` then has the rank `1 - damping_factor`, whatever its rank was before, and
every other position of the node list is unchanged. -/
theorem updateRank_isolated (P : Params) (g : Webgraph) (x : String) (n : Node)
    (hx : getNodeFromLink g x = some n) (hp : n.parents = []) (hc : n.children = []) :
    ∃ g', (∀ fuel, 1 ≤ fuel → updateRank P fuel g x = Outcome.done (g', 1)) ∧
      getNodeFromLink g' x =
        some (n.updateRank (FVal.fin (1 - P.damping_factor))) ∧
      ∀ k, k ≠ getNodeIndexFromLink g x → g'[k]? = g[k]? := by
  have hx' : g[getNodeIndexFromLink g x]? = some n := hx
  have hlt : getNodeIndexFromLink g x < g.length := (List.getElem?_eq_some.mp hx').1
  have hstep : updateHelperStep P g (getNodeIndexFromLink g x) [] =
      some (g.set (getNodeIndexFromLink g x)
        (n.updateRank (FVal.fin (1 - P.damping_factor))), []) := by
    unfold updateHelperStep
    simp only [hx', getIncomingLinks, getOutgoingLinks, hp, incomingSum, FVal.sub_fin,
      FVal.mul_fin, FVal.add_fin, mul_zero, add_zero]
    split
    · rfl
    · simp [Node.updateRank, hc]
  refine ⟨g.set (getNodeIndexFromLink g x) (n.updateRank (FVal.fin (1 - P.damping_factor))),
    ?_, ?_, ?_⟩
  · intro fuel hfuel
    have h1 : updateHelper P (0 + 1) g [getNodeIndexFromLink g x] = Outcome.done
        (g.set (getNodeIndexFromLink g x)
          (n.updateRank (FVal.fin (1 - P.damping_factor))), 0 + 1) :=
      updateHelper_cons hstep (by simp [updateHelper])
    exact updateHelper_fuel_mono h1 hfuel
  · unfold getNodeFromLink
    have hu : urls (g.set (getNodeIndexFromLink g x)
        (n.updateRank (FVal.fin (1 - P.damping_factor)))) = urls g :=
      urls_eq_of_eraseRanks (eraseRanks_set_updateRank hx' _)
    rw [getNodeIndexFromLink_congr hu.symm]
    simp [hlt]
  · intro k hk
    rw [List.getElem?_set_ne (Ne.symm hk)]

/-- An instance of C8: a single node without edges and with rank 5. -/
theorem updateRank_isolated_witness :
    ∃ g', (∀ fuel, 1 ≤ fuel →
        updateRank ⟨85 / 100, 1 / 10000⟩ fuel [⟨"a", FVal.fin 5, 0, [], []⟩] "a" =
          Outcome.done (g', 1)) ∧
      getNodeFromLink g' "a" =
        some ((⟨"a", FVal.fin 5, 0, [], []⟩ : Node).updateRank
          (FVal.fin (1 - (⟨85 / 100, 1 / 10000⟩ : Params).damping_factor))) ∧
      ∀ k, k ≠ getNodeIndexFromLink [⟨"a", FVal.fin 5, 0, [], []⟩] "a" →
        g'[k]? = ([⟨"a", FVal.fin 5, 0, [], []⟩] : Webgraph)[k]? :=
  updateRank_isolated ⟨85 / 100, 1 / 10000⟩ [⟨"a", FVal.fin 5, 0, [], []⟩] "a"
    ⟨"a", FVal.fin 5, 0, [], []⟩ (by decide) rfl rfl

/-- C9: from the empty graph, `addConnection("A","B")`, `addConnection("A","C")` and
`addConnection("B","C")` all return; with damping factor 0.85 and threshold 0.0001 a
single `updateRank("A")` then returns after four processed queue entries, and the raw rank of
C, 6327/16000, is strictly greater than the raw rank of B, 171/800.  A relative change against
an old rank 0 is `+inf` or `NaN`, hence not below the threshold. -/
theorem scenario_C_outranks_B :
    ∃ g1 g2 g3 g4 r1 r2 r3,
      addConnection [] "A" "B" = some (g1, r1) ∧
      addConnection g1 "A" "C" = some (g2, r2) ∧
      addConnection g2 "B" "C" = some (g3, r3) ∧
      (∀ fuel, 4 ≤ fuel →
        updateRank ⟨85 / 100, 1 / 10000⟩ fuel g3 "A" = Outcome.done (g4, 4)) ∧
      (getNodeFromLink g4 "B").map Node.rank = some (FVal.fin (171 / 800)) ∧
      (getNodeFromLink g4 "C").map Node.rank = some (FVal.fin (6327 / 16000)) ∧
      FVal.lt (FVal.fin (171 / 800)) (FVal.fin (6327 / 16000)) = true := by
  refine ⟨_, _, _, scenarioGraph (3 / 20) (171 / 800) (6327 / 16000), _, _, _,
    scenario_built_eq.1, scenario_built_eq.2.1, scenario_built_eq.2.2, ?_, ?_, ?_, ?_⟩
  · intro fuel hfuel
    exact updateHelper_fuel_mono scenario_run hfuel
  · unfold getNodeFromLink
    rw [(scenario_index _ _ _).2.1]
    rfl
  · unfold getNodeFromLink
    rw [(scenario_index _ _ _).2.2]
    rfl
  · rw [FVal.lt_fin]
    norm_num

/-- C10: let `g₀` be built from the empty graph by `addLink` and `addConnection` calls, with a
children relation without directed cycle, and let `g` be `g₀` with arbitrary rank values.
For every identifier `s` of a node and all constants, `updateRank(s)` on `g` returns: from
some fuel on, the run ends with an empty work queue. -/
theorem updateRank_terminates_of_acyclic (P : Params) (g₀ g : Webgraph) (s : String)
    (hb : Built g₀) (hac : Acyclic g₀) (hg : eraseRanks g = eraseRanks g₀)
    (hs : hasLink g₀ s = true) :
    ∃ fuel g' k, ∀ fuel', fuel ≤ fuel' → updateRank P fuel' g s = Outcome.done (g', k) := by
  have hc : EdgeClosed g₀ := reachable_edgeClosed (built_reachable P hb)
  have hidx : getNodeIndexFromLink g s = getNodeIndexFromLink g₀ s :=
    getNodeIndexFromLink_congr (urls_eq_of_eraseRanks hg).symm s
  have hq : ∀ i ∈ [getNodeIndexFromLink g s], i < g₀.length := by
    intro i hi
    rw [List.mem_singleton] at hi
    rw [hi, hidx]
    exact (getNodeIndexFromLink_lt_iff g₀ s).mpr hs
  obtain ⟨fuel, g', k, hrun⟩ :=
    updateHelper_terminates P hc (childIndex_wf hc hac) [getNodeIndexFromLink g s] g hg hq
  exact ⟨fuel, g', k, fun fuel' hle => updateHelper_fuel_mono hrun hle⟩

/-- An instance of C10: the graph A→B, A→C, B→C with the ranks 1, 2 and 3, started at A. -/
theorem updateRank_terminates_of_acyclic_witness :
    Built (scenarioGraph 0 0 0) ∧ Acyclic (scenarioGraph 0 0 0) ∧
    eraseRanks (scenarioGraph 1 2 3) = eraseRanks (scenarioGraph 0 0 0) ∧
    hasLink (scenarioGraph 0 0 0) "A" = true ∧
    ∃ fuel g' k, ∀ fuel', fuel ≤ fuel' →
      updateRank scenarioParams fuel' (scenarioGraph 1 2 3) "A" = Outcome.done (g', k) :=
  ⟨scenario_built, scenario_acyclic 0 0 0, rfl, rfl,
    updateRank_terminates_of_acyclic scenarioParams (scenarioGraph 0 0 0) (scenarioGraph 1 2 3)
      "A" scenario_built (scenario_acyclic 0 0 0) rfl rfl⟩

/-! ## Convergence -/

/-- C12: in a graph whose nodes have pairwise distinct urls and whose maximum rank `M` is
strictly positive (some node has the rank `M` and no rank is greater), the urls with an
entry in the map returned by `getAllRanks` are exactly the urls of the nodes, and the entry
of every node `n` is the pair of `rank(n)` and `rank(n) * (10 / M)`. -/
theorem getAllRanks_entries (g : Webgraph) (M : ℚ) (hnd : (urls g).Nodup)
    (hmax : ∀ n ∈ g, FVal.gt n.rank (FVal.fin M) = false)
    (hatt : ∃ n ∈ g, n.rank = FVal.fin M) (hpos : 0 < M) :
    (∀ k, (∃ e, getAllRanks g k = some e) ↔ ∃ n ∈ g, n.url = k) ∧
    ∀ n ∈ g, getAllRanks g n.url =
      some (n.rank, FVal.mul n.rank (FVal.div (FVal.fin 10) (FVal.fin M))) := by
  obtain ⟨M', hM', _, hle, hall⟩ := collectRanks_snd_le hmax RankMap.empty 0 (le_of_lt hpos)
  obtain ⟨n0, hn0, hr0⟩ := hatt
  have hMM : M' = M := le_antisymm hle (hall n0 hn0 M hr0)
  constructor
  · intro k
    rw [getAllRanks_apply]
    constructor
    · rintro ⟨e, he⟩
      cases hl : lastWithUrl g k with
      | none => rw [hl] at he; exact absurd he (by simp)
      | some n => exact ⟨n, lastWithUrl_mem hl⟩
    · rintro ⟨n, hn, hu⟩
      cases hl : lastWithUrl g k with
      | none => exact absurd hu (lastWithUrl_eq_none hl n hn)
      | some n' => exact ⟨_, rfl⟩
  · intro n hn
    rw [getAllRanks_apply, lastWithUrl_of_nodup hnd hn, hM', hMM]

/-- An instance of C12: the graph A→B, A→C, B→C after the propagation from A, whose maximum
rank is 6327/16000. -/
theorem getAllRanks_entries_witness :
    (urls (scenarioGraph (3 / 20) (171 / 800) (6327 / 16000))).Nodup ∧
    (∀ n ∈ scenarioGraph (3 / 20) (171 / 800) (6327 / 16000),
      FVal.gt n.rank (FVal.fin (6327 / 16000)) = false) ∧
    (∃ n ∈ scenarioGraph (3 / 20) (171 / 800) (6327 / 16000),
      n.rank = FVal.fin (6327 / 16000)) ∧
    (0 : ℚ) < 6327 / 16000 ∧
    ((∀ k, (∃ e, getAllRanks (scenarioGraph (3 / 20) (171 / 800) (6327 / 16000)) k = some e) ↔
        ∃ n ∈ scenarioGraph (3 / 20) (171 / 800) (6327 / 16000), n.url = k) ∧
      ∀ n ∈ scenarioGraph (3 / 20) (171 / 800) (6327 / 16000),
        getAllRanks (scenarioGraph (3 / 20) (171 / 800) (6327 / 16000)) n.url =
          some (n.rank,
            FVal.mul n.rank (FVal.div (FVal.fin 10) (FVal.fin (6327 / 16000))))) :=
  have hnd : (urls (scenarioGraph (3 / 20) (171 / 800) (6327 / 16000))).Nodup := by decide
  have hmax : ∀ n ∈ scenarioGraph (3 / 20) (171 / 800) (6327 / 16000),
      FVal.gt n.rank (FVal.fin (6327 / 16000)) = false := by
    intro n hn
    simp only [scenarioGraph, List.mem_cons, List.mem_singleton, List.not_mem_nil,
      or_false] at hn
    rcases hn with rfl | rfl | rfl <;> norm_num [FVal.gt, FVal.lt_fin]
  have hatt : ∃ n ∈ scenarioGraph (3 / 20) (171 / 800) (6327 / 16000),
      n.rank = FVal.fin (6327 / 16000) :=
    ⟨⟨"C", FVal.fin (6327 / 16000), 0, [], ["A", "B"]⟩, by simp [scenarioGraph], rfl⟩
  have hpos : (0 : ℚ) < 6327 / 16000 := by norm_num
  ⟨hnd, hmax, hatt, hpos, getAllRanks_entries _ _ hnd hmax hatt hpos⟩

/-- C13: `hasLink(x)` is true exactly when some node has the url `x`.  When it is true,
`getNodeIndexFromLink(x)` is the index of the first node with the url `x`, and
`getNodeFromLink(x)` returns this node; when it is false, `getNodeIndexFromLink(x)` is the
number of nodes, which is no index of the node list. -/
theorem lookup_spec (g : Webgraph) (x : String) :
    (hasLink g x = true ↔ ∃ n ∈ g, n.url = x) ∧
    (hasLink g x = true → ∃ n, g[getNodeIndexFromLink g x]? = some n ∧ n.url = x ∧
      (∀ j m, j < getNodeIndexFromLink g x → g[j]? = some m → m.url ≠ x) ∧
      getNodeFromLink g x = some n) ∧
    (hasLink g x = false → getNodeIndexFromLink g x = g.length ∧
      g[getNodeIndexFromLink g x]? = none ∧ getNodeFromLink g x = none) := by
  refine ⟨hasLink_iff g x, ?_, ?_⟩
  · intro h
    obtain ⟨n, hn, hu, hmin⟩ := getNodeIndexFromLink_spec h
    exact ⟨n, hn, hu, hmin, hn⟩
  · intro h
    have hlen := getNodeIndexFromLink_of_not_hasLink h
    have hnone : g[getNodeIndexFromLink g x]? = none := by
      rw [hlen]; simp
    exact ⟨hlen, hnone, hnone⟩

/-- An instance of C13: the url "B" is found at index 1 of the graph A→B, A→C, B→C. -/
theorem lookup_spec_witness :
    hasLink (scenarioGraph 0 0 0) "B" = true ∧
    ∃ n, (scenarioGraph 0 0 0)[getNodeIndexFromLink (scenarioGraph 0 0 0) "B"]? = some n ∧
      n.url = "B" ∧
      (∀ j m, j < getNodeIndexFromLink (scenarioGraph 0 0 0) "B" →
        (scenarioGraph 0 0 0)[j]? = some m → m.url ≠ "B") ∧
      getNodeFromLink (scenarioGraph 0 0 0) "B" = some n :=
  ⟨rfl, (lookup_spec (scenarioGraph 0 0 0) "B").2.1 rfl⟩

/-! ## One propagation step -/

/-- C14: in an edge-closed graph, a step of `updateHelper` on the node `n` at the front
index `i` of the queue does not fail; it overwrites the rank of this node with
`(1 - damping_factor) + damping_factor * S`, where `S` adds up, in the order of the parents
list and from the ranks held before the step, the shares `rank(p) / (number of children of
p)` of the parents `p` of `n`; every other position of the node list is unchanged. -/
theorem step_overwrites_front_rank (P : Params) (g : Webgraph) (hc : EdgeClosed g) (i : Nat)
    (n : Node) (hn : g[i]? = some n) (rest : List Nat) :
    ∃ (shares : List FVal) (g1 : Webgraph) (q1 : List Nat),
      List.Forall₂ (fun p s => ∃ m, getNodeFromLink g p = some m ∧
        s = FVal.div m.rank (FVal.fin m.children.length)) n.parents shares ∧
      updateHelperStep P g i rest = some (g1, q1) ∧
      g1[i]? = some (n.updateRank (FVal.add (FVal.fin (1 - P.damping_factor))
        (FVal.mul (FVal.fin P.damping_factor) (shares.foldl FVal.add (FVal.fin 0))))) ∧
      ∀ k, k ≠ i → g1[k]? = g[k]? := by
  obtain ⟨shares, hsh, hsum⟩ :=
    incomingSum_shares (hc n (List.getElem?_mem hn)).2 (FVal.fin 0)
  have hi : i < g.length := (List.getElem?_eq_some.mp hn).1
  refine ⟨shares, _, _, hsh, updateHelperStep_eq hn hsum rest, ?_, ?_⟩
  · rw [List.getElem?_set_self hi]
    simp only [dampedRank, FVal.sub_fin]
  · intro k hk
    rw [List.getElem?_set_ne (Ne.symm hk)]

/-- An instance of C14: the step on C (index 2) of the graph A→B, A→C, B→C. -/
theorem step_overwrites_front_rank_witness :
    EdgeClosed (scenarioGraph 1 2 3) ∧
    (scenarioGraph 1 2 3)[2]? = some ⟨"C", FVal.fin 3, 0, [], ["A", "B"]⟩ ∧
    ∃ (shares : List FVal) (g1 : Webgraph) (q1 : List Nat),
      List.Forall₂ (fun p s => ∃ m, getNodeFromLink (scenarioGraph 1 2 3) p = some m ∧
        s = FVal.div m.rank (FVal.fin m.children.length))
        (⟨"C", FVal.fin 3, 0, [], ["A", "B"]⟩ : Node).parents shares ∧
      updateHelperStep scenarioParams (scenarioGraph 1 2 3) 2 [] = some (g1, q1) ∧
      g1[2]? = some ((⟨"C", FVal.fin 3, 0, [], ["A", "B"]⟩ : Node).updateRank
        (FVal.add (FVal.fin (1 - scenarioParams.damping_factor))
          (FVal.mul (FVal.fin scenarioParams.damping_factor)
            (shares.foldl FVal.add (FVal.fin 0))))) ∧
      ∀ k, k ≠ 2 → g1[k]? = (scenarioGraph 1 2 3)[k]? :=
  have hc : EdgeClosed (scenarioGraph 1 2 3) :=
    @edgeClosed_of_eraseRanks (scenarioGraph 0 0 0) (scenarioGraph 1 2 3) rfl
      (reachable_edgeClosed (built_reachable scenarioParams scenario_built))
  ⟨hc, rfl, step_overwrites_front_rank scenarioParams (scenarioGraph 1 2 3) hc 2
    ⟨"C", FVal.fin 3, 0, [], ["A", "B"]⟩ rfl []⟩

/-- C15: a step of `updateHelper` that does not fail on the queue with the front index `i`
and the rest `rest` hands on the queue `rest` when the convergence test on the new and the
old rank of the node at `i` succeeds, and otherwise `rest` followed by the indices of all
children of this node, in the order of its children list. -/
theorem updateHelperStep_queue (P : Params) (g g1 : Webgraph) (i : Nat)
    (rest q1 : List Nat) (h : updateHelperStep P g i rest = some (g1, q1)) :
    ∃ n sum, g[i]? = some n ∧ incomingSum g n.parents (FVal.fin 0) = some sum ∧
      (converged P (dampedRank P sum) n.rank = true → q1 = rest) ∧
      (converged P (dampedRank P sum) n.rank = false →
        q1 = rest ++ n.children.map (getNodeIndexFromLink g)) := by
  obtain ⟨n, sum, hn, hs⟩ := updateHelperStep_some h
  rw [updateHelperStep_eq hn hs rest] at h
  have hq := (Prod.mk.inj (Option.some.inj h)).2
  refine ⟨n, sum, hn, hs, ?_, ?_⟩
  · intro hconv
    rw [← hq, if_pos hconv]
  · intro hconv
    rw [← hq, if_neg (by rw [hconv]; exact Bool.false_ne_true)]

/-- An instance of C15: the step on B in the scenario, with C already in the queue, enqueues
C a second time. -/
theorem updateHelperStep_queue_witness :
    updateHelperStep scenarioParams (scenarioGraph (3 / 20) 0 0) 1 [2] =
      some (scenarioGraph (3 / 20) (171 / 800) 0, [2] ++ [2]) ∧
    ∃ n sum, (scenarioGraph (3 / 20) 0 0)[1]? = some n ∧
      incomingSum (scenarioGraph (3 / 20) 0 0) n.parents (FVal.fin 0) = some sum ∧
      (converged scenarioParams (dampedRank scenarioParams sum) n.rank = true →
        [2] ++ [2] = [2]) ∧
      (converged scenarioParams (dampedRank scenarioParams sum) n.rank = false →
        [2] ++ [2] =
          [2] ++ n.children.map (getNodeIndexFromLink (scenarioGraph (3 / 20) 0 0))) :=
  ⟨scenario_step_B 0 [2],
    updateHelperStep_queue scenarioParams (scenarioGraph (3 / 20) 0 0)
      (scenarioGraph (3 / 20) (171 / 800) 0) 1 [2] ([2] ++ [2]) (scenario_step_B 0 [2])⟩

/-! ## Divisions by zero -/

/-- C16: in a graph built by `addLink` and `addConnection` calls only, every rank is 0, and
the first step of `updateRank(s)` for an existing identifier `s` does not fail before the
convergence test; there the relative change is divided by the old rank 0, which the guarded
division rejects.  The unguarded test fails, so the children of the node are enqueued. -/
theorem first_step_divides_by_zero (P : Params) (g : Webgraph) (s : String) (hb : Built g)
    (hs : hasLink g s = true) :
    (∀ n ∈ g, n.rank = FVal.fin 0) ∧
    ∃ n sum g1, g[getNodeIndexFromLink g s]? = some n ∧ n.rank = FVal.fin 0 ∧
      incomingSum g n.parents (FVal.fin 0) = some sum ∧
      FVal.divGuarded (FVal.abs (FVal.sub (dampedRank P sum) n.rank)) n.rank = none ∧
      converged P (dampedRank P sum) n.rank = false ∧
      updateHelperStep P g (getNodeIndexFromLink g s) [] =
        some (g1, n.children.map (getNodeIndexFromLink g)) := by
  have hzero := built_ranks_zero hb
  have hc : EdgeClosed g := reachable_edgeClosed (built_reachable P hb)
  obtain ⟨n, hn, _, _⟩ := getNodeIndexFromLink_spec hs
  have hr : n.rank = FVal.fin 0 := hzero n (List.getElem?_mem hn)
  obtain ⟨sum, hsum⟩ := incomingSum_isSome (hc n (List.getElem?_mem hn)).2 (FVal.fin 0)
  have hconv : converged P (dampedRank P sum) n.rank = false := by
    rw [hr]; exact converged_zero P _
  refine ⟨hzero, n, sum,
    g.set (getNodeIndexFromLink g s) (n.updateRank (dampedRank P sum)), hn, hr, hsum, ?_,
    hconv, ?_⟩
  · rw [hr]; simp [FVal.divGuarded]
  · rw [updateHelperStep_eq hn hsum [], hconv]
    simp

/-- An instance of C16: the graph A→B, A→C, B→C, started at B. -/
theorem first_step_divides_by_zero_witness :
    Built (scenarioGraph 0 0 0) ∧ hasLink (scenarioGraph 0 0 0) "B" = true ∧
    ((∀ n ∈ scenarioGraph 0 0 0, n.rank = FVal.fin 0) ∧
    ∃ n sum g1,
      (scenarioGraph 0 0 0)[getNodeIndexFromLink (scenarioGraph 0 0 0) "B"]? = some n ∧
      n.rank = FVal.fin 0 ∧
      incomingSum (scenarioGraph 0 0 0) n.parents (FVal.fin 0) = some sum ∧
      FVal.divGuarded (FVal.abs (FVal.sub (dampedRank scenarioParams sum) n.rank)) n.rank =
        none ∧
      converged scenarioParams (dampedRank scenarioParams sum) n.rank = false ∧
      updateHelperStep scenarioParams (scenarioGraph 0 0 0)
        (getNodeIndexFromLink (scenarioGraph 0 0 0) "B") [] =
        some (g1, n.children.map (getNodeIndexFromLink (scenarioGraph 0 0 0)))) :=
  ⟨scenario_built, rfl,
    first_step_divides_by_zero scenarioParams (scenarioGraph 0 0 0) "B" scenario_built rfl⟩

/-- C17: when no node has a strictly positive rank, the first loop of `getAllRanks` leaves
`rank_max` at its initial value 0, and the scale factor is `10 / 0`: the guarded division
rejects it, the unguarded one yields `+inf`, by which every rank is then multiplied.  This
is so in every graph whose ranks are all 0, hence in the empty graph and in every graph built
by `addLink` and `addConnection` calls only. -/
theorem getAllRanks_divides_by_zero (g : Webgraph) :
    (Built g → ∀ n ∈ g, n.rank = FVal.fin 0) ∧
    ((∀ n ∈ g, n.rank = FVal.fin 0) → ∀ n ∈ g, FVal.gt n.rank (FVal.fin 0) = false) ∧
    ((∀ n ∈ g, FVal.gt n.rank (FVal.fin 0) = false) →
      (collectRanks g (RankMap.empty, FVal.fin 0)).2 = FVal.fin 0 ∧
      FVal.divGuarded (FVal.fin 10) (collectRanks g (RankMap.empty, FVal.fin 0)).2 = none ∧
      FVal.div (FVal.fin 10) (collectRanks g (RankMap.empty, FVal.fin 0)).2 = FVal.pinf ∧
      getAllRanks g =
        storeNormalized FVal.pinf g (collectRanks g (RankMap.empty, FVal.fin 0)).1) := by
  refine ⟨built_ranks_zero, ?_, ?_⟩
  · intro h n hn
    rw [h n hn]
    simp [FVal.gt, FVal.lt_fin]
  · intro h
    obtain ⟨M', hM', h0, hle, _⟩ := collectRanks_snd_le h RankMap.empty 0 (le_refl _)
    have hM0 : M' = 0 := le_antisymm hle h0
    rw [hM0] at hM'
    have hdiv : FVal.div (FVal.fin 10) (FVal.fin 0) = FVal.pinf := by
      norm_num [FVal.div, FVal.infOf]
    refine ⟨hM', ?_, ?_, ?_⟩
    · rw [hM']; simp [FVal.divGuarded]
    · rw [hM']; exact hdiv
    · unfold getAllRanks
      simp only [hM', hdiv]

/-- An instance of C17: the graph A→B, A→C, B→C as built, all ranks 0. -/
theorem getAllRanks_divides_by_zero_witness :
    Built (scenarioGraph 0 0 0) ∧
    (∀ n ∈ scenarioGraph 0 0 0, FVal.gt n.rank (FVal.fin 0) = false) ∧
    (collectRanks (scenarioGraph 0 0 0) (RankMap.empty, FVal.fin 0)).2 = FVal.fin 0 ∧
    FVal.divGuarded (FVal.fin 10)
      (collectRanks (scenarioGraph 0 0 0) (RankMap.empty, FVal.fin 0)).2 = none ∧
    FVal.div (FVal.fin 10)
      (collectRanks (scenarioGraph 0 0 0) (RankMap.empty, FVal.fin 0)).2 = FVal.pinf ∧
    getAllRanks (scenarioGraph 0 0 0) =
      storeNormalized FVal.pinf (scenarioGraph 0 0 0)
        (collectRanks (scenarioGraph 0 0 0) (RankMap.empty, FVal.fin 0)).1 :=
  have h0 := (getAllRanks_divides_by_zero (scenarioGraph 0 0 0)).1 scenario_built
  have h1 := (getAllRanks_divides_by_zero (scenarioGraph 0 0 0)).2.1 h0
  ⟨scenario_built, h1, (getAllRanks_divides_by_zero (scenarioGraph 0 0 0)).2.2 h1⟩

/-! ## Symmetry, rank range and frame -/

/-- C18: let `g₀` be reached from the empty graph by `addLink`, `addConnection` and returning
`updateRank` calls, and let `g` be `g₀` up to rank values, as in any state of a propagation
started on `g₀`.  For every node `n` of `g` and every parent `p` of `n`, the node found for
`p` exists and has `n` among its children, so that its out-degree, the divisor of
`from_rank / outgoing_number`, is at least 1 and the guarded division accepts it; and for
every child `c` of `n`, the node found for `c` exists and has `n` among its parents. -/
theorem symmetric_edges_positive_outDegree (P : Params) (g₀ g : Webgraph)
    (h : Reachable P g₀) (hg : eraseRanks g = eraseRanks g₀) :
    ∀ n ∈ g,
      (∀ p ∈ n.parents, ∃ m, getNodeFromLink g p = some m ∧ n.url ∈ m.children ∧
        1 ≤ (getOutgoingLinks m).length ∧
        FVal.divGuarded m.rank (FVal.fin (getOutgoingLinks m).length) =
          some (FVal.div m.rank (FVal.fin (getOutgoingLinks m).length))) ∧
      (∀ c ∈ n.children, ∃ m, getNodeFromLink g c = some m ∧ n.url ∈ m.parents) := by
  have hsym : EdgeSymmetric g := edgeSymmetric_of_eraseRanks hg (reachable_edgeSymmetric h)
  intro n hn
  refine ⟨fun p hp => ?_, (hsym n hn).2⟩
  obtain ⟨m, hm, hmem⟩ := (hsym n hn).1 p hp
  have hpos : 0 < m.children.length := List.length_pos.mpr (List.ne_nil_of_mem hmem)
  refine ⟨m, hm, hmem, hpos, ?_⟩
  have hne : (FVal.fin (m.children.length : ℚ)) ≠ FVal.fin 0 := by
    intro heq
    have h0 : (m.children.length : ℚ) = 0 := FVal.fin.inj heq
    have : m.children.length = 0 := by exact_mod_cast h0
    omega
  simp only [FVal.divGuarded, getOutgoingLinks, hne, if_false]

/-- An instance of C18: the graph A→B, A→C, B→C with the ranks 1, 2 and 3. -/
theorem symmetric_edges_positive_outDegree_witness :
    Reachable scenarioParams (scenarioGraph 0 0 0) ∧
    eraseRanks (scenarioGraph 1 2 3) = eraseRanks (scenarioGraph 0 0 0) ∧
    ∀ n ∈ scenarioGraph 1 2 3,
      (∀ p ∈ n.parents, ∃ m, getNodeFromLink (scenarioGraph 1 2 3) p = some m ∧
        n.url ∈ m.children ∧ 1 ≤ (getOutgoingLinks m).length ∧
        FVal.divGuarded m.rank (FVal.fin (getOutgoingLinks m).length) =
          some (FVal.div m.rank (FVal.fin (getOutgoingLinks m).length))) ∧
      (∀ c ∈ n.children, ∃ m, getNodeFromLink (scenarioGraph 1 2 3) c = some m ∧
        n.url ∈ m.parents) :=
  ⟨built_reachable scenarioParams scenario_built, rfl,
    symmetric_edges_positive_outDegree scenarioParams (scenarioGraph 0 0 0)
      (scenarioGraph 1 2 3) (built_reachable scenarioParams scenario_built) rfl⟩

/-- C19: with a damping factor strictly between 0 and 1, in every graph reached from the
empty graph by `addLink`, `addConnection` and returning `updateRank` calls, every rank is
exactly 0 or a finite value of at least `1 - damping_factor`, which is strictly positive; so
no rank is negative.  For every history that leads to the graph, the nodes at the indices
processed by a propagation step have a rank of at least `1 - damping_factor`, and the ranks
of all other nodes are 0. -/
theorem rank_range (P : Params) (hd0 : 0 < P.damping_factor) (hd1 : P.damping_factor < 1)
    (g : Webgraph) (h : Reachable P g) :
    (∀ n ∈ g, n.rank = FVal.fin 0 ∨
      ∃ q : ℚ, n.rank = FVal.fin q ∧ 1 - P.damping_factor ≤ q ∧ 0 < q) ∧
    (∃ pr, ReachableTrace P g pr) ∧
    ∀ pr, ReachableTrace P g pr → ∀ (i : Nat) (n : Node), g[i]? = some n →
      (i ∈ pr → ∃ q : ℚ, n.rank = FVal.fin q ∧ 1 - P.damping_factor ≤ q ∧ 0 < q) ∧
      (i ∉ pr → n.rank = FVal.fin 0) := by
  have hall : ∀ pr, ReachableTrace P g pr → ∀ (i : Nat) (n : Node), g[i]? = some n →
      (i ∈ pr → ∃ q : ℚ, n.rank = FVal.fin q ∧ 1 - P.damping_factor ≤ q ∧ 0 < q) ∧
      (i ∉ pr → n.rank = FVal.fin 0) := by
    intro pr hpr i n hi
    obtain ⟨h1, h2⟩ := (reachableTrace_ranks hd0 hd1 hpr).2 i n hi
    refine ⟨fun hmem => ?_, h2⟩
    obtain ⟨q, hq, hle⟩ := h1 hmem
    exact ⟨q, hq, hle, by linarith⟩
  obtain ⟨pr, hpr⟩ := reachable_reachableTrace h
  refine ⟨?_, ⟨pr, hpr⟩, hall⟩
  intro n hn
  obtain ⟨i, hi⟩ := List.mem_iff_getElem?.mp hn
  by_cases hmem : i ∈ pr
  · exact Or.inr ((hall pr hpr i n hi).1 hmem)
  · exact Or.inl ((hall pr hpr i n hi).2 hmem)

/-- An instance of C19: the graph A→B, A→C, B→C after the propagation from A, with the damping
factor 0.85. -/
theorem rank_range_witness :
    0 < scenarioParams.damping_factor ∧ scenarioParams.damping_factor < 1 ∧
    Reachable scenarioParams (scenarioGraph (3 / 20) (171 / 800) (6327 / 16000)) ∧
    ∀ n ∈ scenarioGraph (3 / 20) (171 / 800) (6327 / 16000), n.rank = FVal.fin 0 ∨
      ∃ q : ℚ, n.rank = FVal.fin q ∧ 1 - scenarioParams.damping_factor ≤ q ∧ 0 < q :=
  have hd0 : 0 < scenarioParams.damping_factor := by norm_num [scenarioParams]
  have hd1 : scenarioParams.damping_factor < 1 := by norm_num [scenarioParams]
  ⟨hd0, hd1, scenario_reachable,
    (rank_range scenarioParams hd0 hd1 _ scenario_reachable).1⟩

/-- C20: a step of `updateHelper` that does not fail, and every returning `updateRank` call,
change nothing but rank fields: the node list keeps its length and, position by position, the
urls, time stamps, children and parents.  A position whose node differs after a returning
`updateRank(s)` is reached from the index of `s` along pushes of children. -/
theorem updateRank_frame (P : Params) (g : Webgraph) :
    (∀ i rest g1 q1, updateHelperStep P g i rest = some (g1, q1) → SameButRanks g g1) ∧
    ∀ s fuel g' k, updateRank P fuel g s = Outcome.done (g', k) →
      SameButRanks g g' ∧
      ∀ j, g'[j]? ≠ g[j]? → ReachesIndex g (getNodeIndexFromLink g s) j := by
  refine ⟨fun i rest g1 q1 hstep =>
    sameButRanks_of_eraseRanks (updateHelperStep_eraseRanks hstep), ?_⟩
  intro s fuel g' k hrun
  refine ⟨sameButRanks_of_eraseRanks (updateRank_eraseRanks hrun), ?_⟩
  intro j hj
  obtain ⟨tr, htr, _⟩ := updateHelper_done_trace hrun
  obtain ⟨hframe, hreach⟩ := updateHelperTrace_frame htr
  have hjt : j ∈ tr := by
    by_contra hnot
    exact hj (hframe j hnot)
  obtain ⟨i, hi, hr⟩ := hreach j hjt
  rw [List.mem_singleton] at hi
  rw [← hi]
  exact hr

/-- An instance of C20: the propagation from A in the graph A→B, A→C, B→C. -/
theorem updateRank_frame_witness :
    updateRank scenarioParams 4 (scenarioGraph 0 0 0) "A" =
      Outcome.done (scenarioGraph (3 / 20) (171 / 800) (6327 / 16000), 4) ∧
    SameButRanks (scenarioGraph 0 0 0) (scenarioGraph (3 / 20) (171 / 800) (6327 / 16000)) ∧
    ∀ j, (scenarioGraph (3 / 20) (171 / 800) (6327 / 16000))[j]? ≠ (scenarioGraph 0 0 0)[j]? →
      ReachesIndex (scenarioGraph 0 0 0)
        (getNodeIndexFromLink (scenarioGraph 0 0 0) "A") j :=
  ⟨scenario_run,
    (updateRank_frame scenarioParams (scenarioGraph 0 0 0)).2 "A" 4 _ 4 scenario_run⟩

end LinkAnalysis
